import Mathlib

/-!
Verification development for the diff-htmls engine: a shallow embedding of
the HTML word-level diff pipeline (tokenizer, recursive matcher, orphan
removal, operation synthesis, block-aware alignment, renderer) together
with theorems about the properties stated in the design document.

Conventions of the embedding:
* JavaScript strings become Lean `String`; token arrays become `List String`.
* JavaScript numbers used as indices/sizes become `Nat`; numbers used in
  score/threshold arithmetic (which mix division and rounding) become `Rat`
  or `Int` as appropriate.
* Generator functions are rendered as pure functions returning lists.
* Unbounded loops are expressed with an explicit fuel argument large enough
  for the call sites, so that every definition is executable by the kernel.
-/

set_option maxRecDepth 10000

namespace DiffHtmls

/-! ## Character helpers (the character classes of the source regexes) -/

/-- JS regex `\s` restricted to the ASCII whitespace characters that can occur
in HTML text (space, tab, newline, carriage return, form feed). -/
def isWsChar (c : Char) : Bool :=
  c = ' ' || c = '\t' || c = '\n' || c = '\r' || c = '\x0b' || c = '\x0c'

/-- JS regex word class `[\w\#@]` from `wordRegex`: letters, digits,
underscore, hash, at-sign. -/
def isWordChar (c : Char) : Bool :=
  c.isAlpha || c.isDigit || c = '_' || c = '#' || c = '@'

def isAlphaNumChar (c : Char) : Bool := c.isAlpha || c.isDigit

/-- `String.startsWith`, stated over the character lists so that it is
directly computable by the kernel. -/
def strStarts (s pre : String) : Bool := pre.toList.isPrefixOf s.toList

/-- `String.endsWith` over the character lists. -/
def strEnds (s suf : String) : Bool := suf.toList.isSuffixOf s.toList

/-- `String.toLowerCase` over the character lists. -/
def lowerStr (s : String) : String := (s.toList.map Char.toLower).asString

/-- The comparison `(x : ℚ) > (y : ℚ) * t` evaluated exactly by
cross-multiplication with the (positive) denominator of `t`, so that the
kernel can compute it (`Rat` arithmetic itself does not reduce). The
equivalence with the rational comparison is `gtMulRat_iff` below. -/
def gtMulRat (x y : ℕ) (t : ℚ) : Bool :=
  (x : ℤ) * (t.den : ℤ) > (y : ℤ) * t.num

/-! ## Utils.ts -/

/-- `specialCaseWordTags = ["<img"]` -/
def specialCaseWordTags : List String := ["<img"]

/-- `blockLevelElements` from Utils.ts. -/
def blockLevelElements : List String :=
  ["p", "div", "ul", "ol", "li", "h1", "h2", "h3", "h4", "h5", "h6",
   "blockquote", "pre", "table", "tr", "td", "th", "thead", "tbody",
   "tfoot", "article", "section", "aside", "header", "footer", "nav",
   "main", "figure", "figcaption", "dl", "dt", "dd"]

/-- `tagRegex = /^\s*<\/?[^>]+>\s*$/` as a scanner over the characters:
optional whitespace, `<`, optional `/`, one or more non-`>` characters,
`>`, optional whitespace. -/
def tagRegexTest (l : List Char) : Bool :=
  match l.dropWhile isWsChar with
  | '<' :: r =>
    let r1 := match r with
      | '/' :: r2 => r2
      | _ => r
    let body := r1.takeWhile (fun c => c ≠ '>')
    match r1.dropWhile (fun c => c ≠ '>') with
    | '>' :: tail => !body.isEmpty && tail.all isWsChar
    | _ => false
  | _ => false

/-- `isTag` from Utils.ts: `tagRegex.test item`, except that items starting
with a special-case word tag (`<img`) are never tags. -/
def isTag (item : String) : Bool :=
  if specialCaseWordTags.any (fun re => strStarts item re) then false
  else tagRegexTest item.toList

/-- First match of `tagWordRegex = /<[^\s>]+/` in the character list:
a `<` followed by a maximal nonempty run of characters that are neither
whitespace nor `>`. Returns `none` when the regex does not match. -/
def tagWordMatch : List Char → Option (List Char)
  | [] => none
  | '<' :: rest =>
    let run := rest.takeWhile (fun c => !isWsChar c && c ≠ '>')
    if run.isEmpty then tagWordMatch rest else some ('<' :: run)
  | _ :: rest => tagWordMatch rest

/-- `stripTagAttributes` from Utils.ts:
`tags[0] + (word.endsWith "/>" ? "/>" : ">")` where `tags` is the first
`tagWordRegex` match (or `""` when there is none). -/
def stripTagAttributes (word : String) : String :=
  let t := ((tagWordMatch word.toList).map List.asString).getD ""
  t ++ (if strEnds word "/>" then "/>" else ">")

/-- `wrapText` from Utils.ts. -/
def wrapText (text tagName cssClass : String) : String :=
  "<" ++ tagName ++ " class=\"" ++ cssClass ++ "\">" ++ text ++
    "</" ++ tagName ++ ">"

/-- One step of `whitespaceRegex = /^(\s|&nbsp;)+$/`: the unit is either a
whitespace character or the literal text `&nbsp;`. -/
def isWhiteSpaceAux : ℕ → List Char → Bool
  | _, [] => true
  | 0, _ => false
  | fuel + 1, c :: rest =>
    if isWsChar c then isWhiteSpaceAux fuel rest
    else if (c :: rest).take 6 = "&nbsp;".toList then
      isWhiteSpaceAux fuel ((c :: rest).drop 6)
    else false

/-- `isWhiteSpace` from Utils.ts: `whitespaceRegex.test value`. -/
def isWhiteSpace (value : String) : Bool :=
  !value.isEmpty && isWhiteSpaceAux value.length value.toList

/-- `stripAnyAttributes` from Utils.ts. -/
def stripAnyAttributes (word : String) : String :=
  if isTag word then stripTagAttributes word else word

/-- `getTagName` from Utils.ts: first capture of
`/^<\/?([a-zA-Z][a-zA-Z0-9]*)/i`, lower-cased. -/
def getTagName (tag : String) : Option String :=
  match tag.toList with
  | '<' :: r =>
    let r1 := match r with
      | '/' :: r2 => r2
      | _ => r
    match r1 with
    | c :: rest =>
      if c.isAlpha then
        some (lowerStr (c :: rest.takeWhile isAlphaNumChar).asString)
      else none
    | [] => none
  | _ => none

/-- `isBlockLevelTag` from Utils.ts. -/
def isBlockLevelTag (tag : String) : Bool :=
  match getTagName tag with
  | some n => blockLevelElements.contains n
  | none => false

/-- `isOpeningTag` from Utils.ts. -/
def isOpeningTag (tag : String) : Bool :=
  isTag tag && !strStarts tag "</" && !strEnds tag "/>"

/-- `isClosingTag` from Utils.ts. -/
def isClosingTag (tag : String) : Bool :=
  isTag tag && strStarts tag "</"

/-- `isSelfClosingTag` from Utils.ts. -/
def isSelfClosingTag (tag : String) : Bool :=
  isTag tag && strEnds tag "/>"

/-! ## Special-case inline emphasis tags (constants from the diff module) -/

/-- Keys of `specialCaseClosingTags` from the diff module. -/
def specialCaseClosingTags : List String :=
  ["</strong>", "</em>", "</b>", "</i>", "</big>", "</small>", "</u>",
   "</sub>", "</strike>", "</s>", "</dfn>"]

/-- The alternatives of `specialCaseOpeningTagRegex`. -/
def specialCaseOpeningNames : List String :=
  ["strong", "b", "i", "dfn", "em", "big", "small", "u", "sub", "sup",
   "strike", "s"]

/-- Whether `specialCaseOpeningTagRegex =
`/<((strong)|(b)|(i)|(dfn)|(em)|(big)|(small)|(u)|(sub)|(sup)|(strike)|(s))[\>\s]+/gi`
matches at the head of the character list: `<`, one of the names
(case-insensitively), then at least one `>` or whitespace character. -/
def specialOpeningHere (l : List Char) : Bool :=
  match l with
  | '<' :: rest =>
    specialCaseOpeningNames.any (fun n =>
      let nl := n.toList
      (rest.take nl.length).map Char.toLower = nl &&
        match rest.drop nl.length with
        | c :: _ => c = '>' || isWsChar c
        | [] => false)
  | _ => false

/-- Whether `specialCaseOpeningTagRegex` matches anywhere in the string
(the regex is not anchored). -/
def isSpecialCaseOpeningTag (s : String) : Bool :=
  (List.range s.length).any (fun i => specialOpeningHere (s.toList.drop i))

/-! ## WordSplitter

Modelled from the spec: `WordSplitter.convertHtmlToListOfWords` is code of
this repository that is not under `src/` (only its callers are), so the
tokenizer below follows §4.1 of the design document: scan character by
character; `<` starts a tag consumed through the matching `>` (falling back
to literal text when no `>` terminates it before another `<` or the end of
input); `&` starts an entity consumed through `;` (falling back to a
literal character); runs of whitespace (including the literal `&nbsp;`)
form one whitespace token; runs of word characters form one word token;
any other character is its own token. Custom `blocksExpression` patterns
are not modelled: every claim in this development uses none. -/

/-- Consume a maximal whitespace run (whitespace characters and literal
`&nbsp;` units). Returns the run and the remainder. -/
def takeWsRun : ℕ → List Char → List Char × List Char
  | _, [] => ([], [])
  | 0, l => ([], l)
  | fuel + 1, c :: rest =>
    if isWsChar c then
      let (run, rem) := takeWsRun fuel rest
      (c :: run, rem)
    else if (c :: rest).take 6 = "&nbsp;".toList then
      let (run, rem) := takeWsRun fuel ((c :: rest).drop 6)
      ("&nbsp;".toList ++ run, rem)
    else ([], c :: rest)

/-- Scan a tag body after `<`: the characters up to the terminating `>`
(stopping unsuccessfully at another `<` or the end of input). -/
def scanTagEnd (rest : List Char) : Option (List Char × List Char) :=
  let body := rest.takeWhile (fun c => c ≠ '>' && c ≠ '<')
  match rest.dropWhile (fun c => c ≠ '>' && c ≠ '<') with
  | '>' :: tail => some ('<' :: body ++ ['>'], tail)
  | _ => none

/-- Scan an entity body after `&`: alphanumeric or `#` characters up to the
terminating `;`. -/
def scanEntityEnd (rest : List Char) : Option (List Char × List Char) :=
  let body := rest.takeWhile (fun c => isAlphaNumChar c || c = '#')
  if body.isEmpty then none
  else
    match rest.drop body.length with
    | ';' :: tail => some ('&' :: body ++ [';'], tail)
    | _ => none

/-- The main tokenizer loop (spec §4.1). -/
def splitChars : ℕ → List Char → List String
  | _, [] => []
  | 0, _ => []
  | fuel + 1, c :: rest =>
    if c = '<' then
      match scanTagEnd rest with
      | some (tok, rem) => tok.asString :: splitChars fuel rem
      | none => "<" :: splitChars fuel rest
    else if isWsChar c || (c :: rest).take 6 = "&nbsp;".toList then
      let (run, rem) := takeWsRun (fuel + 1) (c :: rest)
      run.asString :: splitChars fuel rem
    else if c = '&' then
      match scanEntityEnd rest with
      | some (tok, rem) => tok.asString :: splitChars fuel rem
      | none => "&" :: splitChars fuel rest
    else if isWordChar c then
      let run := rest.takeWhile isWordChar
      (c :: run).asString :: splitChars fuel (rest.dropWhile isWordChar)
    else
      c.toString :: splitChars fuel rest

/-- Whether attribute stripping is skipped for this token (the special-case
inline emphasis tags are compared by their exact literal form). -/
def isSpecialCaseTag (w : String) : Bool :=
  isSpecialCaseOpeningTag w || specialCaseClosingTags.contains w

/-- Modelled from the spec: `WordSplitter.convertHtmlToListOfWords` (not
under `src/`). Produces, for each token, its comparison form and, when the
comparison form differs from the raw token, the original form to be
restored before rendering. -/
def convertHtmlToListOfWords (text : String) : List (String × Option String) :=
  (splitChars text.length text.toList).map (fun w =>
    if isTag w && !isSpecialCaseTag w then
      let stripped := stripAnyAttributes w
      (stripped, if stripped = w then none else some w)
    else (w, none))

/-! ## Match and Operation

Modelled from the spec (§3): the `Match` and `Operation` classes are code of
this repository not under `src/`; per the data model, a `Match` is
`{ startInOld, startInNew, size }` with derived ends, and an `Operation` is
an action with old/new index ranges. -/

structure Match where
  startInOld : ℕ
  startInNew : ℕ
  size : ℕ
  deriving DecidableEq, Repr

def Match.endInOld (m : Match) : ℕ := m.startInOld + m.size

def Match.endInNew (m : Match) : ℕ := m.startInNew + m.size

inductive Action where
  | equal
  | delete
  | insert
  | none
  | replace
  deriving DecidableEq, Repr

structure Operation where
  action : Action
  startInOld : ℕ
  endInOld : ℕ
  startInNew : ℕ
  endInNew : ℕ
  deriving DecidableEq, Repr

/-! ## BlockAnalyzer.ts -/

structure Block where
  tagName : String
  startIndex : ℕ
  endIndex : ℕ
  depth : ℕ
  deriving DecidableEq, Repr

/-- The `BlockDiffOptions` type (types.ts). -/
structure BlockDiffOptions where
  enabled : Bool
  blockElements : Option (List String) := Option.none
  equivalentTypes : Option (List (List String)) := Option.none
  deriving Repr

/-- The constructed `BlockAnalyzer` state: the block-element set and the
equivalence groups (lower-cased), as set up in the constructor. -/
structure BlockAnalyzer where
  blockElements : List String
  equivalentTypes : List (List String)
  deriving Repr

/-- The `BlockAnalyzer` constructor. -/
def BlockAnalyzer.mk' (options : BlockDiffOptions) : BlockAnalyzer where
  blockElements :=
    match options.blockElements with
    | some es => es.map lowerStr
    | Option.none => blockLevelElements
  equivalentTypes :=
    match options.equivalentTypes with
    | some gs => gs.map (fun g => g.map lowerStr)
    | Option.none => []

/-- The equivalence-map lookup built in the constructor: `Map.set` is "last
write wins", so the group associated with a tag is the last configured group
containing it. -/
def BlockAnalyzer.equivalentGroupOf (a : BlockAnalyzer) (tag : String) :
    Option (List String) :=
  a.equivalentTypes.reverse.find? (fun g => g.contains tag)

/-- `BlockAnalyzer.isSameBlockType` (the two blocks are given directly; the
source's null-block case is handled at each call site by construction). -/
def BlockAnalyzer.isSameBlockType (a : BlockAnalyzer) (b1 b2 : Block) : Bool :=
  if b1.tagName = b2.tagName then true
  else
    match a.equivalentGroupOf b1.tagName with
    | some g => g.contains b2.tagName
    | Option.none => false

/-- A pending entry on the `findBlocks` stack. -/
structure StackEntry where
  tagName : String
  startIndex : ℕ
  depth : ℕ
  deriving DecidableEq, Repr

/-- `stack.splice(j, 1)` where `j` is the nearest entry (from the top) with
the given tag name: the stack is kept top-first, so this removes the first
matching entry. Returns the removed entry and the remaining stack. -/
def popNearest (tagName : String) : List StackEntry →
    Option (StackEntry × List StackEntry)
  | [] => Option.none
  | e :: rest =>
    if e.tagName = tagName then some (e, rest)
    else
      match popNearest tagName rest with
      | some (f, rest2) => some (f, e :: rest2)
      | Option.none => Option.none

/-- The state threaded through the `findBlocks` loop. -/
structure FindBlocksState where
  stack : List StackEntry
  currentDepth : ℕ
  blocks : List Block
  deriving Repr

/-- One iteration of the `findBlocks` loop at word index `i`. -/
def findBlocksStep (a : BlockAnalyzer) (s : FindBlocksState) (i : ℕ)
    (word : String) : FindBlocksState :=
  if !isTag word then s
  else
    match getTagName word with
    | Option.none => s
    | some tagName =>
      if !a.blockElements.contains tagName then s
      else if isOpeningTag word then
        { s with
          stack := ⟨tagName, i, s.currentDepth⟩ :: s.stack
          currentDepth := s.currentDepth + 1 }
      else if isClosingTag word && !s.stack.isEmpty then
        match popNearest tagName s.stack with
        | some (opening, rest) =>
          { stack := rest
            currentDepth := s.currentDepth - 1
            blocks :=
              if opening.depth = 0 then
                s.blocks ++ [⟨opening.tagName, opening.startIndex, i, opening.depth⟩]
              else s.blocks }
        | Option.none => s
      else s

def findBlocksGo (a : BlockAnalyzer) : ℕ → List String → FindBlocksState →
    FindBlocksState
  | _, [], s => s
  | i, w :: ws, s => findBlocksGo a (i + 1) ws (findBlocksStep a s i w)

/-- Stable insertion of a block into a list sorted by `startIndex`. -/
def insertByStart (b : Block) : List Block → List Block
  | [] => [b]
  | c :: rest =>
    if b.startIndex ≤ c.startIndex then b :: c :: rest
    else c :: insertByStart b rest

/-- `blocks.sort((a, b) => a.startIndex - b.startIndex)`: a stable sort by
start index (insertion sort, chosen over the library sort so that the
kernel can evaluate it). -/
def sortByStart : List Block → List Block
  | [] => []
  | b :: rest => insertByStart b (sortByStart rest)

/-- `BlockAnalyzer.findBlocks`: walk the words, pair block-level tags with a
stack, emit depth-0 blocks, and sort the result by start index. -/
def BlockAnalyzer.findBlocks (a : BlockAnalyzer) (words : List String) :
    List Block :=
  let final := findBlocksGo a 0 words ⟨[], 0, []⟩
  sortByStart final.blocks

/-- `BlockAnalyzer.getBlockContent`: `words.slice(start, end+1).join("")`. -/
def BlockAnalyzer.getBlockContent (words : List String) (b : Block) : String :=
  String.join ((words.drop b.startIndex).take (b.endIndex + 1 - b.startIndex))

/-- `BlockAnalyzer.getBlockInnerWords`: `words.slice(start+1, end)`. -/
def BlockAnalyzer.getBlockInnerWords (words : List String) (b : Block) :
    List String :=
  (words.drop (b.startIndex + 1)).take (b.endIndex - (b.startIndex + 1))

/-! ## HtmlDiff: orphan removal -/

namespace HtmlDiff

/-- `words.slice(a, b).reduce((t, n) => t + n.length, 0)`: the total
character length of the tokens with indices in `[a, b)`. -/
def sliceCharLength (words : List String) (a b : ℕ) : ℕ :=
  ((words.drop a).take (b - a)).foldl (fun t n => t + n.length) 0

/-- The loop body of the `removeOrphans` generator, after the first element
has been installed as `curr` (with `prev` initialised to `Match(0,0,0)`).
Note the source quirk kept here: in the adjacency branch `prev` is not
advanced (`continue` skips the `prev = curr` assignment). -/
def removeOrphansAux (oldWords newWords : List String)
    (orphanMatchThreshold : ℚ) (prev curr : Match) :
    List Match → List Match
  | [] => [curr]
  | next :: rest =>
    if (prev.endInOld = curr.startInOld ∧ prev.endInNew = curr.startInNew) ∨
        (curr.endInOld = next.startInOld ∧ curr.endInNew = next.startInNew) then
      curr :: removeOrphansAux oldWords newWords orphanMatchThreshold prev next rest
    else
      let oldDistanceInChars := sliceCharLength oldWords prev.endInOld next.startInOld
      let newDistanceInChars := sliceCharLength newWords prev.endInNew next.startInNew
      let currMatchLengthInChars := sliceCharLength newWords curr.startInNew curr.endInNew
      let keep : Bool :=
        gtMulRat currMatchLengthInChars
          (max oldDistanceInChars newDistanceInChars) orphanMatchThreshold
      (if keep then [curr] else []) ++
        removeOrphansAux oldWords newWords orphanMatchThreshold curr next rest

/-- `HtmlDiff.removeOrphans` as a pure function: the generator yields a
subsequence of its input (always including the final element). On the empty
list the source generator would yield its uninitialised `curr`; every call
site passes a nonempty list (the sentinel is appended first), so the empty
case here is `[]`. -/
def removeOrphans (oldWords newWords : List String)
    (orphanMatchThreshold : ℚ) : List Match → List Match
  | [] => []
  | first :: rest =>
    removeOrphansAux oldWords newWords orphanMatchThreshold ⟨0, 0, 0⟩ first rest

/-! ## HtmlDiff: operation synthesis -/

/-- The loop body of `HtmlDiff.operations`: classify the gap before each
match, emit it unless it is `none`, then emit an `equal` operation for the
match itself when its size is nonzero. -/
def operationsAux : ℕ → ℕ → List Match → List Operation
  | _, _, [] => []
  | positionInOld, positionInNew, m :: rest =>
    let matchStartsAtCurrentPositionInOld := positionInOld = m.startInOld
    let matchStartsAtCurrentPositionInNew := positionInNew = m.startInNew
    let action :=
      if ¬matchStartsAtCurrentPositionInOld ∧ ¬matchStartsAtCurrentPositionInNew then
        Action.replace
      else if matchStartsAtCurrentPositionInOld ∧ ¬matchStartsAtCurrentPositionInNew then
        Action.insert
      else if ¬matchStartsAtCurrentPositionInOld then
        Action.delete
      else
        Action.none
    (if action ≠ Action.none then
      [Operation.mk action positionInOld m.startInOld positionInNew m.startInNew]
    else []) ++
    (if m.size ≠ 0 then
      [Operation.mk Action.equal m.startInOld m.endInOld m.startInNew m.endInNew]
    else []) ++
    operationsAux m.endInOld m.endInNew rest

/-! ## HtmlDiff: rendering -/

/-- `HtmlDiff.consecutiveWhere`: the source loop records the last index of
the leading run satisfying the predicate and slices up to it, i.e. it
returns the longest prefix of `content.slice(start)` on which the predicate
holds. -/
def consecutiveWhere (start : ℕ) (content : List String)
    (predicate : String → Bool) : List String :=
  (content.drop start).takeWhile predicate

/-- The `insertTag` while-loop: alternately take a run of non-tag tokens
(wrapped in the marker element when nonempty) and a run of tag tokens
(emitted bare). -/
def insertTagGo (tag cssClass : String) : ℕ → List String → String
  | 0, _ => ""
  | _, [] => ""
  | fuel + 1, content =>
    let nonTags := consecutiveWhere 0 content (fun x => !isTag x)
    let rest1 := content.drop nonTags.length
    let tags := consecutiveWhere 0 rest1 isTag
    let rest2 := rest1.drop tags.length
    (if nonTags.length ≠ 0 then
      "<" ++ tag ++ " class=\"" ++ cssClass ++ "\">" ++ String.join nonTags ++
        "</" ++ tag ++ ">"
    else "") ++
      String.join tags ++ insertTagGo tag cssClass fuel rest2

/-- `HtmlDiff.insertTag`: returns the rendering pushed onto `content`. -/
def insertTag (tag cssClass : String) (content : List String) : String :=
  insertTagGo tag cssClass content.length content

/-- `newWords.filter((s, pos) => pos >= start && pos < end)`. -/
def sliceWords (words : List String) (a b : ℕ) : List String :=
  (words.drop a).take (b - a)

/-- `HtmlDiff.shouldUseBlockReplacement` (the analyzer and the block lists
are explicit parameters of the embedding). -/
def shouldUseBlockReplacement (a : BlockAnalyzer) (oldBlocks newBlocks : List Block)
    (opp : Operation) : Bool :=
  let oldBlocksInRange := oldBlocks.filter
    (fun b => b.startIndex < opp.endInOld && b.endIndex ≥ opp.startInOld)
  let newBlocksInRange := newBlocks.filter
    (fun b => b.startIndex < opp.endInNew && b.endIndex ≥ opp.startInNew)
  if oldBlocksInRange.isEmpty && newBlocksInRange.isEmpty then false
  else if oldBlocksInRange.isEmpty || newBlocksInRange.isEmpty then true
  else if oldBlocksInRange.length ≠ newBlocksInRange.length then true
  else
    (List.range oldBlocksInRange.length).any (fun i =>
      match oldBlocksInRange[i]?, newBlocksInRange[i]? with
      | some ob, some nb => !a.isSameBlockType ob nb
      | _, _ => false)

/-- `HtmlDiff.processInsertOperation`. -/
def processInsertOperation (newWords : List String) (opp : Operation)
    (cssClass : String) : String :=
  insertTag "ins" cssClass (sliceWords newWords opp.startInNew opp.endInNew)

/-- `HtmlDiff.processDeleteOperation`. -/
def processDeleteOperation (oldWords : List String) (opp : Operation)
    (cssClass : String) : String :=
  insertTag "del" cssClass (sliceWords oldWords opp.startInOld opp.endInOld)

/-- `HtmlDiff.processEqualOperation`. -/
def processEqualOperation (newWords : List String) (opp : Operation) : String :=
  String.join (sliceWords newWords opp.startInNew opp.endInNew)

/-- `HtmlDiff.processReplaceOperation` / `HtmlDiff.performOperation`:
the string appended to `content` for one operation. `analyzer` is `some`
exactly when block-aware diffing is enabled. -/
def performOperation (analyzer : Option BlockAnalyzer)
    (oldBlocks newBlocks : List Block) (oldWords newWords : List String)
    (opp : Operation) : String :=
  match opp.action with
  | Action.equal => processEqualOperation newWords opp
  | Action.delete => processDeleteOperation oldWords opp "diffdel"
  | Action.insert => processInsertOperation newWords opp "diffins"
  | Action.none => ""
  | Action.replace =>
    match analyzer with
    | some a =>
      if shouldUseBlockReplacement a oldBlocks newBlocks opp then
        processDeleteOperation oldWords opp "diffdel" ++
          processInsertOperation newWords opp "diffins"
      else
        processDeleteOperation oldWords opp "diffmod" ++
          processInsertOperation newWords opp "diffmod"
    | Option.none =>
      processDeleteOperation oldWords opp "diffmod" ++
        processInsertOperation newWords opp "diffmod"

end HtmlDiff

/-! ## MatchFinder

Modelled from the spec: `MatchFinder` is code of this repository that is
not under `src/` (only its caller `HtmlDiff.findMatch` is). Per §4.3 of the
design document: within the two index windows and a granularity `g`, build
a lookup from each `g`-token-group (joined) of the new window to its
positions, skipping groups whose frequency exceeds the repeating-words
accuracy threshold relative to the window size; for each position in the
old window look up candidate positions and extend the match forward one
token-group at a time while the groups compare equal; keep the longest
extension, preferring the earliest position in old and then in new. -/

/-- The joined `g`-token-group starting at index `i`. -/
def groupJoin (words : List String) (i g : ℕ) : String :=
  String.join ((words.drop i).take g)

/-- The joined `g`-token-group ending at index `j` (inclusive). -/
def groupJoinEnd (words : List String) (j g : ℕ) : String :=
  groupJoin words (j + 1 - g) g

/-- The lookup table of §4.3, queried by group value: the end indices inside
the new window of the `g`-groups equal to `key`, in ascending order, with
the repeating-words filter applied (a group whose frequency exceeds
`repeatingWordsAccuracy` relative to the window size is skipped). -/
def groupEndPositions (newWords : List String) (startInNew endInNew g : ℕ)
    (repeatingWordsAccuracy : ℚ) (key : String) : List ℕ :=
  let positions := (List.range' startInNew (endInNew - startInNew)).filter
    (fun j => startInNew + g ≤ j + 1 && groupJoinEnd newWords j g = key)
  if gtMulRat positions.length (endInNew - startInNew) repeatingWordsAccuracy then
    []
  else positions

/-- The running state of the §4.3 scan: for each end position in the new
window, the length (in groups) of the run of consecutive equal groups
finishing at the current old position, together with the best run found so
far as `(endInOld, endInNew, runLength)`. -/
structure FinderState where
  matchLengthAt : List (ℕ × ℕ)
  best : Option (ℕ × ℕ × ℕ)

def lookupRun (assoc : List (ℕ × ℕ)) (j : ℕ) : ℕ :=
  match assoc.find? (fun p => p.1 = j) with
  | some p => p.2
  | Option.none => 0

/-- Fold one candidate `(i, j, len)` into the best run, keeping the first
candidate (in old-then-new scan order) attaining each strictly larger
length. -/
def updateBest (i : ℕ) (best : Option (ℕ × ℕ × ℕ)) (entry : ℕ × ℕ) :
    Option (ℕ × ℕ × ℕ) :=
  match best with
  | Option.none => some (i, entry.1, entry.2)
  | some b => if entry.2 > b.2.2 then some (i, entry.1, entry.2) else some b

/-- One step of the scan at old end position `i`: if a full group ends at
`i`, look up its candidate end positions in the new window and extend each
run by one group (a run continues when the previous old position matched
the previous new position). -/
def finderStep (oldWords newWords : List String)
    (startInOld startInNew endInNew g : ℕ) (repeatingWordsAccuracy : ℚ)
    (st : FinderState) (i : ℕ) : FinderState :=
  if startInOld + g ≤ i + 1 then
    let key := groupJoinEnd oldWords i g
    let positions := groupEndPositions newWords startInNew endInNew g
      repeatingWordsAccuracy key
    let newMatchLengthAt := positions.map
      (fun j =>
        (j, (if j = 0 then 0 else lookupRun st.matchLengthAt (j - 1)) + 1))
    { matchLengthAt := newMatchLengthAt
      best := newMatchLengthAt.foldl (updateBest i) st.best }
  else st

/-- Modelled from the spec: `MatchFinder.findMatch` (code of this
repository not under `src/`) at one granularity `g`, per §4.3: a lookup
from each `g`-token-group of the new window to its positions (skipping
too-frequent groups); for each position of the old window the candidate
positions are extended one token-group at a time while the groups compare
equal (the groups of a run overlap at consecutive token offsets, so a run
of `L` groups is a common token run of length `L + g - 1`); the longest
run wins, preferring the earliest position in old and then in new. -/
def findMatchAtGranularity (oldWords newWords : List String)
    (startInOld endInOld startInNew endInNew g : ℕ)
    (repeatingWordsAccuracy : ℚ) : Option Match :=
  let final := (List.range' startInOld (endInOld - startInOld)).foldl
    (finderStep oldWords newWords startInOld startInNew endInNew g
      repeatingWordsAccuracy)
    ⟨[], Option.none⟩
  match final.best with
  | some (i, j, len) =>
    some ⟨i + 2 - (len + g), j + 2 - (len + g), len + g - 1⟩
  | Option.none => Option.none

namespace HtmlDiff

/-- `HtmlDiff.findMatch`: try granularities from `matchGranularity` down
to 1, returning the first match found. -/
def findMatch (oldWords newWords : List String)
    (repeatingWordsAccuracy : ℚ) (startInOld endInOld startInNew endInNew : ℕ) :
    ℕ → Option Match
  | 0 => Option.none
  | g + 1 =>
    match findMatchAtGranularity oldWords newWords startInOld endInOld
        startInNew endInNew (g + 1) repeatingWordsAccuracy with
    | some m => some m
    | Option.none =>
      findMatch oldWords newWords repeatingWordsAccuracy
        startInOld endInOld startInNew endInNew g

/-- `HtmlDiff.findMatchingBlocks`: recursively partition the window around
the best match. The fuel argument only needs to exceed the total window
width at the call sites. -/
def findMatchingBlocks (oldWords newWords : List String)
    (repeatingWordsAccuracy : ℚ) (matchGranularity : ℕ) :
    ℕ → ℕ → ℕ → ℕ → ℕ → List Match
  | 0, _, _, _, _ => []
  | fuel + 1, startInOld, endInOld, startInNew, endInNew =>
    match findMatch oldWords newWords repeatingWordsAccuracy
        startInOld endInOld startInNew endInNew matchGranularity with
    | Option.none => []
    | some m =>
      (if startInOld < m.startInOld ∧ startInNew < m.startInNew then
        findMatchingBlocks oldWords newWords repeatingWordsAccuracy
          matchGranularity fuel startInOld m.startInOld startInNew m.startInNew
      else []) ++
      [m] ++
      (if m.endInOld < endInOld ∧ m.endInNew < endInNew then
        findMatchingBlocks oldWords newWords repeatingWordsAccuracy
          matchGranularity fuel m.endInOld endInOld m.endInNew endInNew
      else [])

/-- `HtmlDiff.matchingBlocks`. -/
def matchingBlocks (oldWords newWords : List String)
    (repeatingWordsAccuracy : ℚ) (matchGranularity : ℕ) : List Match :=
  findMatchingBlocks oldWords newWords repeatingWordsAccuracy matchGranularity
    (oldWords.length + newWords.length + 1) 0 oldWords.length 0 newWords.length

/-- `HtmlDiff.operations`: find matches, append the final sentinel match,
filter orphans, and synthesize the edit script. -/
def operations (oldWords newWords : List String)
    (repeatingWordsAccuracy orphanMatchThreshold : ℚ)
    (matchGranularity : ℕ) : List Operation :=
  let ms := matchingBlocks oldWords newWords repeatingWordsAccuracy
    matchGranularity ++ [⟨oldWords.length, newWords.length, 0⟩]
  let matchesWithoutOrphans :=
    removeOrphans oldWords newWords orphanMatchThreshold ms
  operationsAux 0 0 matchesWithoutOrphans

end HtmlDiff

/-! ## HtmlDiff: weighted-LCS block alignment -/

/-- JavaScript `Math.round` on the nonnegative rationals that occur here:
round half away from zero is `⌊q + 1/2⌋`. -/
def jsRound (q : ℚ) : ℤ := ⌊q + 1 / 2⌋

namespace HtmlDiff

/-- `scoreForMatch` (from `matchBlocksByTypeSimilarity`): 0 when the blocks
are missing or their types do not match; otherwise
`100 - Math.round(|lenOld - lenNew| / max * 100)` over the precomputed
inner-content lengths, and 100 when both inner contents are empty.
The rounded value `round(100 d / m)` is computed exactly as the floor
division `(200 d + m) / (2 m)` so that the kernel can evaluate it; the
equivalence with rational rounding is proved in `scoreForMatch` theorems
below. -/
def scoreForMatch (a : BlockAnalyzer) (oldBlocks newBlocks : List Block)
    (oldLengths newLengths : List ℕ) (oldIndex newIndex : ℕ) : ℤ :=
  match oldBlocks[oldIndex]?, newBlocks[newIndex]? with
  | some oldBlock, some newBlock =>
    if ¬a.isSameBlockType oldBlock newBlock then 0
    else
      let oldLength := (oldLengths[oldIndex]?).getD 0
      let newLength := (newLengths[newIndex]?).getD 0
      let maxLength := max oldLength newLength
      if maxLength = 0 then 100
      else
        let d := ((oldLength : ℤ) - (newLength : ℤ)).natAbs
        100 - (((200 * d + maxLength) / (2 * maxLength) : ℕ) : ℤ)
  | _, _ => 0

/-- The inner suffix of one DP row, built from column `newCount` leftwards;
`d` is the number of columns still to the right of the current one. -/
def buildRowRev (scoreRow : ℕ → ℤ) (nextRow : List ℤ) (newCount : ℕ) :
    ℕ → List ℤ
  | 0 => [0]
  | d + 1 =>
    let suffix := buildRowRev scoreRow nextRow newCount d
    let j := newCount - (d + 1)
    let s := scoreRow j
    let skipOld := (nextRow[j]?).getD 0
    let skipNew := (suffix[0]?).getD 0
    let takeMatch := if s > 0 then (nextRow[j + 1]?).getD 0 + s else 0
    max (max skipOld skipNew) takeMatch :: suffix

/-- The DP table rows for `i = oldCount - d, …, oldCount` (head first). -/
def dpRowsFrom (score : ℕ → ℕ → ℤ) (newCount : ℕ) : ℕ → ℕ → List (List ℤ)
  | 0, _ => [List.replicate (newCount + 1) 0]
  | d + 1, i =>
    let rows := dpRowsFrom score newCount d (i + 1)
    buildRowRev (score i) (rows.headD []) newCount newCount :: rows

/-- The full DP table of `matchBlocksByTypeSimilarity`. -/
def dpTable (score : ℕ → ℕ → ℤ) (oldCount newCount : ℕ) : List (List ℤ) :=
  dpRowsFrom score newCount oldCount 0

def dpGet (table : List (List ℤ)) (i j : ℕ) : ℤ :=
  ((((table[i]?).getD [])[j]?).getD 0)

/-- The greedy backtracking loop of `matchBlocksByTypeSimilarity`. -/
def backtrackGo (score : ℕ → ℕ → ℤ) (dp : ℕ → ℕ → ℤ) (oldCount newCount : ℕ) :
    ℕ → ℕ → ℕ → List (ℕ × ℕ)
  | 0, _, _ => []
  | fuel + 1, i, j =>
    if i < oldCount ∧ j < newCount then
      let s := score i j
      if s > 0 ∧ dp i j = dp (i + 1) (j + 1) + s then
        (i, j) :: backtrackGo score dp oldCount newCount fuel (i + 1) (j + 1)
      else if dp (i + 1) j ≥ dp i (j + 1) then
        backtrackGo score dp oldCount newCount fuel (i + 1) j
      else
        backtrackGo score dp oldCount newCount fuel i (j + 1)
    else []

/-- `HtmlDiff.matchBlocksByTypeSimilarity`: a weighted LCS over the block
sequences, returning the chain of anchor index pairs. -/
def matchBlocksByTypeSimilarity (a : BlockAnalyzer)
    (oldBlocks newBlocks : List Block) (oldWords newWords : List String) :
    List (ℕ × ℕ) :=
  let oldCount := oldBlocks.length
  let newCount := newBlocks.length
  let oldLengths := oldBlocks.map
    (fun b => (String.join (BlockAnalyzer.getBlockInnerWords oldWords b)).length)
  let newLengths := newBlocks.map
    (fun b => (String.join (BlockAnalyzer.getBlockInnerWords newWords b)).length)
  let score := scoreForMatch a oldBlocks newBlocks oldLengths newLengths
  let table := dpTable score oldCount newCount
  backtrackGo score (dpGet table) oldCount newCount (oldCount + newCount + 1) 0 0

/-! ## HtmlDiff: block-type-change detection -/

structure ChangeRange where
  oldStart : ℕ
  oldEnd : ℕ
  newStart : ℕ
  newEnd : ℕ
  deriving DecidableEq, Repr

/-- `blocks.slice(a, b)` with signed bounds (the `-1` sentinel anchor). -/
def sliceIntRange (l : List Block) (a b : ℤ) : List Block :=
  (l.drop a.toNat).take (b.toNat - a.toNat)

def lastD (l : List Block) (d : Block) : Block := l.getLast?.getD d

/-- The anchored match list of `detectBlockTypeChanges`: sentinels at
`(-1, -1)` and `(oldCount, newCount)` around the anchors. -/
def anchoredMatches (a : BlockAnalyzer) (oldBlocks newBlocks : List Block)
    (oldWords newWords : List String) : List (ℤ × ℤ) :=
  ((-1 : ℤ), (-1 : ℤ)) ::
    (matchBlocksByTypeSimilarity a oldBlocks newBlocks oldWords newWords).map
      (fun p => ((p.1 : ℤ), (p.2 : ℤ))) ++
    [((oldBlocks.length : ℤ), (newBlocks.length : ℤ))]

/-- The gap loop of `detectBlockTypeChanges`: for each pair of consecutive
anchors compare the block sequences strictly between them. -/
def detectGaps (a : BlockAnalyzer) (oldBlocks newBlocks : List Block) :
    List ((ℤ × ℤ) × ℤ × ℤ) → List ChangeRange
  | [] => []
  | (current, next) :: rest =>
    let oldRange := sliceIntRange oldBlocks (current.1 + 1) next.1
    let newRange := sliceIntRange newBlocks (current.2 + 1) next.2
    (match oldRange, newRange with
    | [], _ => []
    | _, [] => []
    | o0 :: _, n0 :: _ =>
      let typesMatch := oldRange.length = newRange.length ∧
        (oldRange.zip newRange).all (fun p => a.isSameBlockType p.1 p.2)
      if typesMatch then []
      else
        [⟨o0.startIndex, (lastD oldRange o0).endIndex,
          n0.startIndex, (lastD newRange n0).endIndex⟩]) ++
    detectGaps a oldBlocks newBlocks rest

/-- `HtmlDiff.detectBlockTypeChanges`. -/
def detectBlockTypeChanges (a : BlockAnalyzer)
    (oldBlocks newBlocks : List Block) (oldWords newWords : List String) :
    List ChangeRange :=
  let anchored := anchoredMatches a oldBlocks newBlocks oldWords newWords
  detectGaps a oldBlocks newBlocks (anchored.zip anchored.tail)

end HtmlDiff

/-! ## HtmlDiff: construction and top-level diff -/

/-- The `HtmlDiffOptions` type of the diff module. -/
structure HtmlDiffOptions where
  blockDiff : Option BlockDiffOptions
  deriving Repr

/-- `MatchGranularityMaximum = 4`. -/
def MatchGranularityMaximum : ℕ := 4

/-- The fields fixed by the `HtmlDiff` constructor: the matching accuracy,
the whitespace flag, the orphan threshold (all unconditional constants) and
the analyzer (present exactly when `options.blockDiff.enabled`). -/
structure HtmlDiffState where
  repeatingWordsAccuracy : ℚ
  ignoreWhiteSpaceDifferences : Bool
  orphanMatchThreshold : ℚ
  blockAnalyzer : Option BlockAnalyzer

/-- The `HtmlDiff` constructor (for the fields above). -/
def htmlDiffInit (options : Option HtmlDiffOptions) : HtmlDiffState where
  repeatingWordsAccuracy := 1
  ignoreWhiteSpaceDifferences := false
  orphanMatchThreshold := 0
  blockAnalyzer :=
    match options with
    | some opts =>
      match opts.blockDiff with
      | some bd => if bd.enabled then some (BlockAnalyzer.mk' bd) else Option.none
      | Option.none => Option.none
    | Option.none => Option.none

namespace HtmlDiff

/-- Restoring the original word forms
(`this.originalWordsInOld.forEach((value, key) => { this.oldWords[key] = value })`). -/
def restoreOriginals (pairs : List (String × Option String)) : List String :=
  pairs.map (fun p => p.2.getD p.1)

/-- The ordinary (word-level) path of `HtmlDiff.diff` after splitting:
compute the granularity, synthesize the operations on the comparison
forms, restore the original forms, and render every operation. -/
def ordinaryDiffRender (analyzer : Option BlockAnalyzer)
    (oldBlocks newBlocks : List Block)
    (oldPairs newPairs : List (String × Option String)) : String :=
  let oldWords := oldPairs.map Prod.fst
  let newWords := newPairs.map Prod.fst
  let st := htmlDiffInit Option.none
  let matchGranularity :=
    min MatchGranularityMaximum (min oldWords.length newWords.length)
  let ops := operations oldWords newWords st.repeatingWordsAccuracy
    st.orphanMatchThreshold matchGranularity
  let restoredOld := restoreOriginals oldPairs
  let restoredNew := restoreOriginals newPairs
  String.join (ops.map
    (performOperation analyzer oldBlocks newBlocks restoredOld restoredNew))

/-- `new HtmlDiff(oldText, newText).diff()` as used by `diffWordRanges`:
no options, hence no block analyzer. -/
def subDiff (oldText newText : String) : String :=
  if oldText = newText then newText
  else
    ordinaryDiffRender Option.none [] []
      (convertHtmlToListOfWords oldText) (convertHtmlToListOfWords newText)

/-- `HtmlDiff.diffWordRanges`. -/
def diffWordRanges (oldWords newWords : List String) : String :=
  if oldWords.isEmpty && newWords.isEmpty then ""
  else
    let oldText := String.join oldWords
    let newText := String.join newWords
    if oldText = newText then newText
    else subDiff oldText newText

/-- The loop of `HtmlDiff.diffWithBlockTypeChanges`, threading the current
positions. -/
def diffWithBlockTypeChangesGo (oldWords newWords : List String) :
    ℕ → ℕ → List ChangeRange → List String
  | oldPos, newPos, [] =>
    if oldPos < oldWords.length ∨ newPos < newWords.length then
      let afterOldWords := oldWords.drop oldPos
      let afterNewWords := newWords.drop newPos
      if afterOldWords.length > 0 ∨ afterNewWords.length > 0 then
        [diffWordRanges afterOldWords afterNewWords]
      else []
    else []
  | oldPos, newPos, change :: rest =>
    (if oldPos < change.oldStart ∨ newPos < change.newStart then
      let beforeOldWords := sliceWords oldWords oldPos change.oldStart
      let beforeNewWords := sliceWords newWords newPos change.newStart
      if beforeOldWords.length > 0 ∨ beforeNewWords.length > 0 then
        [diffWordRanges beforeOldWords beforeNewWords]
      else []
    else []) ++
    ["<del class=\"diffdel\">" ++
        String.join (sliceWords oldWords change.oldStart (change.oldEnd + 1)) ++
        "</del>",
     "<ins class=\"diffins\">" ++
        String.join (sliceWords newWords change.newStart (change.newEnd + 1)) ++
        "</ins>"] ++
    diffWithBlockTypeChangesGo oldWords newWords (change.oldEnd + 1)
      (change.newEnd + 1) rest

/-- `HtmlDiff.diffWithBlockTypeChanges`. -/
def diffWithBlockTypeChanges (oldWords newWords : List String)
    (blockTypeChanges : List ChangeRange) : String :=
  String.join (diffWithBlockTypeChangesGo oldWords newWords 0 0 blockTypeChanges)

/-- The body of `HtmlDiff.diff` after the fast path, starting from the
split word lists. -/
def diffCore (options : Option HtmlDiffOptions)
    (oldPairs newPairs : List (String × Option String)) : String :=
  let st := htmlDiffInit options
  let oldWords := oldPairs.map Prod.fst
  let newWords := newPairs.map Prod.fst
  match st.blockAnalyzer with
  | some a =>
    let oldBlocks := a.findBlocks oldWords
    let newBlocks := a.findBlocks newWords
    let blockTypeChanges := detectBlockTypeChanges a oldBlocks newBlocks
      oldWords newWords
    if blockTypeChanges.length > 0 then
      diffWithBlockTypeChanges oldWords newWords blockTypeChanges
    else
      ordinaryDiffRender (some a) oldBlocks newBlocks oldPairs newPairs
  | Option.none => ordinaryDiffRender Option.none [] [] oldPairs newPairs

/-- `HtmlDiff.diff` with the word splitter as an explicit parameter: the
fast path returns before the splitter is applied, so the result on equal
inputs cannot depend on it. -/
def diffWithSplitter (split : String → List (String × Option String))
    (options : Option HtmlDiffOptions) (oldText newText : String) : String :=
  if oldText = newText then newText
  else diffCore options (split oldText) (split newText)

/-- `HtmlDiff.diff`. -/
def diff (options : Option HtmlDiffOptions) (oldText newText : String) :
    String :=
  diffWithSplitter convertHtmlToListOfWords options oldText newText

end HtmlDiff

/-- The public entry point (index.ts): construct an `HtmlDiff` with the
`blockDiff` option forwarded and run it. (`blocksExpression` is not
modelled; every claim in this development uses none.) -/
def diff (oldText newText : String) (options : HtmlDiffOptions) : String :=
  HtmlDiff.diff (some options) oldText newText

/-- Whether `needle` occurs as a substring of `hay` (used to state facts
about rendered outputs). -/
def hasSubstring (hay needle : String) : Bool :=
  (List.range (hay.toList.length + 1)).any
    (fun i => needle.toList.isPrefixOf (hay.toList.drop i))

/-- The orphan-keep condition as the claim states it: `gapBefore` and
`gapAfter` are the distances from the match to its previous and next
neighbour (the claim does not say on which side the spanned tokens are
measured, so the two sides are combined with `max`; on the counterexample
below every reading coincides), and the match is kept when its own matched
length exceeds `max(gapBefore, gapAfter) * orphanMatchThreshold`. -/
def claimedOrphanKeep (oldWords newWords : List String) (t : ℚ)
    (prev curr next : Match) : Bool :=
  let gapBefore := max
    (HtmlDiff.sliceCharLength oldWords prev.endInOld curr.startInOld)
    (HtmlDiff.sliceCharLength newWords prev.endInNew curr.startInNew)
  let gapAfter := max
    (HtmlDiff.sliceCharLength oldWords curr.endInOld next.startInOld)
    (HtmlDiff.sliceCharLength newWords curr.endInNew next.startInNew)
  gtMulRat (HtmlDiff.sliceCharLength newWords curr.startInNew curr.endInNew)
    (max gapBefore gapAfter) t

/-- The materialized DP row for old index `i` when `d` rows lie below it
(the row for index `oldCount` being the all-zero base row); row `i` of
`dpRowsFrom` is exactly `dpRowAux (oldCount - i) i`. -/
def dpRowAux (score : ℕ → ℕ → ℤ) (newCount : ℕ) : ℕ → ℕ → List ℤ
  | 0, _ => List.replicate (newCount + 1) 0
  | d + 1, i =>
    HtmlDiff.buildRowRev (score i) (dpRowAux score newCount d (i + 1))
      newCount newCount

/-- The loop invariant of `findBlocks` at word index `i`: the depth
counter tracks the stack size, stack entries were opened at earlier
indices with pairwise distinct positions, at most one entry was opened at
depth 0 and every emitted block ended before such an entry opened, and the
emitted blocks are well-formed, closed before `i`, and pairwise ordered
with disjoint index ranges. -/
def FBInv (i : ℕ) (s : FindBlocksState) : Prop :=
  s.currentDepth = s.stack.length ∧
  (∀ e ∈ s.stack, e.startIndex < i) ∧
  s.stack.Pairwise (fun e f => e.startIndex ≠ f.startIndex) ∧
  (∀ e ∈ s.stack, e.depth = 0 → ∀ f ∈ s.stack, f.depth = 0 → e = f) ∧
  (∀ e ∈ s.stack, e.depth = 0 → ∀ b ∈ s.blocks,
    b.endIndex < e.startIndex) ∧
  (∀ b ∈ s.blocks, b.endIndex < i) ∧
  s.blocks.Pairwise (fun b b' => b.endIndex < b'.startIndex) ∧
  (∀ b ∈ s.blocks, b.startIndex < b.endIndex)

/-- The segments of `diffWithBlockTypeChangesGo`, in order: a `false`
segment is rendered as one word-level sub-diff, a `true` segment as one
`<del>`/`<ins>` pair spanning a change range; each segment carries its
old-side and new-side token index ranges. -/
def btcSegments (oldLen newLen : ℕ) :
    ℕ → ℕ → List HtmlDiff.ChangeRange → List (Bool × (ℕ × ℕ) × ℕ × ℕ)
  | oldPos, newPos, [] =>
    if oldPos < oldLen ∨ newPos < newLen then
      [(false, (oldPos, oldLen), (newPos, newLen))]
    else []
  | oldPos, newPos, c :: rest =>
    (if oldPos < c.oldStart ∨ newPos < c.newStart then
      [(false, (oldPos, c.oldStart), (newPos, c.newStart))]
    else []) ++
    [(true, (c.oldStart, c.oldEnd + 1), (c.newStart, c.newEnd + 1))] ++
    btcSegments oldLen newLen (c.oldEnd + 1) (c.newEnd + 1) rest

/-- Rendering of one segment: a change segment becomes its `<del>` and
`<ins>` elements, a gap segment becomes one word-level sub-diff of its two
slices. -/
def btcRenderSeg (oldWords newWords : List String)
    (seg : Bool × (ℕ × ℕ) × ℕ × ℕ) : List String :=
  if seg.1 then
    ["<del class=\"diffdel\">" ++
        String.join (HtmlDiff.sliceWords oldWords seg.2.1.1 seg.2.1.2) ++
        "</del>",
     "<ins class=\"diffins\">" ++
        String.join (HtmlDiff.sliceWords newWords seg.2.2.1 seg.2.2.2) ++
        "</ins>"]
  else
    [HtmlDiff.diffWordRanges
      (HtmlDiff.sliceWords oldWords seg.2.1.1 seg.2.1.2)
      (HtmlDiff.sliceWords newWords seg.2.2.1 seg.2.2.2)]

/-- A list of ranges `[(a₀,b₀), (a₁,b₁), …]` tiles the interval `[lo, hi)`
when `a₀ = lo`, each range is ascending and begins where the previous one
ended, and the last one ends at `hi` — i.e. the ranges partition `[lo, hi)`
in order, with no gaps or overlaps (empty ranges allowed). -/
def Tiles : ℕ → List (ℕ × ℕ) → ℕ → Prop
  | lo, [], hi => lo = hi
  | lo, r :: rest, hi => lo = r.1 ∧ r.1 ≤ r.2 ∧ Tiles r.2 rest hi

/-- The old-side range of an operation. -/
def Operation.oldRange (o : Operation) : ℕ × ℕ := (o.startInOld, o.endInOld)

/-- The new-side range of an operation. -/
def Operation.newRange (o : Operation) : ℕ × ℕ := (o.startInNew, o.endInNew)

/-- A placeholder block for total head/last access in statements about
nonempty ranges. -/
def dummyBlock : Block := ⟨"", 0, 0, 0⟩

/-- Rendering of one maximal run for the wrapping rule of §4.7: a run of
tag tokens (`r.1 = true`) is emitted bare; a run of non-tag tokens is
wrapped in one marker element. -/
def renderRun (tag cssClass : String) (r : Bool × List String) : String :=
  if r.1 then String.join r.2
  else
    "<" ++ tag ++ " class=\"" ++ cssClass ++ "\">" ++ String.join r.2 ++
      "</" ++ tag ++ ">"

/-- The per-gap emission rule of `detectGaps`, as one optional change
range: a gap between consecutive anchors produces a change range exactly
when BOTH its old-side and new-side block sequences are nonempty and they
fail the count-and-types comparison; a gap with either side empty is
always skipped (left to ordinary word-level diffing) even when the block
counts differ. The emitted range spans from the first block's start to the
last block's end on each side. -/
def gapChange (a : BlockAnalyzer) (oldBlocks newBlocks : List Block)
    (pr : (ℤ × ℤ) × ℤ × ℤ) : Option HtmlDiff.ChangeRange :=
  let oldRange := HtmlDiff.sliceIntRange oldBlocks (pr.1.1 + 1) pr.2.1
  let newRange := HtmlDiff.sliceIntRange newBlocks (pr.1.2 + 1) pr.2.2
  match oldRange, newRange with
  | [], _ => Option.none
  | _, [] => Option.none
  | o0 :: _, n0 :: _ =>
    if oldRange.length = newRange.length ∧
        (oldRange.zip newRange).all (fun p => a.isSameBlockType p.1 p.2) then
      Option.none
    else
      some ⟨o0.startIndex, (HtmlDiff.lastD oldRange o0).endIndex,
        n0.startIndex, (HtmlDiff.lastD newRange n0).endIndex⟩

/-! ## Basic lemmas about the arithmetic helpers -/

theorem gtMulRat_iff (x y : ℕ) (t : ℚ) :
    gtMulRat x y t = true ↔ (y : ℚ) * t < (x : ℚ) := by
  have hden : (0 : ℚ) < ((t.den : ℕ) : ℚ) := by
    exact_mod_cast t.den_pos
  rw [gtMulRat, decide_eq_true_eq]
  have hne : ((t.den : ℕ) : ℚ) ≠ 0 := ne_of_gt hden
  have hmul : (y : ℚ) * t < (x : ℚ) ↔
      ((y : ℚ) * t) * ((t.den : ℕ) : ℚ) < (x : ℚ) * ((t.den : ℕ) : ℚ) :=
    (mul_lt_mul_right hden).symm
  have ht : t * ((t.den : ℕ) : ℚ) = ((t.num : ℤ) : ℚ) := by
    calc t * ((t.den : ℕ) : ℚ)
        = ((t.num : ℤ) : ℚ) / ((t.den : ℕ) : ℚ) * ((t.den : ℕ) : ℚ) := by
          rw [Rat.num_div_den]
      _ = ((t.num : ℤ) : ℚ) := div_mul_cancel₀ _ hne
  rw [hmul, mul_assoc, ht]
  constructor
  · intro h
    exact_mod_cast h
  · intro h
    exact_mod_cast h

/-! ## C2: the identity fast path -/

/-- **C2** For every input string `x` and any options, `diff(x, x)` returns
`x` exactly, and the result is produced by the string-equality fast path:
the top-level diff returns `x` for every word splitter whatsoever, i.e.
before the tokenizer is ever invoked. -/
theorem diff_identity_fast_path :
    (∀ (split : String → List (String × Option String))
      (options : Option HtmlDiffOptions) (x : String),
      HtmlDiff.diffWithSplitter split options x x = x) ∧
    (∀ (options : HtmlDiffOptions) (x : String), diff x x options = x) := by
  constructor
  · intro split options x
    simp [HtmlDiff.diffWithSplitter]
  · intro options x
    simp [diff, HtmlDiff.diff, HtmlDiff.diffWithSplitter]

/-! ## C3: the exact block-replacement scenario -/

/-- **C3** The spec's exact scenario: the heading/list/paragraph document
versus its merged-paragraph revision, with block-aware diffing enabled,
renders exactly as specified — heading unchanged, the `<ul>` wrapped in one
`<del class="diffdel">`, the replacement `<p>` wrapped in one
`<ins class="diffins">`, and the trailing paragraph diffed word-by-word
with a `diffmod` del/ins pair around hydulation/hydration. -/
theorem diff_exact_scenario :
    diff "<h2>Objective</h2><ul><li>Blood pressure 118/76 mmHg; heart rate 72 bpm.</li><li>Neurologic exam: Pupils equal and reactive.</li></ul><p>Ensure adequate hydulation.</p>"
      "<h2>Objective</h2><p>Blood pressure 118/76 mmHg; heart rate 72 bpm. Neurologic exam: Pupils equal and reactive.</p><p>Ensure adequate hydration.</p>"
      ⟨some ⟨true, Option.none, Option.none⟩⟩ =
    "<h2>Objective</h2><del class=\"diffdel\"><ul><li>Blood pressure 118/76 mmHg; heart rate 72 bpm.</li><li>Neurologic exam: Pupils equal and reactive.</li></ul></del><ins class=\"diffins\"><p>Blood pressure 118/76 mmHg; heart rate 72 bpm. Neurologic exam: Pupils equal and reactive.</p></ins><p>Ensure adequate <del class=\"diffmod\">hydulation</del><ins class=\"diffmod\">hydration</ins>.</p>" := by
  decide

/-! ## Orphan removal: C10 and C6 -/

theorem gtMulRat_zero_iff (x y : ℕ) : gtMulRat x y 0 = true ↔ 0 < x := by
  rw [gtMulRat_iff]
  simp

/-- With a zero threshold, `removeOrphansAux` yields every match of its
input whose matched new-side character length is positive. -/
theorem removeOrphansAux_zero_mem (oldWords newWords : List String) :
    ∀ (rest : List Match) (prev curr m : Match), (m = curr ∨ m ∈ rest) →
    0 < HtmlDiff.sliceCharLength newWords m.startInNew m.endInNew →
    m ∈ HtmlDiff.removeOrphansAux oldWords newWords 0 prev curr rest := by
  intro rest
  induction rest with
  | nil =>
    intro prev curr m hm _
    rcases hm with rfl | hm
    · simp [HtmlDiff.removeOrphansAux]
    · simp at hm
  | cons next rest ih =>
    intro prev curr m hm hpos
    rw [HtmlDiff.removeOrphansAux]
    by_cases hadj : (prev.endInOld = curr.startInOld ∧
        prev.endInNew = curr.startInNew) ∨
        (curr.endInOld = next.startInOld ∧ curr.endInNew = next.startInNew)
    · rw [if_pos hadj]
      rcases hm with rfl | hm
      · exact List.mem_cons_self _ _
      · rcases List.mem_cons.mp hm with rfl | hm
        · exact List.mem_cons_of_mem _ (ih prev m m (Or.inl rfl) hpos)
        · exact List.mem_cons_of_mem _ (ih prev next m (Or.inr hm) hpos)
    · rw [if_neg hadj]
      rcases hm with rfl | hm
      · have hkeep : gtMulRat
            (HtmlDiff.sliceCharLength newWords m.startInNew m.endInNew)
            (max (HtmlDiff.sliceCharLength oldWords prev.endInOld next.startInOld)
              (HtmlDiff.sliceCharLength newWords prev.endInNew next.startInNew)) 0
            = true := (gtMulRat_zero_iff _ _).mpr hpos
        simp only [hkeep, if_true]
        exact List.mem_append_left _ (List.mem_singleton.mpr rfl)
      · rcases List.mem_cons.mp hm with rfl | hm
        · exact List.mem_append_right _ (ih curr m m (Or.inl rfl) hpos)
        · exact List.mem_append_right _ (ih curr next m (Or.inr hm) hpos)

/-- **C10** Through the public diff entry point `orphanMatchThreshold` is
always `0.0`: it is fixed by the `HtmlDiff` constructor and no option can
change it. Consequently `removeOrphans` retains every match of its input
whose matched new-side character length is positive — orphan suppression
can only ever drop a match whose matched tokens are all empty strings. -/
theorem orphanMatchThreshold_fixed_and_retention :
    (∀ options : Option HtmlDiffOptions,
      (htmlDiffInit options).orphanMatchThreshold = 0) ∧
    (∀ (options : Option HtmlDiffOptions) (oldWords newWords : List String)
      (ms : List Match) (m : Match), m ∈ ms →
      0 < HtmlDiff.sliceCharLength newWords m.startInNew m.endInNew →
      m ∈ HtmlDiff.removeOrphans oldWords newWords
        (htmlDiffInit options).orphanMatchThreshold ms) := by
  refine ⟨fun options => rfl, fun options oldWords newWords ms m hm hpos => ?_⟩
  have hthr : (htmlDiffInit options).orphanMatchThreshold = 0 := rfl
  rw [hthr]
  match ms, hm with
  | first :: rest, hm =>
    rw [HtmlDiff.removeOrphans]
    exact removeOrphansAux_zero_mem oldWords newWords rest ⟨0, 0, 0⟩ first m
      (List.mem_cons.mp hm) hpos

/-- Witness for `orphanMatchThreshold_fixed_and_retention` at a concrete
input: the single positive-length match of the list is retained. -/
theorem orphanMatchThreshold_fixed_and_retention_witness :
    (⟨0, 0, 1⟩ : Match) ∈ HtmlDiff.removeOrphans ["a"] ["a"]
      (htmlDiffInit Option.none).orphanMatchThreshold
      [⟨0, 0, 1⟩, ⟨1, 1, 0⟩] :=
  orphanMatchThreshold_fixed_and_retention.2 Option.none ["a"] ["a"]
    [⟨0, 0, 1⟩, ⟨1, 1, 0⟩] ⟨0, 0, 1⟩ (by decide) (by decide)

/-- **C6 counterexample** A match strictly sandwiched between two one-token
gaps on both sides (tokens `x` and `y`, matched run `M N`, threshold 1):
the claim's formula keeps it (its matched length 2 exceeds
`max(gapBefore, gapAfter) * threshold = 1`, under every reading of which
side the gaps are measured on), but `removeOrphans` drops it — the code
multiplies the threshold by the character length of the whole span from the
previous match's end to the next match's start (which includes the match
itself, here 4), not by the neighbour gaps. -/
theorem removeOrphans_claim_counterexample :
    -- the match is not adjacent to either neighbour
    ((⟨0, 0, 0⟩ : Match).endInOld ≠ (⟨1, 1, 2⟩ : Match).startInOld) ∧
    ((⟨1, 1, 2⟩ : Match).endInOld ≠ (⟨4, 4, 0⟩ : Match).startInOld) ∧
    -- the claim's keep condition holds …
    claimedOrphanKeep ["x", "M", "N", "y"] ["x", "M", "N", "y"] 1
      ⟨0, 0, 0⟩ ⟨1, 1, 2⟩ ⟨4, 4, 0⟩ = true ∧
    -- … but the code drops the match
    HtmlDiff.removeOrphans ["x", "M", "N", "y"] ["x", "M", "N", "y"] 1
      [⟨1, 1, 2⟩, ⟨4, 4, 0⟩] = [⟨4, 4, 0⟩] := by
  decide

/-- `removeOrphansAux` on a single sandwiched match and its successor. -/
theorem removeOrphansAux_pair (oldWords newWords : List String) (t : ℚ)
    (prev m s : Match) :
    HtmlDiff.removeOrphansAux oldWords newWords t prev m [s] =
      if (prev.endInOld = m.startInOld ∧ prev.endInNew = m.startInNew) ∨
          (m.endInOld = s.startInOld ∧ m.endInNew = s.startInNew) then
        [m, s]
      else
        (if gtMulRat (HtmlDiff.sliceCharLength newWords m.startInNew m.endInNew)
            (max (HtmlDiff.sliceCharLength oldWords prev.endInOld s.startInOld)
              (HtmlDiff.sliceCharLength newWords prev.endInNew s.startInNew)) t then
          [m]
        else []) ++ [s] := by
  rw [HtmlDiff.removeOrphansAux]
  split
  · rw [HtmlDiff.removeOrphansAux]
  · rw [HtmlDiff.removeOrphansAux]

/-- **C6 (amended)** In `removeOrphans`, a match adjacent (on both the old
and the new token index) to its previous or next neighbour is always kept;
a non-adjacent (sandwiched) match is kept exactly when its matched new-side
character length exceeds `max(oldSpan, newSpan) * orphanMatchThreshold`,
where `oldSpan`/`newSpan` are the character lengths of the old-side and
new-side token ranges reaching from the previous match's end to the next
match's start (each therefore including the match's own span), not the
distances to the neighbours. Stated for a match `m` followed by its
successor `s` (the previous match being the initial zero match). -/
theorem removeOrphans_sandwich (oldWords newWords : List String) (t : ℚ)
    (m s : Match) (hms : m ≠ s) :
    ((((⟨0, 0, 0⟩ : Match).endInOld = m.startInOld ∧
        (⟨0, 0, 0⟩ : Match).endInNew = m.startInNew) ∨
      (m.endInOld = s.startInOld ∧ m.endInNew = s.startInNew)) →
      m ∈ HtmlDiff.removeOrphans oldWords newWords t [m, s]) ∧
    (¬(((⟨0, 0, 0⟩ : Match).endInOld = m.startInOld ∧
        (⟨0, 0, 0⟩ : Match).endInNew = m.startInNew) ∨
      (m.endInOld = s.startInOld ∧ m.endInNew = s.startInNew)) →
      (m ∈ HtmlDiff.removeOrphans oldWords newWords t [m, s] ↔
        ((max (HtmlDiff.sliceCharLength oldWords
            (⟨0, 0, 0⟩ : Match).endInOld s.startInOld)
          (HtmlDiff.sliceCharLength newWords
            (⟨0, 0, 0⟩ : Match).endInNew s.startInNew) : ℕ) : ℚ) * t <
          (HtmlDiff.sliceCharLength newWords m.startInNew m.endInNew : ℚ))) := by
  rw [HtmlDiff.removeOrphans, removeOrphansAux_pair]
  constructor
  · intro hadj
    rw [if_pos hadj]
    exact List.mem_cons_self _ _
  · intro hadj
    rw [if_neg hadj]
    rw [← gtMulRat_iff]
    by_cases hkeep : gtMulRat
        (HtmlDiff.sliceCharLength newWords m.startInNew m.endInNew)
        (max (HtmlDiff.sliceCharLength oldWords
            (⟨0, 0, 0⟩ : Match).endInOld s.startInOld)
          (HtmlDiff.sliceCharLength newWords
            (⟨0, 0, 0⟩ : Match).endInNew s.startInNew)) t = true
    · rw [hkeep]
      simp [hkeep]
    · rw [Bool.not_eq_true] at hkeep
      rw [hkeep]
      simp [hkeep, hms]

/-- Witness for `removeOrphans_sandwich` at a concrete input: with a zero
threshold the sandwiched match `M N` is kept. -/
theorem removeOrphans_sandwich_witness :
    (⟨1, 1, 2⟩ : Match) ∈ HtmlDiff.removeOrphans ["x", "M", "N", "y"]
      ["x", "M", "N", "y"] 0 [⟨1, 1, 2⟩, ⟨4, 4, 0⟩] :=
  ((removeOrphans_sandwich ["x", "M", "N", "y"] ["x", "M", "N", "y"] 0
      ⟨1, 1, 2⟩ ⟨4, 4, 0⟩ (by decide)).2 (by decide)).mpr
    (by norm_num; decide)

/-! ## C7: the pairwise block score -/

/-- The exact integer form of `Math.round(d / m * 100)` used in
`scoreForMatch` agrees with rational rounding. -/
theorem jsRound_ratio (d m : ℕ) (hm : 0 < m) :
    jsRound ((d : ℚ) / (m : ℚ) * 100) = ((200 * d + m) / (2 * m) : ℕ) := by
  have hm0 : ((m : ℕ) : ℚ) ≠ 0 := by positivity
  have hq : (d : ℚ) / (m : ℚ) * 100 + 1 / 2 =
      ((200 * d + m : ℕ) : ℚ) / ((2 * m : ℕ) : ℚ) := by
    push_cast
    field_simp
    ring
  have hnn : (0 : ℚ) ≤ ((200 * d + m : ℕ) : ℚ) / ((2 * m : ℕ) : ℚ) := by
    positivity
  rw [jsRound, hq, ← Int.natCast_floor_eq_floor hnn, Nat.floor_div_eq_div]

/-- **C7** For every pair of blocks compared during weighted-LCS block
alignment, the pairwise score equals 0 when the blocks' types do not match
under the configured equivalence rules, and otherwise equals
`100 - round(100 * |lenOld - lenNew| / max(lenOld, lenNew))` where
`lenOld`/`lenNew` are the character lengths of each block's inner content
(the tokens strictly between the boundary tags, joined), and 100 when both
inner contents are empty. -/
theorem scoreForMatch_formula (a : BlockAnalyzer)
    (oldBlocks newBlocks : List Block) (oldWords newWords : List String)
    (oldIndex newIndex : ℕ)
    (hi : oldIndex < oldBlocks.length) (hj : newIndex < newBlocks.length) :
    HtmlDiff.scoreForMatch a oldBlocks newBlocks
      (oldBlocks.map (fun b =>
        (String.join (BlockAnalyzer.getBlockInnerWords oldWords b)).length))
      (newBlocks.map (fun b =>
        (String.join (BlockAnalyzer.getBlockInnerWords newWords b)).length))
      oldIndex newIndex =
    (let lenOld := (String.join (BlockAnalyzer.getBlockInnerWords oldWords
      oldBlocks[oldIndex])).length
    let lenNew := (String.join (BlockAnalyzer.getBlockInnerWords newWords
      newBlocks[newIndex])).length
    if ¬a.isSameBlockType oldBlocks[oldIndex] newBlocks[newIndex] then 0
    else if max lenOld lenNew = 0 then 100
    else 100 - jsRound ((((lenOld : ℤ) - (lenNew : ℤ)).natAbs : ℚ) /
      ((max lenOld lenNew : ℕ) : ℚ) * 100)) := by
  rw [HtmlDiff.scoreForMatch]
  simp only [List.getElem?_map, List.getElem?_eq_getElem hi,
    List.getElem?_eq_getElem hj, Option.map_some', Option.getD_some]
  by_cases htype : a.isSameBlockType oldBlocks[oldIndex] newBlocks[newIndex]
  · by_cases hmax : max
        (String.join (BlockAnalyzer.getBlockInnerWords oldWords
          oldBlocks[oldIndex])).length
        (String.join (BlockAnalyzer.getBlockInnerWords newWords
          newBlocks[newIndex])).length = 0
    · simp [htype, hmax]
    · have hpos := Nat.pos_of_ne_zero hmax
      rw [jsRound_ratio _ _ hpos]
  · simp [htype]

/-- Witness for `scoreForMatch_formula`: a type-matching pair with inner
lengths 2 and 3, scoring `100 - round(100/3) = 67`. -/
theorem scoreForMatch_formula_witness :
    HtmlDiff.scoreForMatch (BlockAnalyzer.mk' ⟨true, Option.none, Option.none⟩)
      [⟨"p", 0, 2, 0⟩] [⟨"p", 0, 4, 0⟩]
      ([⟨"p", 0, 2, 0⟩].map (fun b =>
        (String.join (BlockAnalyzer.getBlockInnerWords ["<p>", "ab", "</p>"] b)).length))
      ([⟨"p", 0, 4, 0⟩].map (fun b =>
        (String.join (BlockAnalyzer.getBlockInnerWords
          ["<p>", "a", "b", "c", "</p>"] b)).length))
      0 0 =
    (let lenOld := (String.join (BlockAnalyzer.getBlockInnerWords
      ["<p>", "ab", "</p>"] (⟨"p", 0, 2, 0⟩ : Block))).length
    let lenNew := (String.join (BlockAnalyzer.getBlockInnerWords
      ["<p>", "a", "b", "c", "</p>"] (⟨"p", 0, 4, 0⟩ : Block))).length
    if ¬(BlockAnalyzer.mk' ⟨true, Option.none, Option.none⟩).isSameBlockType
        ⟨"p", 0, 2, 0⟩ ⟨"p", 0, 4, 0⟩ then 0
    else if max lenOld lenNew = 0 then 100
    else 100 - jsRound ((((lenOld : ℤ) - (lenNew : ℤ)).natAbs : ℚ) /
      ((max lenOld lenNew : ℕ) : ℚ) * 100)) :=
  scoreForMatch_formula (BlockAnalyzer.mk' ⟨true, Option.none, Option.none⟩)
    [⟨"p", 0, 2, 0⟩] [⟨"p", 0, 4, 0⟩] ["<p>", "ab", "</p>"]
    ["<p>", "a", "b", "c", "</p>"] 0 0 (by decide) (by decide)

/-! ## C8: the tag-safe wrapping rule of insertTag -/

theorem foldl_append_str (l : List String) :
    ∀ s : String, List.foldl (fun r x => r ++ x) s l =
      s ++ List.foldl (fun r x => r ++ x) "" l := by
  induction l with
  | nil => intro s; simp
  | cons a l ih =>
    intro s
    simp only [List.foldl_cons]
    rw [ih (s ++ a), ih ("" ++ a), ← String.append_assoc]
    simp

theorem stringJoin_cons (s : String) (l : List String) :
    String.join (s :: l) = s ++ String.join l := by
  simp only [String.join, List.foldl_cons]
  rw [foldl_append_str]
  simp

theorem takeWhile_append_all {α : Type} (p : α → Bool) :
    ∀ (l₁ l₂ : List α), (∀ x ∈ l₁, p x = true) →
    List.takeWhile p (l₁ ++ l₂) = l₁ ++ List.takeWhile p l₂ := by
  intro l₁
  induction l₁ with
  | nil => intro l₂ _; rfl
  | cons a l ih =>
    intro l₂ hall
    have ha : p a = true := hall a (List.mem_cons_self _ _)
    simp only [List.cons_append, List.takeWhile_cons, ha, ite_true]
    rw [ih l₂ (fun x hx => hall x (List.mem_cons_of_mem _ hx))]

theorem takeWhile_head_false {α : Type} (p : α → Bool) (a : α) (l : List α)
    (ha : p a = false) : List.takeWhile p (a :: l) = [] := by
  simp [List.takeWhile_cons, ha]

/-- If the first run of the list is nonempty and begins with a token
failing the predicate, the flattened list has an empty `takeWhile`. -/
theorem takeWhile_flatten_nil_of_head (p : String → Bool)
    (rest : List (Bool × List String))
    (h : ∀ r2 ∈ rest.take 1, ∃ u us, r2.2 = u :: us ∧ p u = false) :
    List.takeWhile p ((rest.map Prod.snd).flatten) = [] := by
  cases rest with
  | nil => rfl
  | cons r2 other =>
    obtain ⟨u, us, h2, hu⟩ := h r2 (by simp)
    simp only [List.map_cons, List.flatten_cons, h2, List.cons_append]
    exact takeWhile_head_false p u _ hu

/-- One unfolding of the `insertTag` loop. -/
theorem insertTagGo_cons (tag cssClass : String) (fuel : ℕ) (c : String)
    (content : List String) :
    HtmlDiff.insertTagGo tag cssClass (fuel + 1) (c :: content) =
      (let nonTags := (c :: content).takeWhile (fun x => !isTag x)
      let rest1 := (c :: content).drop nonTags.length
      let tags := rest1.takeWhile isTag
      let rest2 := rest1.drop tags.length
      (if nonTags.length ≠ 0 then
        "<" ++ tag ++ " class=\"" ++ cssClass ++ "\">" ++
          String.join nonTags ++ "</" ++ tag ++ ">"
      else "") ++ String.join tags ++
        HtmlDiff.insertTagGo tag cssClass fuel rest2) := by
  rfl

theorem insertTagGo_nil (tag cssClass : String) (fuel : ℕ) :
    HtmlDiff.insertTagGo tag cssClass fuel [] = "" := by
  cases fuel <;> rfl

/-- The wrapping rule, proved for the loop with any sufficient fuel, by
strong induction on the number of maximal runs. -/
theorem insertTagGo_runs (tag cssClass : String) :
    ∀ (n : ℕ) (runs : List (Bool × List String)), runs.length ≤ n →
    (∀ r ∈ runs, r.2 ≠ []) →
    (∀ r ∈ runs, ∀ tok ∈ r.2, isTag tok = r.1) →
    runs.Chain' (fun a b => a.1 ≠ b.1) →
    ∀ fuel, ((runs.map Prod.snd).flatten).length ≤ fuel →
    HtmlDiff.insertTagGo tag cssClass fuel ((runs.map Prod.snd).flatten) =
      String.join (runs.map (renderRun tag cssClass)) := by
  intro n
  induction n with
  | zero =>
    intro runs hlen _ _ _ fuel _
    have hrn : runs = [] := List.length_eq_zero.mp (Nat.le_zero.mp hlen)
    subst hrn
    simp [insertTagGo_nil, String.join]
  | succ n ih =>
    intro runs hlen hne huni hchain fuel hfuel
    cases runs with
    | nil => simp [insertTagGo_nil, String.join]
    | cons r rest =>
      have hrne : r.2 ≠ [] := hne r (List.mem_cons_self _ _)
      have hrall : ∀ tok ∈ r.2, isTag tok = r.1 :=
        huni r (List.mem_cons_self _ _)
      obtain ⟨t, ts, hr2⟩ : ∃ t ts, r.2 = t :: ts := by
        cases h : r.2 with
        | nil => exact absurd h hrne
        | cons t ts => exact ⟨t, ts, rfl⟩
      have hcontent : (((r :: rest).map Prod.snd).flatten) =
          r.2 ++ ((rest.map Prod.snd).flatten) := by
        simp
      have hflen : 0 < (((r :: rest).map Prod.snd).flatten).length := by
        rw [hcontent, hr2]; simp
      obtain ⟨f, rfl⟩ : ∃ f, fuel = f + 1 := by
        cases fuel with
        | zero => omega
        | succ f => exact ⟨f, rfl⟩
      have hneRest : ∀ x ∈ rest, x.2 ≠ [] :=
        fun x hx => hne x (List.mem_cons_of_mem _ hx)
      have huniRest : ∀ x ∈ rest, ∀ tok ∈ x.2, isTag tok = x.1 :=
        fun x hx => huni x (List.mem_cons_of_mem _ hx)
      have hchainRest : rest.Chain' (fun a b => a.1 ≠ b.1) := hchain.tail
      have hcons : (((r :: rest).map Prod.snd).flatten) =
          t :: (ts ++ ((rest.map Prod.snd).flatten)) := by
        rw [hcontent, hr2]; simp
      have ht : isTag t = r.1 := hrall t (by rw [hr2]; exact List.mem_cons_self _ _)
      cases hb : r.1 with
      | true =>
        -- leading run of tag tokens: emitted bare, does not open a wrapper
        have hnonTags : List.takeWhile (fun x => !isTag x)
            (t :: (ts ++ ((rest.map Prod.snd).flatten))) = [] := by
          apply takeWhile_head_false
          rw [ht, hb]; rfl
        have htagsRest :
            List.takeWhile isTag ((rest.map Prod.snd).flatten) = [] := by
          apply takeWhile_flatten_nil_of_head
          intro r2 hr2m
          have hmem : r2 ∈ rest := List.mem_of_mem_take hr2m
          obtain ⟨u, us, hu2⟩ : ∃ u us, r2.2 = u :: us := by
            cases h : r2.2 with
            | nil => exact absurd h (hneRest r2 hmem)
            | cons u us => exact ⟨u, us, rfl⟩
          refine ⟨u, us, hu2, ?_⟩
          have hu : isTag u = r2.1 := huniRest r2 hmem u (by rw [hu2]; simp)
          have hr21 : r2.1 = false := by
            cases rest with
            | nil => simp at hr2m
            | cons y l =>
              have hy : r2 = y := by simpa using hr2m
              subst hy
              have hdiff := (List.chain'_cons.mp hchain).1
              rw [hb] at hdiff
              cases h1 : r2.1 with
              | false => rfl
              | true => exact absurd (by rw [h1]) hdiff
          rw [hu, hr21]
        have htags : List.takeWhile isTag
            (t :: (ts ++ ((rest.map Prod.snd).flatten))) = r.2 := by
          have : t :: (ts ++ ((rest.map Prod.snd).flatten)) =
              r.2 ++ ((rest.map Prod.snd).flatten) := by
            rw [hr2]; simp
          rw [this, takeWhile_append_all isTag r.2 _
            (fun x hx => by rw [hrall x hx, hb]), htagsRest, List.append_nil]
        rw [hcons, insertTagGo_cons]
        simp only [hnonTags, htags, List.length_nil, List.drop_zero, ne_eq,
          not_true_eq_false, ite_false, List.length_eq_zero]
        have hdrop : (t :: (ts ++ ((rest.map Prod.snd).flatten))).drop
            r.2.length = ((rest.map Prod.snd).flatten) := by
          have : t :: (ts ++ ((rest.map Prod.snd).flatten)) =
              r.2 ++ ((rest.map Prod.snd).flatten) := by
            rw [hr2]; simp
          rw [this, List.drop_left]
        rw [hdrop]
        have hfuelRest : ((rest.map Prod.snd).flatten).length ≤ f := by
          have h1 : (((r :: rest).map Prod.snd).flatten).length =
              r.2.length + ((rest.map Prod.snd).flatten).length := by
            rw [hcontent]; simp
          have h2 : 0 < r.2.length := by rw [hr2]; simp
          omega
        rw [ih rest (by simpa using Nat.le_of_succ_le_succ hlen) hneRest
          huniRest hchainRest f hfuelRest]
        simp only [List.map_cons, stringJoin_cons]
        have hrender : renderRun tag cssClass r = String.join r.2 := by
          simp [renderRun, hb]
        rw [hrender]
        simp
      | false =>
        -- leading run of non-tag tokens: wrapped in one marker element
        have hnonTags : List.takeWhile (fun x => !isTag x)
            (t :: (ts ++ ((rest.map Prod.snd).flatten))) =
            r.2 ++ List.takeWhile (fun x => !isTag x)
              ((rest.map Prod.snd).flatten) := by
          have : t :: (ts ++ ((rest.map Prod.snd).flatten)) =
              r.2 ++ ((rest.map Prod.snd).flatten) := by
            rw [hr2]; simp
          rw [this]
          exact takeWhile_append_all _ r.2 _
            (fun x hx => by rw [hrall x hx, hb]; rfl)
        have hnonTagsRest : List.takeWhile (fun x => !isTag x)
            ((rest.map Prod.snd).flatten) = [] := by
          apply takeWhile_flatten_nil_of_head
          intro r2 hr2m
          have hmem : r2 ∈ rest := List.mem_of_mem_take hr2m
          obtain ⟨u, us, hu2⟩ : ∃ u us, r2.2 = u :: us := by
            cases h : r2.2 with
            | nil => exact absurd h (hneRest r2 hmem)
            | cons u us => exact ⟨u, us, rfl⟩
          refine ⟨u, us, hu2, ?_⟩
          have hu : isTag u = r2.1 := huniRest r2 hmem u (by rw [hu2]; simp)
          have hr21 : r2.1 = true := by
            cases rest with
            | nil => simp at hr2m
            | cons y l =>
              have hy : r2 = y := by simpa using hr2m
              subst hy
              have hdiff := (List.chain'_cons.mp hchain).1
              rw [hb] at hdiff
              cases h1 : r2.1 with
              | true => rfl
              | false => exact absurd (by rw [h1]) hdiff
          rw [hu, hr21]; rfl
        have hnt : List.takeWhile (fun x => !isTag x)
            (t :: (ts ++ ((rest.map Prod.snd).flatten))) = r.2 := by
          rw [hnonTags, hnonTagsRest, List.append_nil]
        rw [hcons, insertTagGo_cons]
        simp only [hnt]
        have hdrop : (t :: (ts ++ ((rest.map Prod.snd).flatten))).drop
            r.2.length = ((rest.map Prod.snd).flatten) := by
          have : t :: (ts ++ ((rest.map Prod.snd).flatten)) =
              r.2 ++ ((rest.map Prod.snd).flatten) := by
            rw [hr2]; simp
          rw [this, List.drop_left]
        rw [hdrop]
        have hlenpos : r.2.length ≠ 0 := by rw [hr2]; simp
        simp only [hlenpos, ne_eq, not_false_eq_true, ite_true, if_true]
        have hwrap : renderRun tag cssClass r =
            "<" ++ tag ++ " class=\"" ++ cssClass ++ "\">" ++
              String.join r.2 ++ "</" ++ tag ++ ">" := by
          simp [renderRun, hb]
        cases rest with
        | nil =>
          simp only [List.map_nil, List.flatten_nil, List.takeWhile_nil,
            List.drop_nil, List.length_nil, insertTagGo_nil]
          simp [stringJoin_cons, hwrap, String.join]
        | cons y rest2 =>
          have hyne : y.2 ≠ [] := hneRest y (List.mem_cons_self _ _)
          have hy1 : y.1 = true := by
            have hdiff := (List.chain'_cons.mp hchain).1
            rw [hb] at hdiff
            cases h1 : y.1 with
            | true => rfl
            | false => exact absurd (by rw [h1]) hdiff
          have hyflat : (((y :: rest2).map Prod.snd).flatten) =
              y.2 ++ ((rest2.map Prod.snd).flatten) := by
            simp
          have htagsy : List.takeWhile isTag
              (((y :: rest2).map Prod.snd).flatten) =
              y.2 ++ List.takeWhile isTag ((rest2.map Prod.snd).flatten) := by
            rw [hyflat]
            exact takeWhile_append_all isTag y.2 _
              (fun x hx => by
                rw [huniRest y (List.mem_cons_self _ _) x hx, hy1])
          have htagsRest2 : List.takeWhile isTag
              ((rest2.map Prod.snd).flatten) = [] := by
            apply takeWhile_flatten_nil_of_head
            intro r2 hr2m
            have hmem : r2 ∈ rest2 := List.mem_of_mem_take hr2m
            obtain ⟨u, us, hu2⟩ : ∃ u us, r2.2 = u :: us := by
              cases h : r2.2 with
              | nil =>
                exact absurd h (hneRest r2 (List.mem_cons_of_mem _ hmem))
              | cons u us => exact ⟨u, us, rfl⟩
            refine ⟨u, us, hu2, ?_⟩
            have hu : isTag u = r2.1 :=
              huniRest r2 (List.mem_cons_of_mem _ hmem) u (by rw [hu2]; simp)
            have hr21 : r2.1 = false := by
              cases rest2 with
              | nil => simp at hr2m
              | cons z l =>
                have hz : r2 = z := by simpa using hr2m
                subst hz
                have hdiff := (List.chain'_cons.mp hchain.tail).1
                rw [hy1] at hdiff
                cases h1 : r2.1 with
                | false => rfl
                | true => exact absurd (by rw [h1]) hdiff
            rw [hu, hr21]
          have htagsAll : List.takeWhile isTag
              (((y :: rest2).map Prod.snd).flatten) = y.2 := by
            rw [htagsy, htagsRest2, List.append_nil]
          rw [htagsAll]
          have hdrop2 : (((y :: rest2).map Prod.snd).flatten).drop
              y.2.length = ((rest2.map Prod.snd).flatten) := by
            rw [hyflat, List.drop_left]
          rw [hdrop2]
          have hfuelRest2 : ((rest2.map Prod.snd).flatten).length ≤ f := by
            have h1 : (((r :: y :: rest2).map Prod.snd).flatten).length =
                r.2.length + (y.2.length +
                  ((rest2.map Prod.snd).flatten).length) := by
              simp
            have h2 : 0 < r.2.length := by rw [hr2]; simp
            have h3 : 0 < y.2.length := List.length_pos.mpr hyne
            omega
          have hlen2 : rest2.length ≤ n := by
            simp only [List.length_cons] at hlen
            omega
          rw [ih rest2 hlen2
            (fun x hx => hneRest x (List.mem_cons_of_mem _ hx))
            (fun x hx => huniRest x (List.mem_cons_of_mem _ hx))
            hchainRest.tail f hfuelRest2]
          simp only [List.map_cons, stringJoin_cons, hwrap]
          have hrendery : renderRun tag cssClass y = String.join y.2 := by
            simp [renderRun, hy1]
          rw [hrendery]
          simp [String.append_assoc]

/-- **C8** For every content token list handed to `insertTag` (as every
insert/delete/replace operation does), presented as its decomposition into
maximal runs (nonempty runs of uniform tag-status, adjacent runs of
different status): each maximal run of non-tag tokens is wrapped together
inside exactly one marker element, each maximal run of tag tokens is
emitted bare outside any marker element, and the runs are emitted in
original token order. -/
theorem insertTag_wraps_maximal_runs (tag cssClass : String)
    (runs : List (Bool × List String))
    (hne : ∀ r ∈ runs, r.2 ≠ [])
    (huni : ∀ r ∈ runs, ∀ tok ∈ r.2, isTag tok = r.1)
    (halt : runs.Chain' (fun a b => a.1 ≠ b.1)) :
    HtmlDiff.insertTag tag cssClass ((runs.map Prod.snd).flatten) =
      String.join (runs.map (renderRun tag cssClass)) := by
  rw [HtmlDiff.insertTag]
  exact insertTagGo_runs tag cssClass runs.length runs le_rfl hne huni halt _
    le_rfl

/-- Witness for `insertTag_wraps_maximal_runs`: a non-tag run, a tag run
and another non-tag run render as wrap, bare, wrap. -/
theorem insertTag_wraps_maximal_runs_witness :
    HtmlDiff.insertTag "ins" "diffins"
      (([(false, ["a", " "]), (true, ["<b>", "<i>"]), (false, ["c"])].map
        Prod.snd).flatten) =
      String.join ([(false, ["a", " "]), (true, ["<b>", "<i>"]),
        (false, ["c"])].map (renderRun "ins" "diffins")) :=
  insertTag_wraps_maximal_runs "ins" "diffins"
    [(false, ["a", " "]), (true, ["<b>", "<i>"]), (false, ["c"])]
    (by decide) (by decide) (by simp [List.chain'_cons])

/-! ## C1: the partition invariant of the edit script

The chain of lemmas: every match returned by the finder lies inside the
queried window and has positive size; the recursive matcher therefore
produces an ordered, in-window match list; orphan removal yields a
subsequence that keeps the final sentinel; and the operation synthesizer
turns any such list into ranges that tile both token intervals. -/

theorem groupEndPositions_mem (newWords : List String)
    (startInNew endInNew g : ℕ) (acc : ℚ) (key : String) (j : ℕ)
    (h : j ∈ groupEndPositions newWords startInNew endInNew g acc key) :
    startInNew ≤ j ∧ j < endInNew ∧ startInNew + g ≤ j + 1 := by
  rw [groupEndPositions] at h
  split at h
  · simp at h
  · have hmem := List.mem_filter.mp h
    have hrange := hmem.1
    have hcond := hmem.2
    rw [List.mem_range'] at hrange
    obtain ⟨i, hi, rfl⟩ := hrange
    have h1 : startInNew + g ≤ startInNew + 1 * i + 1 := by
      have := (Bool.and_eq_true _ _).mp hcond
      exact of_decide_eq_true this.1
    omega

theorem lookupRun_mem (assoc : List (ℕ × ℕ)) (j : ℕ)
    (h : lookupRun assoc j ≠ 0) : (j, lookupRun assoc j) ∈ assoc := by
  rw [lookupRun] at h ⊢
  cases hf : assoc.find? (fun p => p.1 = j) with
  | none => simp [hf] at h
  | some p =>
    simp only [hf]
    have hp := List.find?_some hf
    have hmem := List.mem_of_find?_eq_some hf
    have hpj : p.1 = j := of_decide_eq_true hp
    show (j, p.2) ∈ assoc
    rw [← hpj]
    exact hmem

theorem foldl_updateBest_ok (a : ℕ) (P : ℕ × ℕ × ℕ → Prop) :
    ∀ (entries : List (ℕ × ℕ)) (b : Option (ℕ × ℕ × ℕ)),
    (∀ e ∈ entries, P (a, e.1, e.2)) →
    (∀ c, b = some c → P c) →
    ∀ c, entries.foldl (updateBest a) b = some c → P c := by
  intro entries
  induction entries with
  | nil => intro b _ hb c hc; exact hb c hc
  | cons e rest ih =>
    intro b hall hb c hc
    rw [List.foldl_cons] at hc
    refine ih (updateBest a b e)
      (fun x hx => hall x (List.mem_cons_of_mem _ hx)) ?_ c hc
    intro d hd
    cases b with
    | none =>
      rw [updateBest] at hd
      simp only [Option.some.injEq] at hd
      rw [← hd]
      exact hall e (List.mem_cons_self _ _)
    | some b0 =>
      rw [updateBest] at hd
      by_cases hgt : e.2 > b0.2.2
      · rw [if_pos hgt] at hd
        simp only [Option.some.injEq] at hd
        rw [← hd]
        exact hall e (List.mem_cons_self _ _)
      · rw [if_neg hgt] at hd
        simp only [Option.some.injEq] at hd
        rw [← hd]
        exact hb b0 rfl

/-- The scan invariant: whenever the fold over old end positions yields a
best candidate `(i, j, len)`, the corresponding token run lies inside the
windows and has at least one group. -/
theorem finderFold_bestOk (oldWords newWords : List String)
    (startInOld startInNew endInOld endInNew g : ℕ) (acc : ℚ) :
    ∀ (len a : ℕ) (st : FinderState),
    a + len ≤ endInOld ∨ len = 0 →
    (∀ p ∈ st.matchLengthAt, 1 ≤ p.2 ∧ startInOld + g + p.2 ≤ a + 1 ∧
      startInNew + g + p.2 ≤ p.1 + 2 ∧ p.1 < endInNew) →
    (∀ i j L, st.best = some (i, j, L) → 1 ≤ L ∧
      startInOld + g + L ≤ i + 2 ∧ i < endInOld ∧
      startInNew + g + L ≤ j + 2 ∧ j < endInNew) →
    ∀ i j L, ((List.range' a len).foldl
        (finderStep oldWords newWords startInOld startInNew endInNew g acc)
        st).best = some (i, j, L) →
      1 ≤ L ∧ startInOld + g + L ≤ i + 2 ∧ i < endInOld ∧
        startInNew + g + L ≤ j + 2 ∧ j < endInNew := by
  intro len
  induction len with
  | zero =>
    intro a st _ _ hbest i j L h
    exact hbest i j L h
  | succ len ih =>
    intro a st hlen hE hbest i j L h
    rw [List.range'_succ, List.foldl_cons] at h
    have hlen' : a + (len + 1) ≤ endInOld := by
      rcases hlen with hlen | hlen
      · exact hlen
      · exact absurd hlen (by omega)
    have ha : a < endInOld := by omega
    set st' := finderStep oldWords newWords startInOld startInNew endInNew g
      acc st a with hst'
    set nm := (groupEndPositions newWords startInNew endInNew g acc
        (groupJoinEnd oldWords a g)).map
      (fun x =>
        (x, (if x = 0 then 0 else lookupRun st.matchLengthAt (x - 1)) + 1))
      with hnm
    have hnmOk : ∀ p ∈ nm, 1 ≤ p.2 ∧ startInOld + g ≤ a + 1 →
        True := fun _ _ _ => trivial
    have hentry : startInOld + g ≤ a + 1 → ∀ p ∈ nm, 1 ≤ p.2 ∧
        startInOld + g + p.2 ≤ a + 2 ∧
        startInNew + g + p.2 ≤ p.1 + 2 ∧ p.1 < endInNew := by
      intro hguard p hp
      rw [hnm] at hp
      obtain ⟨x, hx, rfl⟩ := List.mem_map.mp hp
      obtain ⟨hx1, hx2, hx3⟩ := groupEndPositions_mem newWords startInNew
        endInNew g acc (groupJoinEnd oldWords a g) x hx
      by_cases hx0 : x = 0
      · have hv : (if x = 0 then 0
            else lookupRun st.matchLengthAt (x - 1)) = 0 := if_pos hx0
        simp only [hv]
        refine ⟨by omega, by omega, by omega, hx2⟩
      · have hv : (if x = 0 then 0 else lookupRun st.matchLengthAt (x - 1)) =
            lookupRun st.matchLengthAt (x - 1) := if_neg hx0
        simp only [hv]
        by_cases hlr : lookupRun st.matchLengthAt (x - 1) = 0
        · simp only [hlr]
          refine ⟨by omega, by omega, by omega, hx2⟩
        · have hmem := lookupRun_mem st.matchLengthAt (x - 1) hlr
          obtain ⟨h1, h2, h3, _⟩ := hE _ hmem
          refine ⟨by omega, by omega, ?_, hx2⟩
          have hx1' : 1 ≤ x := Nat.one_le_iff_ne_zero.mpr hx0
          omega
    have hsplit : st' = (if startInOld + g ≤ a + 1 then
        FinderState.mk nm (nm.foldl (updateBest a) st.best) else st) := by
      rw [hst', hnm]
      rfl
    have hE' : ∀ p ∈ st'.matchLengthAt, 1 ≤ p.2 ∧
        startInOld + g + p.2 ≤ (a + 1) + 1 ∧
        startInNew + g + p.2 ≤ p.1 + 2 ∧ p.1 < endInNew := by
      by_cases hguard : startInOld + g ≤ a + 1
      · rw [hsplit, if_pos hguard]
        exact hentry hguard
      · rw [hsplit, if_neg hguard]
        intro p hp
        obtain ⟨h1, h2, h3, h4⟩ := hE p hp
        exact ⟨h1, by omega, h3, h4⟩
    have hbest' : ∀ i j L, st'.best = some (i, j, L) → 1 ≤ L ∧
        startInOld + g + L ≤ i + 2 ∧ i < endInOld ∧
        startInNew + g + L ≤ j + 2 ∧ j < endInNew := by
      by_cases hguard : startInOld + g ≤ a + 1
      · rw [hsplit, if_pos hguard]
        intro i j L hsome
        refine foldl_updateBest_ok a (fun c => 1 ≤ c.2.2 ∧
          startInOld + g + c.2.2 ≤ c.1 + 2 ∧ c.1 < endInOld ∧
          startInNew + g + c.2.2 ≤ c.2.1 + 2 ∧ c.2.1 < endInNew) nm st.best
          ?_ ?_ (i, j, L) hsome
        · intro e he
          obtain ⟨h1, h2, h3, h4⟩ := hentry hguard e he
          refine ⟨h1, ?_, ha, ?_, h4⟩
          · show startInOld + g + e.2 ≤ a + 2
            omega
          · show startInNew + g + e.2 ≤ e.1 + 2
            omega
        · intro c hc
          obtain ⟨h1, h2, h3, h4, h5⟩ := hbest c.1 c.2.1 c.2.2 (by
            rw [hc])
          exact ⟨h1, h2, h3, h4, h5⟩
      · rw [hsplit, if_neg hguard]
        exact hbest
    exact ih (a + 1) st' (Or.inl (by omega)) hE' hbest' i j L h

/-- Modelled finder validity: a returned match lies inside the queried
windows and has positive size. -/
theorem findMatchAtGranularity_valid (oldWords newWords : List String)
    (startInOld endInOld startInNew endInNew g : ℕ) (acc : ℚ)
    (hg : 1 ≤ g) (m : Match)
    (h : findMatchAtGranularity oldWords newWords startInOld endInOld
      startInNew endInNew g acc = some m) :
    startInOld ≤ m.startInOld ∧ m.endInOld ≤ endInOld ∧
      startInNew ≤ m.startInNew ∧ m.endInNew ≤ endInNew ∧ 1 ≤ m.size := by
  rw [findMatchAtGranularity] at h
  set final := (List.range' startInOld (endInOld - startInOld)).foldl
    (finderStep oldWords newWords startInOld startInNew endInNew g acc)
    ⟨[], Option.none⟩ with hfinal
  cases hb : final.best with
  | none =>
    rw [hb] at h
    simp at h
  | some c =>
    obtain ⟨i, j, L⟩ := c
    rw [hb] at h
    simp only [Option.some.injEq] at h
    rw [hfinal] at hb
    have hvalid := finderFold_bestOk oldWords newWords startInOld startInNew
      endInOld endInNew g acc (endInOld - startInOld) startInOld
      ⟨[], Option.none⟩
      (by
        by_cases hc : startInOld ≤ endInOld
        · exact Or.inl (by omega)
        · exact Or.inr (by omega))
      (by intro p hp; simp at hp)
      (by intro i' j' L' h'; simp at h') i j L hb
    obtain ⟨h1, h2, h3, h4, h5⟩ := hvalid
    rw [← h]
    refine ⟨?_, ?_, ?_, ?_, ?_⟩
    · show startInOld ≤ i + 2 - (L + g)
      omega
    · show (i + 2 - (L + g)) + (L + g - 1) ≤ endInOld
      omega
    · show startInNew ≤ j + 2 - (L + g)
      omega
    · show (j + 2 - (L + g)) + (L + g - 1) ≤ endInNew
      omega
    · show 1 ≤ L + g - 1
      omega

/-- `HtmlDiff.findMatch` validity across the granularity loop. -/
theorem findMatch_valid (oldWords newWords : List String) (acc : ℚ) :
    ∀ (G startInOld endInOld startInNew endInNew : ℕ) (m : Match),
    HtmlDiff.findMatch oldWords newWords acc startInOld endInOld startInNew
      endInNew G = some m →
    startInOld ≤ m.startInOld ∧ m.endInOld ≤ endInOld ∧
      startInNew ≤ m.startInNew ∧ m.endInNew ≤ endInNew ∧ 1 ≤ m.size := by
  intro G
  induction G with
  | zero =>
    intro _ _ _ _ m h
    rw [HtmlDiff.findMatch] at h
    exact absurd h (by simp)
  | succ g ih =>
    intro startInOld endInOld startInNew endInNew m h
    rw [HtmlDiff.findMatch] at h
    cases hfm : findMatchAtGranularity oldWords newWords startInOld endInOld
        startInNew endInNew (g + 1) acc with
    | some m0 =>
      rw [hfm] at h
      simp only [Option.some.injEq] at h
      rw [← h]
      exact findMatchAtGranularity_valid oldWords newWords startInOld
        endInOld startInNew endInNew (g + 1) acc (by omega) m0 hfm
    | none =>
      rw [hfm] at h
      exact ih startInOld endInOld startInNew endInNew m h

/-- The recursive matcher returns an ordered list of in-window matches of
positive size. -/
theorem findMatchingBlocks_chain (oldWords newWords : List String)
    (acc : ℚ) (mg : ℕ) :
    ∀ (fuel startInOld endInOld startInNew endInNew : ℕ),
    (∀ m ∈ HtmlDiff.findMatchingBlocks oldWords newWords acc mg fuel
        startInOld endInOld startInNew endInNew,
      startInOld ≤ m.startInOld ∧ m.endInOld ≤ endInOld ∧
        startInNew ≤ m.startInNew ∧ m.endInNew ≤ endInNew ∧ 1 ≤ m.size) ∧
    (HtmlDiff.findMatchingBlocks oldWords newWords acc mg fuel
        startInOld endInOld startInNew endInNew).Pairwise
      (fun m1 m2 => m1.endInOld ≤ m2.startInOld ∧
        m1.endInNew ≤ m2.startInNew) := by
  intro fuel
  induction fuel with
  | zero =>
    intro startInOld endInOld startInNew endInNew
    rw [HtmlDiff.findMatchingBlocks]
    exact ⟨by simp, List.Pairwise.nil⟩
  | succ fuel ih =>
    intro startInOld endInOld startInNew endInNew
    rw [HtmlDiff.findMatchingBlocks]
    cases hfm : HtmlDiff.findMatch oldWords newWords acc startInOld endInOld
        startInNew endInNew mg with
    | none => exact ⟨by simp, List.Pairwise.nil⟩
    | some m =>
      obtain ⟨hm1, hm2, hm3, hm4, hm5⟩ :=
        findMatch_valid oldWords newWords acc mg startInOld endInOld
          startInNew endInNew m hfm
      set before := if startInOld < m.startInOld ∧ startInNew < m.startInNew
        then HtmlDiff.findMatchingBlocks oldWords newWords acc mg fuel
          startInOld m.startInOld startInNew m.startInNew
        else [] with hbefore
      set after := if m.endInOld < endInOld ∧ m.endInNew < endInNew
        then HtmlDiff.findMatchingBlocks oldWords newWords acc mg fuel
          m.endInOld endInOld m.endInNew endInNew
        else [] with hafter
      have hBefore : ∀ x ∈ before, startInOld ≤ x.startInOld ∧
          x.endInOld ≤ m.startInOld ∧ startInNew ≤ x.startInNew ∧
          x.endInNew ≤ m.startInNew ∧ 1 ≤ x.size := by
        rw [hbefore]
        split
        · exact (ih startInOld m.startInOld startInNew m.startInNew).1
        · simp
      have hAfter : ∀ x ∈ after, m.endInOld ≤ x.startInOld ∧
          x.endInOld ≤ endInOld ∧ m.endInNew ≤ x.startInNew ∧
          x.endInNew ≤ endInNew ∧ 1 ≤ x.size := by
        rw [hafter]
        split
        · exact (ih m.endInOld endInOld m.endInNew endInNew).1
        · simp
      have hBeforeP : before.Pairwise (fun m1 m2 =>
          m1.endInOld ≤ m2.startInOld ∧ m1.endInNew ≤ m2.startInNew) := by
        rw [hbefore]
        split
        · exact (ih startInOld m.startInOld startInNew m.startInNew).2
        · exact List.Pairwise.nil
      have hAfterP : after.Pairwise (fun m1 m2 =>
          m1.endInOld ≤ m2.startInOld ∧ m1.endInNew ≤ m2.startInNew) := by
        rw [hafter]
        split
        · exact (ih m.endInOld endInOld m.endInNew endInNew).2
        · exact List.Pairwise.nil
      constructor
      · intro x hx
        rcases List.mem_append.mp hx with hx | hx
        · rcases List.mem_append.mp hx with hx | hx
          · obtain ⟨h1, h2, h3, h4, h5⟩ := hBefore x hx
            have hmso : m.startInOld ≤ m.endInOld := by
              rw [Match.endInOld]; omega
            have hmsn : m.startInNew ≤ m.endInNew := by
              rw [Match.endInNew]; omega
            exact ⟨h1, by omega, h3, by omega, h5⟩
          · rw [List.mem_singleton.mp hx]
            exact ⟨hm1, hm2, hm3, hm4, hm5⟩
        · obtain ⟨h1, h2, h3, h4, h5⟩ := hAfter x hx
          have hmso : startInOld ≤ m.endInOld := by
            rw [Match.endInOld] at *; omega
          have hmsn : startInNew ≤ m.endInNew := by
            rw [Match.endInNew] at *; omega
          exact ⟨by omega, h2, by omega, h4, h5⟩
      · rw [List.pairwise_append]
        refine ⟨?_, ?_, ?_⟩
        · rw [List.pairwise_append]
          refine ⟨hBeforeP, List.pairwise_singleton _ _, ?_⟩
          intro x hx b hb
          rw [List.mem_singleton.mp hb]
          obtain ⟨_, h2, _, h4, _⟩ := hBefore x hx
          exact ⟨h2, h4⟩
        · exact hAfterP
        · intro x hx y hy
          obtain ⟨hy1, _, hy3, _, _⟩ := hAfter y hy
          rcases List.mem_append.mp hx with hx | hx
          · obtain ⟨_, hx2, _, hx4, _⟩ := hBefore x hx
            have hmso : m.startInOld ≤ m.endInOld := by
              rw [Match.endInOld]; omega
            have hmsn : m.startInNew ≤ m.endInNew := by
              rw [Match.endInNew]; omega
            exact ⟨by omega, by omega⟩
          · rw [List.mem_singleton.mp hx]
            exact ⟨hy1, hy3⟩

/-- `removeOrphansAux` yields a subsequence of its input. -/
theorem removeOrphansAux_sublist (oldWords newWords : List String) (t : ℚ) :
    ∀ (rest : List Match) (prev curr : Match),
    List.Sublist (HtmlDiff.removeOrphansAux oldWords newWords t prev curr rest)
      (curr :: rest) := by
  intro rest
  induction rest with
  | nil =>
    intro prev curr
    rw [HtmlDiff.removeOrphansAux]
  | cons next rest ih =>
    intro prev curr
    rw [HtmlDiff.removeOrphansAux]
    split
    · exact List.Sublist.cons₂ curr (ih prev next)
    · show List.Sublist ((if _ then [curr] else []) ++ _) _
      split
      · exact List.Sublist.cons₂ curr (ih curr next)
      · exact List.Sublist.cons _ (ih curr next)

theorem removeOrphansAux_ne_nil (oldWords newWords : List String) (t : ℚ) :
    ∀ (rest : List Match) (prev curr : Match),
    HtmlDiff.removeOrphansAux oldWords newWords t prev curr rest ≠ [] := by
  intro rest
  induction rest with
  | nil => intro prev curr; rw [HtmlDiff.removeOrphansAux]; simp
  | cons next rest ih =>
    intro prev curr
    rw [HtmlDiff.removeOrphansAux]
    split
    · simp
    · exact List.append_ne_nil_of_right_ne_nil _ (ih curr next)

/-- `removeOrphansAux` keeps the last element of its input. -/
theorem removeOrphansAux_getLast (oldWords newWords : List String) (t : ℚ) :
    ∀ (rest : List Match) (prev curr : Match),
    (HtmlDiff.removeOrphansAux oldWords newWords t prev curr rest).getLast? =
      (curr :: rest).getLast? := by
  intro rest
  induction rest with
  | nil => intro prev curr; rw [HtmlDiff.removeOrphansAux]
  | cons next rest ih =>
    intro prev curr
    rw [HtmlDiff.removeOrphansAux]
    obtain ⟨x, hx⟩ : ∃ x, (next :: rest).getLast? = some x :=
      Option.isSome_iff_exists.mp ((List.getLast?_isSome).mpr (by simp))
    have hauxlast :
        (HtmlDiff.removeOrphansAux oldWords newWords t curr next rest).getLast?
          = some x := by rw [ih curr next, hx]
    split
    · simp [List.getLast?_cons, ih prev next, hx]
    · simp [List.getLast?_append, hauxlast, List.getLast?_cons, hx,
        Option.or]

/-- `removeOrphans` on a list ending in a sentinel yields a subsequence of
its input. -/
theorem removeOrphans_append_sublist (oldWords newWords : List String)
    (t : ℚ) (l : List Match) (s : Match) :
    List.Sublist (HtmlDiff.removeOrphans oldWords newWords t (l ++ [s]))
      (l ++ [s]) := by
  cases l with
  | nil =>
    rw [List.nil_append]
    exact removeOrphansAux_sublist oldWords newWords t [] ⟨0, 0, 0⟩ s
  | cons a l =>
    exact removeOrphansAux_sublist oldWords newWords t (l ++ [s]) ⟨0, 0, 0⟩ a

/-- `removeOrphans` always keeps the trailing sentinel as its last
element. -/
theorem removeOrphans_append_getLast (oldWords newWords : List String)
    (t : ℚ) (l : List Match) (s : Match) :
    (HtmlDiff.removeOrphans oldWords newWords t (l ++ [s])).getLast? =
      some s := by
  cases l with
  | nil =>
    rw [List.nil_append]
    rw [show HtmlDiff.removeOrphans oldWords newWords t [s] =
      HtmlDiff.removeOrphansAux oldWords newWords t ⟨0, 0, 0⟩ s [] from rfl]
    rw [removeOrphansAux_getLast oldWords newWords t [] ⟨0, 0, 0⟩ s]
    rfl
  | cons a l =>
    rw [show HtmlDiff.removeOrphans oldWords newWords t ((a :: l) ++ [s]) =
      HtmlDiff.removeOrphansAux oldWords newWords t ⟨0, 0, 0⟩ a (l ++ [s])
      from rfl]
    rw [removeOrphansAux_getLast oldWords newWords t (l ++ [s]) ⟨0, 0, 0⟩ a]
    rw [show a :: (l ++ [s]) = (a :: l) ++ [s] from rfl]
    exact List.getLast?_concat _

/-! Properties of the `Tiles` predicate. -/

theorem tiles_append :
    ∀ (rs : List (ℕ × ℕ)) (ss : List (ℕ × ℕ)) (a b c : ℕ),
    Tiles a rs b → Tiles b ss c → Tiles a (rs ++ ss) c := by
  intro rs
  induction rs with
  | nil =>
    intro ss a b c hab hbc
    have h : a = b := hab
    rw [List.nil_append, h]
    exact hbc
  | cons r rest ih =>
    intro ss a b c hab hbc
    obtain ⟨h1, h2, h3⟩ : a = r.1 ∧ r.1 ≤ r.2 ∧ Tiles r.2 rest b := hab
    exact ⟨h1, h2, ih ss r.2 b c h3 hbc⟩

theorem tiles_start_le :
    ∀ (rs : List (ℕ × ℕ)) (a b : ℕ), Tiles a rs b → ∀ r ∈ rs, a ≤ r.1 := by
  intro rs
  induction rs with
  | nil => intro a b _ r hr; simp at hr
  | cons s rest ih =>
    intro a b ht r hr
    obtain ⟨h1, h2, h3⟩ : a = s.1 ∧ s.1 ≤ s.2 ∧ Tiles s.2 rest b := ht
    rcases List.mem_cons.mp hr with rfl | hr
    · omega
    · have := ih s.2 b h3 r hr
      omega

/-- A tiling covers each point of `[a, b)` by exactly one range (located by
its index). -/
theorem tiles_cover_unique :
    ∀ (rs : List (ℕ × ℕ)) (a b k : ℕ), Tiles a rs b → a ≤ k → k < b →
    ∃! idx : ℕ, ∃ r, rs[idx]? = some r ∧ r.1 ≤ k ∧ k < r.2 := by
  intro rs
  induction rs with
  | nil =>
    intro a b k ht hk1 hk2
    have h : a = b := ht
    omega
  | cons r rest ih =>
    intro a b k ht hk1 hk2
    obtain ⟨h1, h2, h3⟩ : a = r.1 ∧ r.1 ≤ r.2 ∧ Tiles r.2 rest b := ht
    by_cases hk : k < r.2
    · refine ⟨0, ⟨r, by simp, by omega, hk⟩, ?_⟩
      intro y hy
      obtain ⟨s, hs, hs1, hs2⟩ := hy
      cases y with
      | zero => rfl
      | succ n =>
        exfalso
        rw [List.getElem?_cons_succ] at hs
        have hmem := List.getElem?_mem hs
        have := tiles_start_le rest r.2 b h3 s hmem
        omega
    · have hk2' : r.2 ≤ k := by omega
      obtain ⟨idx, hidx, huniq⟩ := ih r.2 b k h3 hk2' hk2
      refine ⟨idx + 1, ?_, ?_⟩
      · obtain ⟨s, hs, h4, h5⟩ := hidx
        exact ⟨s, by rw [List.getElem?_cons_succ]; exact hs, h4, h5⟩
      · intro y hy
        obtain ⟨s, hs, h4, h5⟩ := hy
        cases y with
        | zero =>
          rw [List.getElem?_cons_zero] at hs
          simp only [Option.some.injEq] at hs
          rw [← hs] at h5
          omega
        | succ n =>
          rw [List.getElem?_cons_succ] at hs
          have := huniq n ⟨s, hs, h4, h5⟩
          omega

/-- The operation synthesizer turns any ordered in-window match list into
ranges tiling both intervals from the start positions to the last match's
ends. -/
theorem operationsAux_tiles :
    ∀ (ms : List Match) (po pn : ℕ),
    (∀ m ∈ ms, po ≤ m.startInOld ∧ pn ≤ m.startInNew) →
    ms.Pairwise (fun a b => a.endInOld ≤ b.startInOld ∧
      a.endInNew ≤ b.startInNew) →
    Tiles po ((HtmlDiff.operationsAux po pn ms).map Operation.oldRange)
      ((ms.getLast?.map Match.endInOld).getD po) ∧
    Tiles pn ((HtmlDiff.operationsAux po pn ms).map Operation.newRange)
      ((ms.getLast?.map Match.endInNew).getD pn) := by
  intro ms
  induction ms with
  | nil =>
    intro po pn _ _
    constructor
    · show Tiles po [] po
      show po = po
      rfl
    · show Tiles pn [] pn
      show pn = pn
      rfl
  | cons m rest ih =>
    intro po pn hbound hpair
    obtain ⟨hpo, hpn⟩ := hbound m (List.mem_cons_self _ _)
    have hboundRest : ∀ x ∈ rest, m.endInOld ≤ x.startInOld ∧
        m.endInNew ≤ x.startInNew := (List.pairwise_cons.mp hpair).1
    have hpairRest := (List.pairwise_cons.mp hpair).2
    obtain ⟨ihOld, ihNew⟩ := ih m.endInOld m.endInNew hboundRest hpairRest
    have hso : m.startInOld ≤ m.endInOld := by rw [Match.endInOld]; omega
    have hsn : m.startInNew ≤ m.endInNew := by rw [Match.endInNew]; omega
    have hlastOld : (((m :: rest).getLast?.map Match.endInOld).getD po) =
        ((rest.getLast?.map Match.endInOld).getD m.endInOld) := by
      cases rest <;> simp [List.getLast?_cons]
    have hlastNew : (((m :: rest).getLast?.map Match.endInNew).getD pn) =
        ((rest.getLast?.map Match.endInNew).getD m.endInNew) := by
      cases rest <;> simp [List.getLast?_cons]
    rw [hlastOld, hlastNew, HtmlDiff.operationsAux]
    -- tile the gap segment, the equal segment, and recurse
    have heqTilesOld : Tiles m.startInOld
        ((if m.size ≠ 0 then
          [Operation.mk Action.equal m.startInOld m.endInOld m.startInNew
            m.endInNew] else []).map Operation.oldRange) m.endInOld := by
      by_cases hsz : m.size = 0
      · simp only [hsz, ne_eq, not_true_eq_false, ite_false, if_false,
          List.map_nil]
        show m.startInOld = m.endInOld
        simp [Match.endInOld, hsz]
      · simp only [hsz, ne_eq, not_false_eq_true, ite_true, if_true,
          List.map_cons, List.map_nil]
        exact ⟨rfl, hso, rfl⟩
    have heqTilesNew : Tiles m.startInNew
        ((if m.size ≠ 0 then
          [Operation.mk Action.equal m.startInOld m.endInOld m.startInNew
            m.endInNew] else []).map Operation.newRange) m.endInNew := by
      by_cases hsz : m.size = 0
      · simp only [hsz, ne_eq, not_true_eq_false, ite_false, if_false,
          List.map_nil]
        show m.startInNew = m.endInNew
        simp [Match.endInNew, hsz]
      · simp only [hsz, ne_eq, not_false_eq_true, ite_true, if_true,
          List.map_cons, List.map_nil]
        exact ⟨rfl, hsn, rfl⟩
    by_cases hA : po = m.startInOld <;> by_cases hB : pn = m.startInNew <;>
      simp only [hA, hB, eq_self_iff_true, not_true_eq_false,
        not_false_eq_true, true_and, and_true, false_and, and_false,
        and_self, reduceIte, List.map_append, List.map_cons, List.map_nil,
        List.nil_append, List.singleton_append] <;>
      constructor
    all_goals first
    | exact tiles_append _ _ _ _ _ heqTilesOld ihOld
    | exact tiles_append _ _ _ _ _ heqTilesNew ihNew
    | exact ⟨rfl, hpo, tiles_append _ _ _ _ _ heqTilesOld ihOld⟩
    | exact ⟨rfl, Nat.le_refl _, tiles_append _ _ _ _ _ heqTilesOld ihOld⟩
    | exact ⟨rfl, hpn, tiles_append _ _ _ _ _ heqTilesNew ihNew⟩
    | exact ⟨rfl, Nat.le_refl _, tiles_append _ _ _ _ _ heqTilesNew ihNew⟩

/-- C1: for every pair of tokenised inputs and every options value, the
edit script produced by `HtmlDiff.operations` is an ordered,
non-overlapping sequence whose old-side ranges `[startInOld, endInOld)`
exactly tile `[0, oldWords.length)` and whose new-side ranges
`[startInNew, endInNew)` exactly tile `[0, newWords.length)`: every old
token index and every new token index lies in exactly one operation. -/
theorem operations_partition (oldWords newWords : List String)
    (acc thr : ℚ) (mg : ℕ) :
    Tiles 0 ((HtmlDiff.operations oldWords newWords acc thr mg).map
      Operation.oldRange) oldWords.length ∧
    Tiles 0 ((HtmlDiff.operations oldWords newWords acc thr mg).map
      Operation.newRange) newWords.length ∧
    (∀ k, k < oldWords.length → ∃! idx : ℕ, ∃ r,
      ((HtmlDiff.operations oldWords newWords acc thr mg).map
        Operation.oldRange)[idx]? = some r ∧ r.1 ≤ k ∧ k < r.2) ∧
    (∀ k, k < newWords.length → ∃! idx : ℕ, ∃ r,
      ((HtmlDiff.operations oldWords newWords acc thr mg).map
        Operation.newRange)[idx]? = some r ∧ r.1 ≤ k ∧ k < r.2) := by
  obtain ⟨hbound, hchain⟩ := findMatchingBlocks_chain oldWords newWords acc
    mg (oldWords.length + newWords.length + 1) 0 oldWords.length 0
    newWords.length
  have hfullchain : (HtmlDiff.matchingBlocks oldWords newWords acc mg ++
      [(⟨oldWords.length, newWords.length, 0⟩ : Match)]).Pairwise
      (fun m1 m2 => m1.endInOld ≤ m2.startInOld ∧
        m1.endInNew ≤ m2.startInNew) := by
    rw [List.pairwise_append]
    refine ⟨hchain, by simp, ?_⟩
    intro a ha b hb
    simp only [List.mem_singleton] at hb
    subst hb
    obtain ⟨_, h2, _, h4, _⟩ := hbound a ha
    exact ⟨h2, h4⟩
  have hsub := removeOrphans_append_sublist oldWords newWords thr
    (HtmlDiff.matchingBlocks oldWords newWords acc mg)
    ⟨oldWords.length, newWords.length, 0⟩
  have hchainFiltered := List.Pairwise.sublist hsub hfullchain
  have hlast := removeOrphans_append_getLast oldWords newWords thr
    (HtmlDiff.matchingBlocks oldWords newWords acc mg)
    ⟨oldWords.length, newWords.length, 0⟩
  obtain ⟨hold, hnew⟩ := operationsAux_tiles
    (HtmlDiff.removeOrphans oldWords newWords thr
      (HtmlDiff.matchingBlocks oldWords newWords acc mg ++
        [⟨oldWords.length, newWords.length, 0⟩])) 0 0
    (fun m _ => ⟨Nat.zero_le _, Nat.zero_le _⟩) hchainFiltered
  rw [hlast] at hold hnew
  have hEndOld : ((Option.map Match.endInOld
      (some (⟨oldWords.length, newWords.length, 0⟩ : Match))).getD 0) =
      oldWords.length := by simp [Match.endInOld]
  have hEndNew : ((Option.map Match.endInNew
      (some (⟨oldWords.length, newWords.length, 0⟩ : Match))).getD 0) =
      newWords.length := by simp [Match.endInNew]
  rw [hEndOld] at hold
  rw [hEndNew] at hnew
  have hops : HtmlDiff.operations oldWords newWords acc thr mg =
      HtmlDiff.operationsAux 0 0 (HtmlDiff.removeOrphans oldWords newWords
        thr (HtmlDiff.matchingBlocks oldWords newWords acc mg ++
          [⟨oldWords.length, newWords.length, 0⟩])) := rfl
  rw [hops]
  exact ⟨hold, hnew,
    fun k hk => tiles_cover_unique _ 0 oldWords.length k hold
      (Nat.zero_le k) hk,
    fun k hk => tiles_cover_unique _ 0 newWords.length k hnew
      (Nat.zero_le k) hk⟩

/-! ## C4: the gap rule of block-aware diffing -/

/-- The gap loop of `detectBlockTypeChanges` is exactly the per-gap rule
`gapChange` filtered over the consecutive anchor pairs. -/
theorem detectGaps_eq_filterMap (a : BlockAnalyzer)
    (oldBlocks newBlocks : List Block) :
    ∀ l : List ((ℤ × ℤ) × ℤ × ℤ),
    HtmlDiff.detectGaps a oldBlocks newBlocks l =
      l.filterMap (gapChange a oldBlocks newBlocks) := by
  intro l
  induction l with
  | nil => rfl
  | cons pr rest ih =>
    rw [HtmlDiff.detectGaps, List.filterMap_cons, ih, gapChange]
    generalize HtmlDiff.sliceIntRange oldBlocks (pr.1.1 + 1) pr.2.1 = oR
    generalize HtmlDiff.sliceIntRange newBlocks (pr.1.2 + 1) pr.2.2 = nR
    cases oR with
    | nil => cases nR <;> rfl
    | cons o0 os =>
      cases nR with
      | nil => rfl
      | cons n0 ns =>
        by_cases htm : (o0 :: os).length = (n0 :: ns).length ∧
            ((o0 :: os).zip (n0 :: ns)).all
              (fun p => a.isSameBlockType p.1 p.2) = true
        · simp only [if_pos htm, List.nil_append]
        · simp only [if_neg htm, List.singleton_append]

/-- Every change range handed to `diffWithBlockTypeChangesGo` is rendered
as one `<del class="diffdel">` element wrapping the joined old span and one
`<ins class="diffins">` element wrapping the joined new span. -/
theorem diffWithBlockTypeChangesGo_renders
    (oldWords newWords : List String) :
    ∀ (changes : List HtmlDiff.ChangeRange) (oldPos newPos : ℕ)
      (c : HtmlDiff.ChangeRange), c ∈ changes →
    ("<del class=\"diffdel\">" ++
        String.join (HtmlDiff.sliceWords oldWords c.oldStart (c.oldEnd + 1))
        ++ "</del>") ∈
      HtmlDiff.diffWithBlockTypeChangesGo oldWords newWords oldPos newPos
        changes ∧
    ("<ins class=\"diffins\">" ++
        String.join (HtmlDiff.sliceWords newWords c.newStart (c.newEnd + 1))
        ++ "</ins>") ∈
      HtmlDiff.diffWithBlockTypeChangesGo oldWords newWords oldPos newPos
        changes := by
  intro changes
  induction changes with
  | nil => intro _ _ c hc; simp at hc
  | cons ch rest ih =>
    intro oldPos newPos c hc
    rw [HtmlDiff.diffWithBlockTypeChangesGo]
    rcases List.mem_cons.mp hc with rfl | hc
    · constructor <;> · simp
    · obtain ⟨h1, h2⟩ := ih (ch.oldEnd + 1) (ch.newEnd + 1) c hc
      exact ⟨List.mem_append_right _ h1, List.mem_append_right _ h2⟩

/-- Counterexample to C4: with block diffing enabled, on
`"<h2>A</h2>"` versus `"<h2>A</h2><p>B</p>"` the single anchor pairs the
two headings, so the trailing gap contains zero old-side blocks and one
new-side block — the counts differ, and the claim demands the gap's new
block span be rendered as one `<ins class="diffins">` element wrapping the
whole `<p>B</p>` span. The code instead skips any gap with an empty side:
`detectBlockTypeChanges` returns no change range at all, and the output is
word-level, with the `<p>` tags emitted bare outside the marker element. -/
theorem detect_gap_claim_counterexample :
    (HtmlDiff.matchBlocksByTypeSimilarity
        (BlockAnalyzer.mk' ⟨true, Option.none, Option.none⟩)
        ((BlockAnalyzer.mk' ⟨true, Option.none, Option.none⟩).findBlocks
          ((convertHtmlToListOfWords "<h2>A</h2>").map Prod.fst))
        ((BlockAnalyzer.mk' ⟨true, Option.none, Option.none⟩).findBlocks
          ((convertHtmlToListOfWords "<h2>A</h2><p>B</p>").map Prod.fst))
        ((convertHtmlToListOfWords "<h2>A</h2>").map Prod.fst)
        ((convertHtmlToListOfWords "<h2>A</h2><p>B</p>").map Prod.fst)
      = [(0, 0)]) ∧
    ((BlockAnalyzer.mk' ⟨true, Option.none, Option.none⟩).findBlocks
        ((convertHtmlToListOfWords "<h2>A</h2>").map Prod.fst)).length = 1 ∧
    ((BlockAnalyzer.mk' ⟨true, Option.none, Option.none⟩).findBlocks
        ((convertHtmlToListOfWords "<h2>A</h2><p>B</p>").map
          Prod.fst)).length = 2 ∧
    (HtmlDiff.detectBlockTypeChanges
        (BlockAnalyzer.mk' ⟨true, Option.none, Option.none⟩)
        ((BlockAnalyzer.mk' ⟨true, Option.none, Option.none⟩).findBlocks
          ((convertHtmlToListOfWords "<h2>A</h2>").map Prod.fst))
        ((BlockAnalyzer.mk' ⟨true, Option.none, Option.none⟩).findBlocks
          ((convertHtmlToListOfWords "<h2>A</h2><p>B</p>").map Prod.fst))
        ((convertHtmlToListOfWords "<h2>A</h2>").map Prod.fst)
        ((convertHtmlToListOfWords "<h2>A</h2><p>B</p>").map Prod.fst)
      = []) ∧
    diff "<h2>A</h2>" "<h2>A</h2><p>B</p>"
        ⟨some ⟨true, Option.none, Option.none⟩⟩ =
      "<h2>A</h2><p><ins class=\"diffins\">B</ins></p>" := by
  decide

/-- C4 (amended): a gap between consecutive anchors yields a change range
exactly under the `gapChange` rule — both sides nonempty and the
count-and-types comparison failing; a gap with an empty side is left to
word-level diffing even on a count mismatch — and every emitted change
range is rendered as one `<del class="diffdel">` element wrapping its
entire old block span and one `<ins class="diffins">` element wrapping its
entire new block span. -/
theorem gap_rule_amended (a : BlockAnalyzer)
    (oldBlocks newBlocks : List Block) (oldWords newWords : List String) :
    (∀ l : List ((ℤ × ℤ) × ℤ × ℤ),
      HtmlDiff.detectGaps a oldBlocks newBlocks l =
        l.filterMap (gapChange a oldBlocks newBlocks)) ∧
    (∀ (changes : List HtmlDiff.ChangeRange) (oldPos newPos : ℕ)
      (c : HtmlDiff.ChangeRange), c ∈ changes →
      ("<del class=\"diffdel\">" ++
          String.join (HtmlDiff.sliceWords oldWords c.oldStart
            (c.oldEnd + 1)) ++ "</del>") ∈
        HtmlDiff.diffWithBlockTypeChangesGo oldWords newWords oldPos newPos
          changes ∧
      ("<ins class=\"diffins\">" ++
          String.join (HtmlDiff.sliceWords newWords c.newStart
            (c.newEnd + 1)) ++ "</ins>") ∈
        HtmlDiff.diffWithBlockTypeChangesGo oldWords newWords oldPos newPos
          changes) :=
  ⟨detectGaps_eq_filterMap a oldBlocks newBlocks,
    diffWithBlockTypeChangesGo_renders oldWords newWords⟩

/-- The amended gap rule applied at a concrete input: on the
counterexample documents the anchor-pair list yields no change range
(`filterMap` form evaluated), and a concrete change range handed to the
renderer produces its del and ins elements. -/
theorem gap_rule_amended_witness :
    HtmlDiff.detectGaps (BlockAnalyzer.mk' ⟨true, Option.none, Option.none⟩)
      [⟨"h2", 0, 2, 0⟩] [⟨"h2", 0, 2, 0⟩, ⟨"p", 3, 5, 0⟩]
      [((-1, -1), (0, 0)), ((0, 0), (1, 2))] =
      [((-1, -1), (0, 0)), ((0, 0), (1, 2))].filterMap
        (gapChange (BlockAnalyzer.mk' ⟨true, Option.none, Option.none⟩)
          [⟨"h2", 0, 2, 0⟩] [⟨"h2", 0, 2, 0⟩, ⟨"p", 3, 5, 0⟩]) ∧
    ("<del class=\"diffdel\">" ++
        String.join (HtmlDiff.sliceWords ["<p>", "x", "</p>"] 0 (2 + 1)) ++
        "</del>") ∈
      HtmlDiff.diffWithBlockTypeChangesGo ["<p>", "x", "</p>"]
        ["<p>", "y", "</p>"] 0 0 [⟨0, 2, 0, 2⟩] ∧
    ("<ins class=\"diffins\">" ++
        String.join (HtmlDiff.sliceWords ["<p>", "y", "</p>"] 0 (2 + 1)) ++
        "</ins>") ∈
      HtmlDiff.diffWithBlockTypeChangesGo ["<p>", "x", "</p>"]
        ["<p>", "y", "</p>"] 0 0 [⟨0, 2, 0, 2⟩] :=
  ⟨(gap_rule_amended (BlockAnalyzer.mk' ⟨true, Option.none, Option.none⟩)
      [⟨"h2", 0, 2, 0⟩] [⟨"h2", 0, 2, 0⟩, ⟨"p", 3, 5, 0⟩]
      ["<p>", "x", "</p>"] ["<p>", "y", "</p>"]).1
    [((-1, -1), (0, 0)), ((0, 0), (1, 2))],
   (gap_rule_amended (BlockAnalyzer.mk' ⟨true, Option.none, Option.none⟩)
      [⟨"h2", 0, 2, 0⟩] [⟨"h2", 0, 2, 0⟩, ⟨"p", 3, 5, 0⟩]
      ["<p>", "x", "</p>"] ["<p>", "y", "</p>"]).2
    [⟨0, 2, 0, 2⟩] 0 0 ⟨0, 2, 0, 2⟩ (by decide)⟩

/-! ## C5: the DP table of the weighted-LCS block alignment -/

theorem buildRowRev_getElem (sr : ℕ → ℤ) (nr : List ℤ) (nc : ℕ) :
    ∀ (d k : ℕ), k ≤ d →
    (HtmlDiff.buildRowRev sr nr nc d)[k]? =
      (HtmlDiff.buildRowRev sr nr nc (d - k))[0]? := by
  intro d
  induction d with
  | zero =>
    intro k hk
    have h0 : k = 0 := Nat.le_zero.mp hk
    subst h0
    rfl
  | succ d ih =>
    intro k hk
    cases k with
    | zero => rfl
    | succ k' =>
      have h1 : (HtmlDiff.buildRowRev sr nr nc (d + 1))[k' + 1]? =
          (HtmlDiff.buildRowRev sr nr nc d)[k']? := by
        simp only [HtmlDiff.buildRowRev, List.getElem?_cons_succ]
      rw [h1, ih k' (by omega), Nat.succ_sub_succ]

theorem buildRowRev_head_zero (sr : ℕ → ℤ) (nr : List ℤ) (nc : ℕ) :
    (HtmlDiff.buildRowRev sr nr nc 0)[0]? = some 0 := rfl

theorem buildRowRev_head_succ (sr : ℕ → ℤ) (nr : List ℤ) (nc d : ℕ) :
    (HtmlDiff.buildRowRev sr nr nc (d + 1))[0]? =
      some (max (max ((nr[nc - (d + 1)]?).getD 0)
          (((HtmlDiff.buildRowRev sr nr nc d)[0]?).getD 0))
        (if sr (nc - (d + 1)) > 0 then
          (nr[nc - (d + 1) + 1]?).getD 0 + sr (nc - (d + 1)) else 0)) := by
  simp only [HtmlDiff.buildRowRev, List.getElem?_cons_zero]

theorem dpRowsFrom_headD (score : ℕ → ℕ → ℤ) (nc : ℕ) :
    ∀ (d i : ℕ), (HtmlDiff.dpRowsFrom score nc d i).headD [] =
      dpRowAux score nc d i := by
  intro d
  induction d with
  | zero => intro i; rfl
  | succ d ih =>
    intro i
    show HtmlDiff.buildRowRev (score i)
        ((HtmlDiff.dpRowsFrom score nc d (i + 1)).headD []) nc nc =
      dpRowAux score nc (d + 1) i
    rw [ih (i + 1)]
    rfl

theorem dpRowsFrom_getElem (score : ℕ → ℕ → ℤ) (nc : ℕ) :
    ∀ (d i k : ℕ), k ≤ d →
    (HtmlDiff.dpRowsFrom score nc d i)[k]? =
      some (dpRowAux score nc (d - k) (i + k)) := by
  intro d
  induction d with
  | zero =>
    intro i k hk
    have h0 : k = 0 := Nat.le_zero.mp hk
    subst h0
    rfl
  | succ d ih =>
    intro i k hk
    cases k with
    | zero =>
      have h1 : (HtmlDiff.dpRowsFrom score nc (d + 1) i)[0]? =
          some (HtmlDiff.buildRowRev (score i)
            ((HtmlDiff.dpRowsFrom score nc d (i + 1)).headD []) nc nc) := by
        simp only [HtmlDiff.dpRowsFrom, List.getElem?_cons_zero]
      rw [h1, dpRowsFrom_headD]
      rfl
    | succ k' =>
      have h1 : (HtmlDiff.dpRowsFrom score nc (d + 1) i)[k' + 1]? =
          (HtmlDiff.dpRowsFrom score nc d (i + 1))[k']? := by
        simp only [HtmlDiff.dpRowsFrom, List.getElem?_cons_succ]
      rw [h1, ih (i + 1) k' (by omega), Nat.succ_sub_succ,
        show i + 1 + k' = i + (k' + 1) from by omega]

theorem dpGet_eq_rowAux (score : ℕ → ℕ → ℤ) (oc nc : ℕ) (i j : ℕ)
    (hi : i ≤ oc) :
    HtmlDiff.dpGet (HtmlDiff.dpTable score oc nc) i j =
      ((dpRowAux score nc (oc - i) i)[j]?).getD 0 := by
  rw [HtmlDiff.dpGet, HtmlDiff.dpTable, dpRowsFrom_getElem score nc oc 0 i hi,
    Nat.zero_add]
  rfl

/-- The bottom row of the DP table is identically zero. -/
theorem dp_boundary_row (score : ℕ → ℕ → ℤ) (oc nc : ℕ) (j : ℕ) :
    HtmlDiff.dpGet (HtmlDiff.dpTable score oc nc) oc j = 0 := by
  rw [dpGet_eq_rowAux score oc nc oc j (Nat.le_refl oc), Nat.sub_self]
  show ((List.replicate (nc + 1) 0)[j]?).getD 0 = 0
  rcases Nat.lt_or_ge j (nc + 1) with h | h
  · simp [List.getElem?_replicate, h]
  · rw [List.getElem?_eq_none (by simpa using h)]
    rfl

theorem dp_boundary_col (score : ℕ → ℕ → ℤ) (oc nc : ℕ) (i : ℕ)
    (hi : i ≤ oc) :
    HtmlDiff.dpGet (HtmlDiff.dpTable score oc nc) i nc = 0 := by
  rw [dpGet_eq_rowAux score oc nc i nc hi]
  cases he : oc - i with
  | zero =>
    show ((List.replicate (nc + 1) 0)[nc]?).getD 0 = 0
    simp [List.getElem?_replicate]
  | succ e =>
    show ((HtmlDiff.buildRowRev (score i) (dpRowAux score nc e (i + 1))
        nc nc)[nc]?).getD 0 = 0
    rw [buildRowRev_getElem _ _ _ nc nc (Nat.le_refl nc), Nat.sub_self,
      buildRowRev_head_zero]
    rfl

theorem dp_recurrence (score : ℕ → ℕ → ℤ) (oc nc : ℕ) (i j : ℕ)
    (hi : i < oc) (hj : j < nc) :
    HtmlDiff.dpGet (HtmlDiff.dpTable score oc nc) i j =
      max (max (HtmlDiff.dpGet (HtmlDiff.dpTable score oc nc) (i + 1) j)
          (HtmlDiff.dpGet (HtmlDiff.dpTable score oc nc) i (j + 1)))
        (if score i j > 0 then
          HtmlDiff.dpGet (HtmlDiff.dpTable score oc nc) (i + 1) (j + 1) +
            score i j
        else 0) := by
  obtain ⟨e, he⟩ : ∃ e, oc - i = e + 1 := ⟨oc - i - 1, by omega⟩
  obtain ⟨f, hf⟩ : ∃ f, nc - j = f + 1 := ⟨nc - j - 1, by omega⟩
  have hrow : dpRowAux score nc (oc - i) i =
      HtmlDiff.buildRowRev (score i) (dpRowAux score nc e (i + 1)) nc nc := by
    rw [he]
    rfl
  have hnext : dpRowAux score nc e (i + 1) =
      dpRowAux score nc (oc - (i + 1)) (i + 1) := by
    rw [show oc - (i + 1) = e from by omega]
  have hmain := dpGet_eq_rowAux score oc nc i j (by omega)
  rw [hrow] at hmain
  rw [buildRowRev_getElem _ _ _ nc j (by omega), hf,
    buildRowRev_head_succ] at hmain
  have hj2 : nc - (f + 1) = j := by omega
  rw [hj2] at hmain
  have hA : (((dpRowAux score nc e (i + 1))[j]?).getD 0) =
      HtmlDiff.dpGet (HtmlDiff.dpTable score oc nc) (i + 1) j := by
    rw [dpGet_eq_rowAux score oc nc (i + 1) j (by omega), hnext]
  have hC : (((dpRowAux score nc e (i + 1))[j + 1]?).getD 0) =
      HtmlDiff.dpGet (HtmlDiff.dpTable score oc nc) (i + 1) (j + 1) := by
    rw [dpGet_eq_rowAux score oc nc (i + 1) (j + 1) (by omega), hnext]
  have hB : (((HtmlDiff.buildRowRev (score i) (dpRowAux score nc e (i + 1))
      nc f)[0]?).getD 0) =
      HtmlDiff.dpGet (HtmlDiff.dpTable score oc nc) i (j + 1) := by
    rw [dpGet_eq_rowAux score oc nc i (j + 1) (by omega), hrow,
      buildRowRev_getElem _ _ _ nc (j + 1) (by omega),
      show nc - (j + 1) = f from by omega]
  rw [hA, hB, hC] at hmain
  simp only [hmain, Option.getD_some]

/-- The pairwise block score never exceeds 100. -/
theorem scoreForMatch_le_hundred (a : BlockAnalyzer)
    (oldBlocks newBlocks : List Block) (oldLengths newLengths : List ℕ)
    (i j : ℕ) :
    HtmlDiff.scoreForMatch a oldBlocks newBlocks oldLengths newLengths i j ≤
      100 := by
  rw [HtmlDiff.scoreForMatch]
  split
  · split
    · omega
    · dsimp only
      split
      · omega
      · exact (fun q : ℕ => by omega :
          ∀ q : ℕ, (100 : ℤ) - (q : ℤ) ≤ 100) _
  · omega

/-- Upper bound on the DP table: from row `i` at most `oldCount - i` pairs
remain, each contributing at most 100. -/
theorem dp_upper (score : ℕ → ℕ → ℤ) (oc nc : ℕ)
    (hsle : ∀ i j, score i j ≤ 100) :
    ∀ (n i j : ℕ), i ≤ oc → j ≤ nc → oc - i + (nc - j) ≤ n →
    HtmlDiff.dpGet (HtmlDiff.dpTable score oc nc) i j ≤
      100 * ((oc - i : ℕ) : ℤ) := by
  intro n
  induction n with
  | zero =>
    intro i j hi hj hm
    have hio : i = oc := by omega
    subst hio
    rw [dp_boundary_row]
    simp
  | succ n ih =>
    intro i j hi hj hm
    by_cases hio : i = oc
    · subst hio
      rw [dp_boundary_row]
      simp
    · by_cases hjn : j = nc
      · rw [hjn, dp_boundary_col score oc nc i hi]
        positivity
      · have hi' : i < oc := lt_of_le_of_ne hi hio
        have hj' : j < nc := lt_of_le_of_ne hj hjn
        rw [dp_recurrence score oc nc i j hi' hj']
        have h1 := ih (i + 1) j (by omega) hj (by omega)
        have h2 := ih i (j + 1) hi (by omega) (by omega)
        have h3 := ih (i + 1) (j + 1) (by omega) (by omega) (by omega)
        have hs := hsle i j
        refine max_le (max_le ?_ ?_) ?_
        · omega
        · omega
        · split
          · omega
          · positivity

/-- Lower bound on the DP table when every remaining old block has a
perfect-score partner to the right of the current column. -/
theorem dp_lower (score : ℕ → ℕ → ℤ) (oc nc : ℕ) (σ : ℕ → ℕ)
    (hmono : ∀ k, k + 1 < oc → σ k < σ (k + 1))
    (hrange : ∀ k, k < oc → σ k < nc)
    (hperfect : ∀ k, k < oc → score k (σ k) = 100) :
    ∀ (n i j : ℕ), i ≤ oc → (i < oc → j ≤ σ i) → oc - i + (nc - j) ≤ n →
    100 * ((oc - i : ℕ) : ℤ) ≤
      HtmlDiff.dpGet (HtmlDiff.dpTable score oc nc) i j := by
  intro n
  induction n with
  | zero =>
    intro i j hi hσ hm
    have hio : i = oc := by
      rcases Nat.lt_or_ge i oc with h | h
      · have := hrange i h
        have := hσ h
        omega
      · omega
    subst hio
    rw [dp_boundary_row]
    simp
  | succ n ih =>
    intro i j hi hσ hm
    by_cases hio : i = oc
    · subst hio
      rw [dp_boundary_row]
      simp
    · have hi' : i < oc := lt_of_le_of_ne hi hio
      have hjσ : j ≤ σ i := hσ hi'
      have hσn : σ i < nc := hrange i hi'
      have hj' : j < nc := by omega
      rw [dp_recurrence score oc nc i j hi' hj']
      by_cases hje : j = σ i
      · have hsc : score i j = 100 := by rw [hje]; exact hperfect i hi'
        have h3 : 100 * ((oc - (i + 1) : ℕ) : ℤ) ≤
            HtmlDiff.dpGet (HtmlDiff.dpTable score oc nc) (i + 1) (j + 1) :=
          ih (i + 1) (j + 1) (by omega)
            (fun h => by have := hmono i h; omega) (by omega)
        refine le_trans ?_ (le_max_right _ _)
        rw [if_pos (by omega : score i j > 0), hsc]
        omega
      · have h2 : 100 * ((oc - i : ℕ) : ℤ) ≤
            HtmlDiff.dpGet (HtmlDiff.dpTable score oc nc) i (j + 1) :=
          ih i (j + 1) hi (fun _ => by omega) (by omega)
        exact le_trans h2 (le_trans (le_max_right _ _) (le_max_left _ _))

/-- With a perfect pairing available, the DP value at an admissible state
is exactly 100 per remaining old block. -/
theorem dp_exact (score : ℕ → ℕ → ℤ) (oc nc : ℕ) (σ : ℕ → ℕ)
    (hsle : ∀ i j, score i j ≤ 100)
    (hmono : ∀ k, k + 1 < oc → σ k < σ (k + 1))
    (hrange : ∀ k, k < oc → σ k < nc)
    (hperfect : ∀ k, k < oc → score k (σ k) = 100)
    (i j : ℕ) (hi : i ≤ oc) (hj : j ≤ nc) (hσ : i < oc → j ≤ σ i) :
    HtmlDiff.dpGet (HtmlDiff.dpTable score oc nc) i j =
      100 * ((oc - i : ℕ) : ℤ) :=
  le_antisymm
    (dp_upper score oc nc hsle (oc + nc) i j hi hj (by omega))
    (dp_lower score oc nc σ hmono hrange hperfect (oc + nc) i j hi hσ
      (by omega))

/-- The greedy backtracking walk visits every old index when every old
block has a perfect-score partner, in increasing order: the first
components of its output are exactly `i, i+1, …, oldCount-1`. -/
theorem backtrackGo_covers (score : ℕ → ℕ → ℤ) (oc nc : ℕ) (σ : ℕ → ℕ)
    (hsle : ∀ i j, score i j ≤ 100)
    (hmono : ∀ k, k + 1 < oc → σ k < σ (k + 1))
    (hrange : ∀ k, k < oc → σ k < nc)
    (hperfect : ∀ k, k < oc → score k (σ k) = 100) :
    ∀ (fuel i j : ℕ), i ≤ oc → j ≤ nc → (i < oc → j ≤ σ i) →
      oc - i + (nc - j) ≤ fuel →
    (HtmlDiff.backtrackGo score
        (HtmlDiff.dpGet (HtmlDiff.dpTable score oc nc)) oc nc fuel i
        j).map Prod.fst = List.range' i (oc - i) := by
  intro fuel
  induction fuel with
  | zero =>
    intro i j hi hj hσ hm
    rw [HtmlDiff.backtrackGo]
    have hio : i = oc := by
      rcases Nat.lt_or_ge i oc with h | h
      · have := hrange i h
        have := hσ h
        omega
      · omega
    simp [show oc - i = 0 from by omega]
  | succ fuel ih =>
    intro i j hi hj hσ hm
    rw [HtmlDiff.backtrackGo]
    by_cases hio : i < oc
    · have hjσ : j ≤ σ i := hσ hio
      have hσn : σ i < nc := hrange i hio
      have hjn : j < nc := by omega
      rw [if_pos (⟨hio, hjn⟩ : i < oc ∧ j < nc)]
      show (if score i j > 0 ∧
          HtmlDiff.dpGet (HtmlDiff.dpTable score oc nc) i j =
            HtmlDiff.dpGet (HtmlDiff.dpTable score oc nc) (i + 1) (j + 1) +
              score i j then
          (i, j) :: HtmlDiff.backtrackGo score
            (HtmlDiff.dpGet (HtmlDiff.dpTable score oc nc)) oc nc fuel
            (i + 1) (j + 1)
        else if HtmlDiff.dpGet (HtmlDiff.dpTable score oc nc) (i + 1) j ≥
            HtmlDiff.dpGet (HtmlDiff.dpTable score oc nc) i (j + 1) then
          HtmlDiff.backtrackGo score
            (HtmlDiff.dpGet (HtmlDiff.dpTable score oc nc)) oc nc fuel
            (i + 1) j
        else
          HtmlDiff.backtrackGo score
            (HtmlDiff.dpGet (HtmlDiff.dpTable score oc nc)) oc nc fuel i
            (j + 1)).map Prod.fst = List.range' i (oc - i)
      by_cases htake : score i j > 0 ∧
          HtmlDiff.dpGet (HtmlDiff.dpTable score oc nc) i j =
            HtmlDiff.dpGet (HtmlDiff.dpTable score oc nc) (i + 1) (j + 1) +
              score i j
      · rw [if_pos htake, List.map_cons,
          ih (i + 1) (j + 1) (by omega) (by omega)
            (fun h => by have := hmono i h; omega) (by omega),
          show oc - i = oc - (i + 1) + 1 from by omega, List.range'_succ]
      · rw [if_neg htake]
        have hjlt : j < σ i := by
          rcases Nat.lt_or_ge j (σ i) with h | h
          · exact h
          · exfalso
            have hje : j = σ i := by omega
            apply htake
            have hsc : score i j = 100 := by rw [hje]; exact hperfect i hio
            refine ⟨by omega, ?_⟩
            rw [dp_exact score oc nc σ hsle hmono hrange hperfect i j hi
                (by omega) hσ,
              dp_exact score oc nc σ hsle hmono hrange hperfect (i + 1)
                (j + 1) (by omega) (by omega)
                (fun h => by have := hmono i h; omega),
              hsc]
            omega
        have hB : HtmlDiff.dpGet (HtmlDiff.dpTable score oc nc) i (j + 1) =
            100 * ((oc - i : ℕ) : ℤ) :=
          dp_exact score oc nc σ hsle hmono hrange hperfect i (j + 1) hi
            (by omega) (fun _ => by omega)
        have hA : HtmlDiff.dpGet (HtmlDiff.dpTable score oc nc) (i + 1) j ≤
            100 * ((oc - (i + 1) : ℕ) : ℤ) :=
          dp_upper score oc nc hsle (oc + nc) (i + 1) j (by omega) (by omega)
            (by omega)
        rw [if_neg (by rw [hB] at *; omega :
          ¬ HtmlDiff.dpGet (HtmlDiff.dpTable score oc nc) (i + 1) j ≥
            HtmlDiff.dpGet (HtmlDiff.dpTable score oc nc) i (j + 1))]
        exact ih i (j + 1) hi (by omega) (fun _ => by omega) (by omega)
    · rw [if_neg (by omega : ¬ (i < oc ∧ j < nc))]
      simp [show oc - i = 0 from by omega]

/-- Under a perfect pairing, `matchBlocksByTypeSimilarity` anchors every
old block: the old components of its result are `0, 1, …, oldCount-1`. -/
theorem matchBlocks_covers (a : BlockAnalyzer)
    (oldBlocks newBlocks : List Block) (oldWords newWords : List String)
    (σ : ℕ → ℕ)
    (hmono : ∀ k, k + 1 < oldBlocks.length → σ k < σ (k + 1))
    (hrange : ∀ k, k < oldBlocks.length → σ k < newBlocks.length)
    (hperfect : ∀ k, k < oldBlocks.length →
      HtmlDiff.scoreForMatch a oldBlocks newBlocks
        (oldBlocks.map (fun b =>
          (String.join (BlockAnalyzer.getBlockInnerWords oldWords b)).length))
        (newBlocks.map (fun b =>
          (String.join (BlockAnalyzer.getBlockInnerWords newWords b)).length))
        k (σ k) = 100) :
    (HtmlDiff.matchBlocksByTypeSimilarity a oldBlocks newBlocks oldWords
      newWords).map Prod.fst = List.range' 0 oldBlocks.length := by
  have h := backtrackGo_covers
    (HtmlDiff.scoreForMatch a oldBlocks newBlocks
      (oldBlocks.map (fun b =>
        (String.join (BlockAnalyzer.getBlockInnerWords oldWords b)).length))
      (newBlocks.map (fun b =>
        (String.join (BlockAnalyzer.getBlockInnerWords newWords b)).length)))
    oldBlocks.length newBlocks.length σ
    (fun i j => scoreForMatch_le_hundred a oldBlocks newBlocks _ _ i j)
    hmono hrange hperfect
    (oldBlocks.length + newBlocks.length + 1) 0 0 (Nat.zero_le _)
    (Nat.zero_le _) (fun _ => Nat.zero_le _) (by omega)
  exact h

/-- Consecutive pairs of a chained list satisfy the chain relation. -/
theorem chain'_rel_zip_tail {α : Type} {R : α → α → Prop} :
    ∀ (l : List α), List.Chain' R l → ∀ p ∈ l.zip l.tail, R p.1 p.2 := by
  intro l
  induction l with
  | nil => intro _ p hp; simp at hp
  | cons a l ih =>
    intro hch p hp
    cases l with
    | nil => simp at hp
    | cons b t =>
      rw [List.chain'_cons] at hch
      simp only [List.tail_cons, List.zip_cons_cons] at hp
      rcases List.mem_cons.mp hp with rfl | hp'
      · exact hch.1
      · exact ih hch.2 p hp'

/-- An anchor list whose old components are `s, s+1, …, s+k-1` yields,
after sentinels at old positions `s-1` and `s+k`, a chain of old
components that ascend by exactly one. -/
theorem chain_fst_of_range :
    ∀ (ms : List (ℕ × ℕ)) (s k : ℕ) (w z : ℤ),
    ms.map Prod.fst = List.range' s k →
    List.Chain' (fun c n : ℤ × ℤ => n.1 = c.1 + 1)
      ((((s : ℤ) - 1, w) :: ms.map (fun p => ((p.1 : ℤ), (p.2 : ℤ)))) ++
        [(((s + k : ℕ) : ℤ), z)]) := by
  intro ms
  induction ms with
  | nil =>
    intro s k w z h
    have hk : k = 0 := by simpa using h.symm
    subst hk
    simp only [List.map_nil, List.nil_append, List.cons_append]
    refine List.chain'_cons.mpr ⟨?_, List.chain'_singleton _⟩
    push_cast
    ring
  | cons p ms ih =>
    intro s k w z h
    cases k with
    | zero => simp at h
    | succ k' =>
      rw [List.range'_succ] at h
      simp only [List.map_cons, List.cons.injEq] at h
      obtain ⟨hp1, hrest⟩ := h
      have htail := ih (s + 1) k' (↑p.2) z hrest
      have hs : (((s + 1 : ℕ) : ℤ)) - 1 = ((s : ℕ) : ℤ) := by
        push_cast
        ring
      have hk : s + 1 + k' = s + (k' + 1) := by omega
      rw [hs, hk] at htail
      simp only [List.map_cons, List.cons_append]
      refine List.chain'_cons.mpr ⟨?_, ?_⟩
      · show ((p.1 : ℕ) : ℤ) = ((s : ℤ) - 1) + 1
        rw [hp1]
        ring
      · rw [hp1]
        exact htail

/-- A gap between anchors whose old components differ by exactly one spans
no old block, so it is skipped. -/
theorem gapChange_none_of_consecutive (a : BlockAnalyzer)
    (oldBlocks newBlocks : List Block) (pr : (ℤ × ℤ) × ℤ × ℤ)
    (h : pr.2.1 = pr.1.1 + 1) :
    gapChange a oldBlocks newBlocks pr = Option.none := by
  have hor : HtmlDiff.sliceIntRange oldBlocks (pr.1.1 + 1) pr.2.1 = [] := by
    rw [h, HtmlDiff.sliceIntRange, Nat.sub_self, List.take_zero]
  cases hnr : HtmlDiff.sliceIntRange newBlocks (pr.1.2 + 1) pr.2.2 with
  | nil => simp [gapChange, hor, hnr]
  | cons n0 ns => simp [gapChange, hor, hnr]

/-- Under a perfect pairing of every old block, block-type-change
detection reports nothing. -/
theorem detect_nil_of_perfect_pairing (a : BlockAnalyzer)
    (oldBlocks newBlocks : List Block) (oldWords newWords : List String)
    (σ : ℕ → ℕ)
    (hmono : ∀ k, k + 1 < oldBlocks.length → σ k < σ (k + 1))
    (hrange : ∀ k, k < oldBlocks.length → σ k < newBlocks.length)
    (hperfect : ∀ k, k < oldBlocks.length →
      HtmlDiff.scoreForMatch a oldBlocks newBlocks
        (oldBlocks.map (fun b =>
          (String.join (BlockAnalyzer.getBlockInnerWords oldWords b)).length))
        (newBlocks.map (fun b =>
          (String.join (BlockAnalyzer.getBlockInnerWords newWords b)).length))
        k (σ k) = 100) :
    HtmlDiff.detectBlockTypeChanges a oldBlocks newBlocks oldWords
      newWords = [] := by
  have hms := matchBlocks_covers a oldBlocks newBlocks oldWords newWords σ
    hmono hrange hperfect
  have hch : List.Chain' (fun c n : ℤ × ℤ => n.1 = c.1 + 1)
      (HtmlDiff.anchoredMatches a oldBlocks newBlocks oldWords newWords) := by
    have h := chain_fst_of_range
      (HtmlDiff.matchBlocksByTypeSimilarity a oldBlocks newBlocks oldWords
        newWords) 0 oldBlocks.length (-1) (newBlocks.length : ℤ) hms
    have h1 : ((0 : ℕ) : ℤ) - 1 = (-1 : ℤ) := by norm_num
    have h2 : 0 + oldBlocks.length = oldBlocks.length := Nat.zero_add _
    rw [h1, h2] at h
    exact h
  show HtmlDiff.detectGaps a oldBlocks newBlocks
    ((HtmlDiff.anchoredMatches a oldBlocks newBlocks oldWords newWords).zip
      (HtmlDiff.anchoredMatches a oldBlocks newBlocks oldWords
        newWords).tail) = []
  rw [detectGaps_eq_filterMap, List.filterMap_eq_nil_iff]
  intro pr hpr
  exact gapChange_none_of_consecutive a oldBlocks newBlocks pr
    (chain'_rel_zip_tail _ hch pr hpr)

/-- Counterexample to C5: the new document equals the old one except for
the block `<h2>b</h2>` inserted between two unchanged `<p>a</p>` blocks
(token-level: the new token list is the old list with three tokens spliced
in after index 3). The word-level matcher attributes the repeated content
to its earliest old occurrence, so the rendered output wraps the content
of the last (unchanged) paragraph in `<del class="diffdel">` and marks the
first (unchanged) paragraph's content as inserted. -/
theorem insertion_between_unchanged_counterexample :
    ((convertHtmlToListOfWords "<p>a</p><h2>b</h2><p>a</p><p>a</p>").map
        Prod.fst =
      ((convertHtmlToListOfWords "<p>a</p><p>a</p><p>a</p>").map
          Prod.fst).take 3 ++
        ["<h2>", "b", "</h2>"] ++
        ((convertHtmlToListOfWords "<p>a</p><p>a</p><p>a</p>").map
          Prod.fst).drop 3) ∧
    diff "<p>a</p><p>a</p><p>a</p>" "<p>a</p><h2>b</h2><p>a</p><p>a</p>"
        ⟨some ⟨true, Option.none, Option.none⟩⟩ =
      "<p><ins class=\"diffins\">a</ins></p><h2><ins class=\"diffins\">b</ins></h2><p>a</p><p>a</p><p><del class=\"diffdel\">a</del></p>" ∧
    hasSubstring
      (diff "<p>a</p><p>a</p><p>a</p>" "<p>a</p><h2>b</h2><p>a</p><p>a</p>"
        ⟨some ⟨true, Option.none, Option.none⟩⟩)
      "<del class=\"diffdel\">" = true := by
  decide

/-- C5 (amended): when every old block has a perfect-score partner among
the new blocks in order (in particular when new blocks are inserted
between otherwise unchanged blocks), the block-alignment stage reports no
block-type change, and the diff is rendered entirely by ordinary
word-level diffing — no block-level `<del>`/`<ins>` span is emitted. The
word-level stage, however, may still attribute repeated content to the
wrong occurrence, so the original claim's guarantee that unchanged blocks
are never marked does not hold in general (see the counterexample). -/
theorem insertion_between_unchanged_amended (a : BlockAnalyzer)
    (oldBlocks newBlocks : List Block) (oldWords newWords : List String)
    (σ : ℕ → ℕ)
    (hmono : ∀ k, k + 1 < oldBlocks.length → σ k < σ (k + 1))
    (hrange : ∀ k, k < oldBlocks.length → σ k < newBlocks.length)
    (hperfect : ∀ k, k < oldBlocks.length →
      HtmlDiff.scoreForMatch a oldBlocks newBlocks
        (oldBlocks.map (fun b =>
          (String.join (BlockAnalyzer.getBlockInnerWords oldWords b)).length))
        (newBlocks.map (fun b =>
          (String.join (BlockAnalyzer.getBlockInnerWords newWords b)).length))
        k (σ k) = 100) :
    HtmlDiff.detectBlockTypeChanges a oldBlocks newBlocks oldWords
      newWords = [] ∧
    (∀ (opts : Option HtmlDiffOptions)
      (oldPairs newPairs : List (String × Option String)),
      (htmlDiffInit opts).blockAnalyzer = some a →
      oldPairs.map Prod.fst = oldWords →
      newPairs.map Prod.fst = newWords →
      oldBlocks = a.findBlocks oldWords →
      newBlocks = a.findBlocks newWords →
      HtmlDiff.diffCore opts oldPairs newPairs =
        HtmlDiff.ordinaryDiffRender (some a) oldBlocks newBlocks oldPairs
          newPairs) := by
  have hdetect := detect_nil_of_perfect_pairing a oldBlocks newBlocks
    oldWords newWords σ hmono hrange hperfect
  refine ⟨hdetect, ?_⟩
  intro opts oldPairs newPairs hopt hOld hNew hOB hNB
  rw [HtmlDiff.diffCore]
  simp only [hopt, hOld, hNew, ← hOB, ← hNB, hdetect, List.length_nil,
    gt_iff_lt, Nat.lt_irrefl, if_false]

/-- The amended statement applied to the counterexample documents: every
old `<p>a</p>` block pairs perfectly (blocks 0, 1, 2 with new blocks
0, 2, 3), detection reports nothing, and the whole diff is one ordinary
word-level rendering. -/
theorem insertion_between_unchanged_amended_witness :
    HtmlDiff.detectBlockTypeChanges
      (BlockAnalyzer.mk' ⟨true, Option.none, Option.none⟩)
      ((BlockAnalyzer.mk' ⟨true, Option.none, Option.none⟩).findBlocks
        ((convertHtmlToListOfWords "<p>a</p><p>a</p><p>a</p>").map Prod.fst))
      ((BlockAnalyzer.mk' ⟨true, Option.none, Option.none⟩).findBlocks
        ((convertHtmlToListOfWords "<p>a</p><h2>b</h2><p>a</p><p>a</p>").map
          Prod.fst))
      ((convertHtmlToListOfWords "<p>a</p><p>a</p><p>a</p>").map Prod.fst)
      ((convertHtmlToListOfWords "<p>a</p><h2>b</h2><p>a</p><p>a</p>").map
        Prod.fst) = [] ∧
    HtmlDiff.diffCore (some ⟨some ⟨true, Option.none, Option.none⟩⟩)
      (convertHtmlToListOfWords "<p>a</p><p>a</p><p>a</p>")
      (convertHtmlToListOfWords "<p>a</p><h2>b</h2><p>a</p><p>a</p>") =
    HtmlDiff.ordinaryDiffRender
      (some (BlockAnalyzer.mk' ⟨true, Option.none, Option.none⟩))
      ((BlockAnalyzer.mk' ⟨true, Option.none, Option.none⟩).findBlocks
        ((convertHtmlToListOfWords "<p>a</p><p>a</p><p>a</p>").map Prod.fst))
      ((BlockAnalyzer.mk' ⟨true, Option.none, Option.none⟩).findBlocks
        ((convertHtmlToListOfWords "<p>a</p><h2>b</h2><p>a</p><p>a</p>").map
          Prod.fst))
      (convertHtmlToListOfWords "<p>a</p><p>a</p><p>a</p>")
      (convertHtmlToListOfWords "<p>a</p><h2>b</h2><p>a</p><p>a</p>") := by
  have h := insertion_between_unchanged_amended
    (BlockAnalyzer.mk' ⟨true, Option.none, Option.none⟩)
    ((BlockAnalyzer.mk' ⟨true, Option.none, Option.none⟩).findBlocks
      ((convertHtmlToListOfWords "<p>a</p><p>a</p><p>a</p>").map Prod.fst))
    ((BlockAnalyzer.mk' ⟨true, Option.none, Option.none⟩).findBlocks
      ((convertHtmlToListOfWords "<p>a</p><h2>b</h2><p>a</p><p>a</p>").map
        Prod.fst))
    ((convertHtmlToListOfWords "<p>a</p><p>a</p><p>a</p>").map Prod.fst)
    ((convertHtmlToListOfWords "<p>a</p><h2>b</h2><p>a</p><p>a</p>").map
      Prod.fst)
    (fun k => if k = 0 then 0 else k + 1)
    (fun k _ => by
      by_cases h0 : k = 0
      · subst h0; decide
      · simp only [if_neg h0, if_neg (Nat.succ_ne_zero k)]
        omega)
    (fun k hk => Nat.lt_of_lt_of_le
      ((by decide : ∀ k, k < 3 → (if k = 0 then 0 else k + 1) < 4) k
        (Nat.lt_of_lt_of_le hk (by decide)))
      (by decide))
    (fun k hk =>
      (by decide : ∀ k, k < 3 →
        HtmlDiff.scoreForMatch
          (BlockAnalyzer.mk' ⟨true, Option.none, Option.none⟩)
          ((BlockAnalyzer.mk' ⟨true, Option.none, Option.none⟩).findBlocks
            ((convertHtmlToListOfWords "<p>a</p><p>a</p><p>a</p>").map
              Prod.fst))
          ((BlockAnalyzer.mk' ⟨true, Option.none, Option.none⟩).findBlocks
            ((convertHtmlToListOfWords
              "<p>a</p><h2>b</h2><p>a</p><p>a</p>").map Prod.fst))
          (((BlockAnalyzer.mk' ⟨true, Option.none, Option.none⟩).findBlocks
            ((convertHtmlToListOfWords "<p>a</p><p>a</p><p>a</p>").map
              Prod.fst)).map (fun b =>
            (String.join (BlockAnalyzer.getBlockInnerWords
              ((convertHtmlToListOfWords "<p>a</p><p>a</p><p>a</p>").map
                Prod.fst) b)).length))
          (((BlockAnalyzer.mk' ⟨true, Option.none, Option.none⟩).findBlocks
            ((convertHtmlToListOfWords
              "<p>a</p><h2>b</h2><p>a</p><p>a</p>").map Prod.fst)).map
            (fun b =>
              (String.join (BlockAnalyzer.getBlockInnerWords
                ((convertHtmlToListOfWords
                  "<p>a</p><h2>b</h2><p>a</p><p>a</p>").map Prod.fst)
                b)).length))
          k (if k = 0 then 0 else k + 1) = 100) k
        (Nat.lt_of_lt_of_le hk (by decide)))
  exact ⟨h.1, h.2 (some ⟨some ⟨true, Option.none, Option.none⟩⟩)
    (convertHtmlToListOfWords "<p>a</p><p>a</p><p>a</p>")
    (convertHtmlToListOfWords "<p>a</p><h2>b</h2><p>a</p><p>a</p>")
    rfl rfl rfl rfl rfl⟩

/-! ## C9: monotone anchors, ordered change ranges, segment partition -/

/-- Every pair emitted by the backtracking walk lies in the rectangle
`[i, oldCount) × [j, newCount)`. This holds for every score and DP
function. -/
theorem backtrackGo_mem (score : ℕ → ℕ → ℤ) (dp : ℕ → ℕ → ℤ)
    (oc nc : ℕ) :
    ∀ (fuel i j : ℕ) (p : ℕ × ℕ),
    p ∈ HtmlDiff.backtrackGo score dp oc nc fuel i j →
    i ≤ p.1 ∧ p.1 < oc ∧ j ≤ p.2 ∧ p.2 < nc := by
  intro fuel
  induction fuel with
  | zero =>
    intro i j p hp
    rw [HtmlDiff.backtrackGo] at hp
    simp at hp
  | succ fuel ih =>
    intro i j p hp
    rw [HtmlDiff.backtrackGo] at hp
    by_cases hguard : i < oc ∧ j < nc
    · rw [if_pos hguard] at hp
      by_cases htake : score i j > 0 ∧ dp i j = dp (i + 1) (j + 1) + score i j
      · rw [if_pos htake] at hp
        rcases List.mem_cons.mp hp with rfl | hp'
        · exact ⟨Nat.le_refl _, hguard.1, Nat.le_refl _, hguard.2⟩
        · have := ih (i + 1) (j + 1) p hp'
          omega
      · rw [if_neg htake] at hp
        by_cases hmid : dp (i + 1) j ≥ dp i (j + 1)
        · rw [if_pos hmid] at hp
          have := ih (i + 1) j p hp
          omega
        · rw [if_neg hmid] at hp
          have := ih i (j + 1) p hp
          omega
    · rw [if_neg hguard] at hp
      simp at hp

/-- The anchors returned by the backtracking walk are strictly increasing
in both components, for every score and DP function. -/
theorem backtrackGo_pairwise (score : ℕ → ℕ → ℤ) (dp : ℕ → ℕ → ℤ)
    (oc nc : ℕ) :
    ∀ (fuel i j : ℕ),
    (HtmlDiff.backtrackGo score dp oc nc fuel i j).Pairwise
      (fun p q => p.1 < q.1 ∧ p.2 < q.2) := by
  intro fuel
  induction fuel with
  | zero =>
    intro i j
    rw [HtmlDiff.backtrackGo]
    exact List.Pairwise.nil
  | succ fuel ih =>
    intro i j
    rw [HtmlDiff.backtrackGo]
    by_cases hguard : i < oc ∧ j < nc
    · rw [if_pos hguard]
      by_cases htake : score i j > 0 ∧ dp i j = dp (i + 1) (j + 1) + score i j
      · rw [if_pos htake]
        refine List.pairwise_cons.mpr ⟨?_, ih (i + 1) (j + 1)⟩
        intro q hq
        have := backtrackGo_mem score dp oc nc fuel (i + 1) (j + 1) q hq
        exact ⟨by omega, by omega⟩
      · rw [if_neg htake]
        by_cases hmid : dp (i + 1) j ≥ dp i (j + 1)
        · rw [if_pos hmid]
          exact ih (i + 1) j
        · rw [if_neg hmid]
          exact ih i (j + 1)
    · rw [if_neg hguard]
      exact List.Pairwise.nil

/-- `popNearest` removes exactly one occurrence: the scanned stack splits
as `l1 ++ e :: l2` with the matching entry `e` removed. -/
theorem popNearest_spec (tag : String) :
    ∀ (stack : List StackEntry) (e : StackEntry) (rest : List StackEntry),
    popNearest tag stack = some (e, rest) →
    ∃ l1 l2, stack = l1 ++ e :: l2 ∧ rest = l1 ++ l2 := by
  intro stack
  induction stack with
  | nil => intro e rest h; simp [popNearest] at h
  | cons x xs ih =>
    intro e rest h
    rw [popNearest] at h
    by_cases hx : x.tagName = tag
    · rw [if_pos hx, Option.some.injEq, Prod.mk.injEq] at h
      obtain ⟨he, hr⟩ := h
      exact ⟨[], xs, by rw [List.nil_append, he], by rw [List.nil_append, hr]⟩
    · rw [if_neg hx] at h
      cases hrec : popNearest tag xs with
      | none => rw [hrec] at h; exact absurd h (by simp)
      | some pr =>
        obtain ⟨f, rest2⟩ := pr
        rw [hrec, Option.some.injEq, Prod.mk.injEq] at h
        obtain ⟨he, hr⟩ := h
        obtain ⟨l1, l2, hs, hr2⟩ := ih f rest2 hrec
        subst he
        refine ⟨x :: l1, l2, ?_, ?_⟩
        · rw [List.cons_append, ← hs]
        · rw [List.cons_append, ← hr2, ← hr]

/-- One step of the `findBlocks` scan preserves the loop invariant. -/
theorem findBlocksStep_inv (a : BlockAnalyzer) (i : ℕ) (w : String)
    (s : FindBlocksState) (h : FBInv i s) :
    FBInv (i + 1) (findBlocksStep a s i w) := by
  obtain ⟨h0, h1, h2, h3, h4, h5, h6, h7⟩ := h
  have hkeep : FBInv (i + 1) s :=
    ⟨h0, fun e he => Nat.lt_succ_of_lt (h1 e he), h2, h3, h4,
      fun b hb => Nat.lt_succ_of_lt (h5 b hb), h6, h7⟩
  rw [findBlocksStep]
  split
  · exact hkeep
  · split
    · exact hkeep
    · split
      · exact hkeep
      · split
        · -- opening tag: push a new entry recorded at the current depth
          refine ⟨?_, ?_, ?_, ?_, ?_, ?_, ?_, ?_⟩
          · simp [h0]
          · intro e he
            rcases List.mem_cons.mp he with rfl | he'
            · exact Nat.lt_succ_self i
            · exact Nat.lt_succ_of_lt (h1 e he')
          · refine List.pairwise_cons.mpr ⟨?_, h2⟩
            intro f hf
            have := h1 f hf
            show i ≠ f.startIndex
            omega
          · intro e he hed f hf hfd
            rcases List.mem_cons.mp he with rfl | he' <;>
              rcases List.mem_cons.mp hf with rfl | hf'
            · rfl
            · exfalso
              have hne : s.stack.length ≠ 0 :=
                (List.length_pos_of_mem hf').ne'
              exact hne (by rw [← h0]; exact hed)
            · exfalso
              have hne : s.stack.length ≠ 0 :=
                (List.length_pos_of_mem he').ne'
              exact hne (by rw [← h0]; exact hfd)
            · exact h3 e he' hed f hf' hfd
          · intro e he hed b hb
            rcases List.mem_cons.mp he with rfl | he'
            · exact h5 b hb
            · exact h4 e he' hed b hb
          · exact fun b hb => Nat.lt_succ_of_lt (h5 b hb)
          · exact h6
          · exact h7
        · split
          · split
            all_goals try exact hkeep
            rename_i opening rest heq
            obtain ⟨l1, l2, hs, hr⟩ := popNearest_spec _ _ _ _ heq
            have hsub : List.Sublist rest s.stack := by
              rw [hs, hr]
              exact (List.sublist_cons_self opening l2).append_left l1
            have hmemrest : ∀ e ∈ rest, e ∈ s.stack :=
              fun e he => hsub.subset he
            have hopen : opening ∈ s.stack := by
              rw [hs]
              exact List.mem_append_right l1 (List.mem_cons_self _ _)
            have hlen : s.stack.length = l1.length + l2.length + 1 := by
              rw [hs]
              simp only [List.length_append, List.length_cons]
              omega
            have hrestlen : rest.length = l1.length + l2.length := by
              rw [hr]
              simp
            have hneq : ∀ e ∈ rest, e ≠ opening := by
              rw [hs] at h2
              obtain ⟨p1, p2, cross⟩ := List.pairwise_append.mp h2
              intro e he heq2
              rcases (by rw [hr] at he; exact List.mem_append.mp he) with
                h | h
              · exact cross e h opening (List.mem_cons_self _ _)
                  (by rw [heq2])
              · exact (List.pairwise_cons.mp p2).1 e h (by rw [heq2])
            by_cases hdep : opening.depth = 0
            · rw [if_pos hdep]
              refine ⟨?_, ?_, ?_, ?_, ?_, ?_, ?_, ?_⟩
              · show s.currentDepth - 1 = rest.length
                rw [h0, hlen, hrestlen]
                omega
              · exact fun e he =>
                  Nat.lt_succ_of_lt (h1 e (hmemrest e he))
              · exact List.Pairwise.sublist hsub h2
              · exact fun e he hed f hf hfd =>
                  h3 e (hmemrest e he) hed f (hmemrest f hf) hfd
              · intro e he hed b hb
                exact absurd
                  (h3 e (hmemrest e he) hed opening hopen hdep)
                  (hneq e he)
              · intro b hb
                rcases List.mem_append.mp hb with h | h
                · exact Nat.lt_succ_of_lt (h5 b h)
                · rw [List.mem_singleton.mp h]
                  exact Nat.lt_succ_self i
              · refine List.pairwise_append.mpr ⟨h6, by simp, ?_⟩
                intro b hb b' hb'
                rw [List.mem_singleton.mp hb']
                exact h4 opening hopen hdep b hb
              · intro b hb
                rcases List.mem_append.mp hb with h | h
                · exact h7 b h
                · rw [List.mem_singleton.mp h]
                  exact h1 opening hopen
            · rw [if_neg hdep]
              refine ⟨?_, ?_, ?_, ?_, ?_, ?_, ?_, ?_⟩
              · show s.currentDepth - 1 = rest.length
                rw [h0, hlen, hrestlen]
                omega
              · exact fun e he =>
                  Nat.lt_succ_of_lt (h1 e (hmemrest e he))
              · exact List.Pairwise.sublist hsub h2
              · exact fun e he hed f hf hfd =>
                  h3 e (hmemrest e he) hed f (hmemrest f hf) hfd
              · exact fun e he hed b hb =>
                  h4 e (hmemrest e he) hed b hb
              · exact fun b hb => Nat.lt_succ_of_lt (h5 b hb)
              · exact h6
              · exact h7
          · exact hkeep

/-- The whole `findBlocks` scan preserves the loop invariant, advancing
the index by the number of words consumed. -/
theorem findBlocksGo_inv (a : BlockAnalyzer) :
    ∀ (ws : List String) (i : ℕ) (s : FindBlocksState), FBInv i s →
    FBInv (i + ws.length) (findBlocksGo a i ws s) := by
  intro ws
  induction ws with
  | nil => intro i s h; exact h
  | cons w ws ih =>
    intro i s h
    have h' := ih (i + 1) (findBlocksStep a s i w)
      (findBlocksStep_inv a i w s h)
    rw [show i + (w :: ws).length = i + 1 + ws.length from by
      simp; omega]
    exact h'

/-- The start-index insertion sort is the identity on a list already
sorted by start index. -/
theorem sortByStart_eq_of_sorted :
    ∀ (l : List Block),
    l.Pairwise (fun b b' => b.startIndex ≤ b'.startIndex) →
    sortByStart l = l := by
  intro l
  induction l with
  | nil => intro _; rfl
  | cons b rest ih =>
    intro h
    obtain ⟨hb, hrest⟩ := List.pairwise_cons.mp h
    rw [sortByStart, ih hrest]
    cases rest with
    | nil => rfl
    | cons c rest' =>
      rw [insertByStart, if_pos (hb c (List.mem_cons_self _ _))]

/-- The blocks found by `BlockAnalyzer.findBlocks` are well-formed, end
inside the word list, and are pairwise ordered with disjoint index
ranges. -/
theorem findBlocks_props (a : BlockAnalyzer) (words : List String) :
    (a.findBlocks words).Pairwise
      (fun b b' => b.endIndex < b'.startIndex) ∧
    (∀ b ∈ a.findBlocks words, b.startIndex < b.endIndex) ∧
    (∀ b ∈ a.findBlocks words, b.endIndex < words.length) := by
  have hinv := findBlocksGo_inv a words 0 ⟨[], 0, []⟩
    ⟨rfl, by simp, List.Pairwise.nil, by simp, by simp, by simp,
      List.Pairwise.nil, by simp⟩
  rw [Nat.zero_add] at hinv
  obtain ⟨-, -, -, -, -, g5, g6, g7⟩ := hinv
  have hsorted : (findBlocksGo a 0 words ⟨[], 0, []⟩).blocks.Pairwise
      (fun b b' => b.startIndex ≤ b'.startIndex) := by
    refine List.Pairwise.imp_of_mem ?_ g6
    intro b b' hb hb' hlt
    have := g7 b hb
    omega
  have heq : a.findBlocks words =
      (findBlocksGo a 0 words ⟨[], 0, []⟩).blocks := by
    rw [BlockAnalyzer.findBlocks]
    exact sortByStart_eq_of_sorted _ hsorted
  rw [heq]
  exact ⟨g6, g7, g5⟩

/-- The first component of a consecutive pair is an element of the list. -/
theorem zip_tail_fst_mem {α : Type} :
    ∀ (l : List α) (p : α × α), p ∈ l.zip l.tail → p.1 ∈ l := by
  intro l
  induction l with
  | nil => intro p hp; simp at hp
  | cons a l ih =>
    intro p hp
    cases l with
    | nil => simp at hp
    | cons b t =>
      simp only [List.tail_cons, List.zip_cons_cons] at hp
      rcases List.mem_cons.mp hp with rfl | hp'
      · exact List.mem_cons_self _ _
      · exact List.mem_cons_of_mem a (ih p hp')

/-- In a strictly increasing chain, the head bounds every element. -/
theorem chain'_head_le :
    ∀ (t : List (ℤ × ℤ)) (b : ℤ × ℤ),
    List.Chain' (fun c n : ℤ × ℤ => c.1 < n.1 ∧ c.2 < n.2) (b :: t) →
    ∀ x ∈ b :: t, b.1 ≤ x.1 ∧ b.2 ≤ x.2 := by
  intro t
  induction t with
  | nil =>
    intro b _ x hx
    rw [List.mem_singleton.mp hx]
    exact ⟨le_refl _, le_refl _⟩
  | cons c t ih =>
    intro b hch x hx
    obtain ⟨hbc, hct⟩ := List.chain'_cons.mp hch
    rcases List.mem_cons.mp hx with rfl | hx'
    · exact ⟨le_refl _, le_refl _⟩
    · have := ih c hct x hx'
      exact ⟨le_trans (le_of_lt hbc.1) this.1,
        le_trans (le_of_lt hbc.2) this.2⟩

/-- Consecutive anchor pairs of a strictly increasing chain are pairwise
ordered: an earlier pair's right anchor never passes a later pair's left
anchor. -/
theorem chain'_zip_pairwise :
    ∀ (l : List (ℤ × ℤ)),
    List.Chain' (fun c n : ℤ × ℤ => c.1 < n.1 ∧ c.2 < n.2) l →
    (l.zip l.tail).Pairwise
      (fun p q => p.2.1 ≤ q.1.1 ∧ p.2.2 ≤ q.1.2) := by
  intro l
  induction l with
  | nil => intro _; exact List.Pairwise.nil
  | cons a l ih =>
    intro hch
    cases l with
    | nil => exact List.Pairwise.nil
    | cons b t =>
      obtain ⟨hab, hbt⟩ := List.chain'_cons.mp hch
      simp only [List.tail_cons, List.zip_cons_cons]
      refine List.pairwise_cons.mpr ⟨?_, ih hbt⟩
      intro q hq
      exact chain'_head_le t b hbt q.1 (zip_tail_fst_mem _ q hq)

/-- The anchored match list is a strictly increasing chain in both
components. -/
theorem anchoredMatches_chain (a : BlockAnalyzer)
    (oldBlocks newBlocks : List Block) (oldWords newWords : List String) :
    List.Chain' (fun c n : ℤ × ℤ => c.1 < n.1 ∧ c.2 < n.2)
      (HtmlDiff.anchoredMatches a oldBlocks newBlocks oldWords newWords) := by
  apply List.Pairwise.chain'
  rw [HtmlDiff.anchoredMatches]
  have hmem := backtrackGo_mem
    (HtmlDiff.scoreForMatch a oldBlocks newBlocks
      (oldBlocks.map (fun b =>
        (String.join (BlockAnalyzer.getBlockInnerWords oldWords b)).length))
      (newBlocks.map (fun b =>
        (String.join (BlockAnalyzer.getBlockInnerWords newWords b)).length)))
    (HtmlDiff.dpGet (HtmlDiff.dpTable
      (HtmlDiff.scoreForMatch a oldBlocks newBlocks
        (oldBlocks.map (fun b =>
          (String.join (BlockAnalyzer.getBlockInnerWords oldWords b)).length))
        (newBlocks.map (fun b =>
          (String.join
            (BlockAnalyzer.getBlockInnerWords newWords b)).length)))
      oldBlocks.length newBlocks.length))
    oldBlocks.length newBlocks.length
    (oldBlocks.length + newBlocks.length + 1) 0 0
  have hpw := backtrackGo_pairwise
    (HtmlDiff.scoreForMatch a oldBlocks newBlocks
      (oldBlocks.map (fun b =>
        (String.join (BlockAnalyzer.getBlockInnerWords oldWords b)).length))
      (newBlocks.map (fun b =>
        (String.join (BlockAnalyzer.getBlockInnerWords newWords b)).length)))
    (HtmlDiff.dpGet (HtmlDiff.dpTable
      (HtmlDiff.scoreForMatch a oldBlocks newBlocks
        (oldBlocks.map (fun b =>
          (String.join (BlockAnalyzer.getBlockInnerWords oldWords b)).length))
        (newBlocks.map (fun b =>
          (String.join
            (BlockAnalyzer.getBlockInnerWords newWords b)).length)))
      oldBlocks.length newBlocks.length))
    oldBlocks.length newBlocks.length
    (oldBlocks.length + newBlocks.length + 1) 0 0
  refine List.pairwise_cons.mpr ⟨?_, ?_⟩
  · intro z hz
    rcases List.mem_append.mp hz with h | h
    · obtain ⟨p, hp, rfl⟩ := List.mem_map.mp h
      constructor
      · show (-1 : ℤ) < (p.1 : ℤ)
        omega
      · show (-1 : ℤ) < (p.2 : ℤ)
        omega
    · rw [List.mem_singleton.mp h]
      constructor
      · show (-1 : ℤ) < (oldBlocks.length : ℤ)
        omega
      · show (-1 : ℤ) < (newBlocks.length : ℤ)
        omega
  · refine List.pairwise_append.mpr ⟨?_, by simp, ?_⟩
    · refine List.Pairwise.map _ ?_ hpw
      intro p q hpq
      refine ⟨?_, ?_⟩
      · show (p.1 : ℤ) < (q.1 : ℤ)
        exact_mod_cast hpq.1
      · show (p.2 : ℤ) < (q.2 : ℤ)
        exact_mod_cast hpq.2
    · intro z hz z' hz'
      obtain ⟨p, hp, rfl⟩ := List.mem_map.mp hz
      rw [List.mem_singleton.mp hz']
      have := hmem p hp
      constructor
      · show (p.1 : ℤ) < (oldBlocks.length : ℤ)
        exact_mod_cast this.2.1
      · show (p.2 : ℤ) < (newBlocks.length : ℤ)
        exact_mod_cast this.2.2.2

/-- The head of a nonempty slice sits at the slice's base index. -/
theorem slice_head (l : List Block) (n m : ℕ) (b0 : Block)
    (bs : List Block) (h : (l.drop n).take m = b0 :: bs) :
    l[n]? = some b0 := by
  have hm : 0 < m := by
    rcases Nat.eq_zero_or_pos m with rfl | hm
    · simp at h
    · exact hm
  have h0 : ((l.drop n).take m)[0]? = some b0 := by
    rw [h]
    exact List.getElem?_cons_zero
  rw [List.getElem?_take, if_pos hm, List.getElem?_drop] at h0
  simpa using h0

/-- The last element of a nonempty slice sits strictly before the slice's
upper bound. -/
theorem slice_last (l : List Block) (n m : ℕ) (b0 : Block)
    (bs : List Block) (h : (l.drop n).take m = b0 :: bs) :
    ∃ i2 b2, l[i2]? = some b2 ∧ n ≤ i2 ∧ i2 < n + m ∧
      HtmlDiff.lastD (b0 :: bs) b0 = b2 := by
  have hlen : (b0 :: bs).length ≤ m := by
    rw [← h, List.length_take]
    exact min_le_left _ _
  have hpos : 0 < (b0 :: bs).length := by simp
  obtain ⟨b2, hb2⟩ : ∃ b2, (b0 :: bs).getLast? = some b2 :=
    Option.isSome_iff_exists.mp (List.getLast?_isSome.mpr (by simp))
  refine ⟨n + ((b0 :: bs).length - 1), b2, ?_, by omega, by omega, ?_⟩
  · have hg : ((l.drop n).take m)[(b0 :: bs).length - 1]? = some b2 := by
      rw [h, ← List.getLast?_eq_getElem?]
      exact hb2
    rw [List.getElem?_take, if_pos (by omega), List.getElem?_drop] at hg
    exact hg
  · rw [HtmlDiff.lastD, hb2]
    rfl

/-- An emitted change range spans from the start of a block strictly
inside its gap to the end of a (same or later) block strictly inside its
gap, on both the old and the new side. -/
theorem gapChange_some_bounds (a : BlockAnalyzer)
    (oldBlocks newBlocks : List Block) (pr : (ℤ × ℤ) × ℤ × ℤ)
    (r : HtmlDiff.ChangeRange)
    (h : gapChange a oldBlocks newBlocks pr = some r) :
    (∃ i1 b1 i2 b2, oldBlocks[i1]? = some b1 ∧ oldBlocks[i2]? = some b2 ∧
      (pr.1.1 + 1).toNat ≤ i1 ∧ i1 ≤ i2 ∧ i2 < pr.2.1.toNat ∧
      r.oldStart = b1.startIndex ∧ r.oldEnd = b2.endIndex) ∧
    (∃ j1 c1 j2 c2, newBlocks[j1]? = some c1 ∧ newBlocks[j2]? = some c2 ∧
      (pr.1.2 + 1).toNat ≤ j1 ∧ j1 ≤ j2 ∧ j2 < pr.2.2.toNat ∧
      r.newStart = c1.startIndex ∧ r.newEnd = c2.endIndex) := by
  cases hor : HtmlDiff.sliceIntRange oldBlocks (pr.1.1 + 1) pr.2.1 with
  | nil =>
    cases hnr : HtmlDiff.sliceIntRange newBlocks (pr.1.2 + 1) pr.2.2 with
    | nil => simp [gapChange, hor, hnr] at h
    | cons n0 ns => simp [gapChange, hor, hnr] at h
  | cons o0 os =>
    cases hnr : HtmlDiff.sliceIntRange newBlocks (pr.1.2 + 1) pr.2.2 with
    | nil => simp [gapChange, hor, hnr] at h
    | cons n0 ns =>
      revert h
      rw [gapChange, hor, hnr]
      show (if (o0 :: os).length = (n0 :: ns).length ∧
          (((o0 :: os).zip (n0 :: ns)).all
            fun p => a.isSameBlockType p.1 p.2) = true then
          Option.none
        else some ⟨o0.startIndex, (HtmlDiff.lastD (o0 :: os) o0).endIndex,
          n0.startIndex, (HtmlDiff.lastD (n0 :: ns) n0).endIndex⟩) =
          some r → _
      intro h
      rw [HtmlDiff.sliceIntRange] at hor hnr
      split at h
      · exact absurd h (by simp)
      · rw [Option.some.injEq] at h
        subst h
        have hmo : 0 < pr.2.1.toNat - (pr.1.1 + 1).toNat := by
          rcases Nat.eq_zero_or_pos (pr.2.1.toNat - (pr.1.1 + 1).toNat)
            with hz | hp
          · rw [hz] at hor
            simp at hor
          · exact hp
        have hmn : 0 < pr.2.2.toNat - (pr.1.2 + 1).toNat := by
          rcases Nat.eq_zero_or_pos (pr.2.2.toNat - (pr.1.2 + 1).toNat)
            with hz | hp
          · rw [hz] at hnr
            simp at hnr
          · exact hp
        constructor
        · obtain ⟨i2, b2, hib, hge, hlt, hlast⟩ :=
            slice_last oldBlocks (pr.1.1 + 1).toNat
              (pr.2.1.toNat - (pr.1.1 + 1).toNat) o0 os hor
          refine ⟨(pr.1.1 + 1).toNat, o0, i2, b2,
            slice_head oldBlocks _ _ o0 os hor, hib, Nat.le_refl _, hge,
            by omega, rfl, ?_⟩
          show (HtmlDiff.lastD (o0 :: os) o0).endIndex = b2.endIndex
          rw [hlast]
        · obtain ⟨j2, c2, hjc, hge, hlt, hlast⟩ :=
            slice_last newBlocks (pr.1.2 + 1).toNat
              (pr.2.2.toNat - (pr.1.2 + 1).toNat) n0 ns hnr
          refine ⟨(pr.1.2 + 1).toNat, n0, j2, c2,
            slice_head newBlocks _ _ n0 ns hnr, hjc, Nat.le_refl _, hge,
            by omega, rfl, ?_⟩
          show (HtmlDiff.lastD (n0 :: ns) n0).endIndex = c2.endIndex
          rw [hlast]

/-- Ordered, well-formed block lists and ordered anchor-pair gaps yield
change ranges that are pairwise disjoint and ascending on both the old
and the new token axis. -/
theorem detectGaps_ordered (a : BlockAnalyzer)
    (oldBlocks newBlocks : List Block)
    (hOldPw : oldBlocks.Pairwise (fun b b' => b.endIndex < b'.startIndex))
    (hNewPw : newBlocks.Pairwise (fun b b' => b.endIndex < b'.startIndex))
    (l : List ((ℤ × ℤ) × ℤ × ℤ))
    (hl : l.Pairwise (fun p q => p.2.1 ≤ q.1.1 ∧ p.2.2 ≤ q.1.2)) :
    (HtmlDiff.detectGaps a oldBlocks newBlocks l).Pairwise
      (fun r1 r2 => r1.oldEnd < r2.oldStart ∧ r1.newEnd < r2.newStart) := by
  rw [detectGaps_eq_filterMap, List.pairwise_filterMap]
  refine hl.imp ?_
  intro p q hpq r hr r' hr'
  rw [Option.mem_def] at hr hr'
  obtain ⟨⟨i1, b1, i2, b2, hi1, hi2, _, hile, hiub, _, hrend⟩,
    ⟨j1, c1, j2, c2, hj1, hj2, _, hjle, hjub, _, hrendn⟩⟩ :=
    gapChange_some_bounds a oldBlocks newBlocks p r hr
  obtain ⟨⟨i1', b1', i2', b2', hi1', hi2', hilb', _, _, hrstart', _⟩,
    ⟨j1', c1', j2', c2', hj1', hj2', hjlb', _, _, hrstartn', _⟩⟩ :=
    gapChange_some_bounds a oldBlocks newBlocks q r' hr'
  have hiord : i2 < i1' := by
    have h1 : p.2.1.toNat ≤ q.1.1.toNat := Int.toNat_le_toNat hpq.1
    have h2 : q.1.1.toNat ≤ (q.1.1 + 1).toNat :=
      Int.toNat_le_toNat (by omega)
    omega
  have hjord : j2 < j1' := by
    have h1 : p.2.2.toNat ≤ q.1.2.toNat := Int.toNat_le_toNat hpq.2
    have h2 : q.1.2.toNat ≤ (q.1.2 + 1).toNat :=
      Int.toNat_le_toNat (by omega)
    omega
  constructor
  · obtain ⟨hvi2, hgi2⟩ := List.getElem?_eq_some.mp hi2
    obtain ⟨hvi1', hgi1'⟩ := List.getElem?_eq_some.mp hi1'
    have := List.pairwise_iff_getElem.mp hOldPw i2 i1' hvi2 hvi1' hiord
    rw [hgi2, hgi1'] at this
    rw [hrend, hrstart']
    exact this
  · obtain ⟨hvj2, hgj2⟩ := List.getElem?_eq_some.mp hj2
    obtain ⟨hvj1', hgj1'⟩ := List.getElem?_eq_some.mp hj1'
    have := List.pairwise_iff_getElem.mp hNewPw j2 j1' hvj2 hvj1' hjord
    rw [hgj2, hgj1'] at this
    rw [hrendn, hrstartn']
    exact this

/-- Every change range spans well-formed token intervals bounded by the
word-list lengths, given well-formed, ordered, in-range blocks. -/
theorem detectGaps_bounds (a : BlockAnalyzer)
    (oldBlocks newBlocks : List Block) (oldLen newLen : ℕ)
    (hOldPw : oldBlocks.Pairwise (fun b b' => b.endIndex < b'.startIndex))
    (hNewPw : newBlocks.Pairwise (fun b b' => b.endIndex < b'.startIndex))
    (hOldWf : ∀ b ∈ oldBlocks, b.startIndex < b.endIndex)
    (hNewWf : ∀ b ∈ newBlocks, b.startIndex < b.endIndex)
    (hOldUb : ∀ b ∈ oldBlocks, b.endIndex < oldLen)
    (hNewUb : ∀ b ∈ newBlocks, b.endIndex < newLen)
    (l : List ((ℤ × ℤ) × ℤ × ℤ)) :
    ∀ r ∈ HtmlDiff.detectGaps a oldBlocks newBlocks l,
      r.oldStart ≤ r.oldEnd ∧ r.oldEnd < oldLen ∧
      r.newStart ≤ r.newEnd ∧ r.newEnd < newLen := by
  intro r hr
  rw [detectGaps_eq_filterMap] at hr
  obtain ⟨pr, -, hpr⟩ := List.mem_filterMap.mp hr
  obtain ⟨⟨i1, b1, i2, b2, hi1, hi2, _, hile, _, hrstart, hrend⟩,
    ⟨j1, c1, j2, c2, hj1, hj2, _, hjle, _, hrstartn, hrendn⟩⟩ :=
    gapChange_some_bounds a oldBlocks newBlocks pr r hpr
  have hold : r.oldStart ≤ r.oldEnd := by
    rw [hrstart, hrend]
    rcases Nat.lt_or_ge i1 i2 with hlt | hge
    · obtain ⟨hv1, hg1⟩ := List.getElem?_eq_some.mp hi1
      obtain ⟨hv2, hg2⟩ := List.getElem?_eq_some.mp hi2
      have hcross := List.pairwise_iff_getElem.mp hOldPw i1 i2 hv1 hv2 hlt
      rw [hg1, hg2] at hcross
      have hw1 := hOldWf b1 (List.getElem?_mem hi1)
      have hw2 := hOldWf b2 (List.getElem?_mem hi2)
      omega
    · have hii : i1 = i2 := by omega
      rw [hii] at hi1
      rw [hi1, Option.some.injEq] at hi2
      subst hi2
      exact le_of_lt (hOldWf b1 (List.getElem?_mem hi1))
  have hnew : r.newStart ≤ r.newEnd := by
    rw [hrstartn, hrendn]
    rcases Nat.lt_or_ge j1 j2 with hlt | hge
    · obtain ⟨hv1, hg1⟩ := List.getElem?_eq_some.mp hj1
      obtain ⟨hv2, hg2⟩ := List.getElem?_eq_some.mp hj2
      have hcross := List.pairwise_iff_getElem.mp hNewPw j1 j2 hv1 hv2 hlt
      rw [hg1, hg2] at hcross
      have hw1 := hNewWf c1 (List.getElem?_mem hj1)
      have hw2 := hNewWf c2 (List.getElem?_mem hj2)
      omega
    · have hjj : j1 = j2 := by omega
      rw [hjj] at hj1
      rw [hj1, Option.some.injEq] at hj2
      subst hj2
      exact le_of_lt (hNewWf c1 (List.getElem?_mem hj1))
  refine ⟨hold, ?_, hnew, ?_⟩
  · rw [hrend]
    exact hOldUb b2 (List.getElem?_mem hi2)
  · rw [hrendn]
    exact hNewUb c2 (List.getElem?_mem hj2)

/-- A slice reaching the end of the word list is the drop. -/
theorem sliceWords_to_end (w : List String) (p : ℕ) :
    HtmlDiff.sliceWords w p w.length = w.drop p := by
  rw [HtmlDiff.sliceWords]
  have h : (w.drop p).length = w.length - p := List.length_drop _ _
  rw [← h, List.take_length]

/-- The renderer walk equals the segment list rendered in order, and the
segments' old-side and new-side ranges tile the remaining intervals of
both token axes. -/
theorem go_segments (oldWords newWords : List String) :
    ∀ (changes : List HtmlDiff.ChangeRange) (oldPos newPos : ℕ),
    oldPos ≤ oldWords.length → newPos ≤ newWords.length →
    (∀ c ∈ changes, oldPos ≤ c.oldStart ∧ newPos ≤ c.newStart ∧
      c.oldStart ≤ c.oldEnd ∧ c.newStart ≤ c.newEnd ∧
      c.oldEnd < oldWords.length ∧ c.newEnd < newWords.length) →
    changes.Pairwise (fun c1 c2 => c1.oldEnd < c2.oldStart ∧
      c1.newEnd < c2.newStart) →
    HtmlDiff.diffWithBlockTypeChangesGo oldWords newWords oldPos newPos
        changes =
      (btcSegments oldWords.length newWords.length oldPos newPos
        changes).flatMap (btcRenderSeg oldWords newWords) ∧
    Tiles oldPos ((btcSegments oldWords.length newWords.length oldPos
      newPos changes).map (fun s => s.2.1)) oldWords.length ∧
    Tiles newPos ((btcSegments oldWords.length newWords.length oldPos
      newPos changes).map (fun s => s.2.2)) newWords.length := by
  intro changes
  induction changes with
  | nil =>
    intro oldPos newPos hop hnp _ _
    rw [HtmlDiff.diffWithBlockTypeChangesGo, btcSegments]
    by_cases hcond : oldPos < oldWords.length ∨ newPos < newWords.length
    · rw [if_pos hcond, if_pos hcond]
      have hinner : (oldWords.drop oldPos).length > 0 ∨
          (newWords.drop newPos).length > 0 := by
        rw [List.length_drop, List.length_drop]
        omega
      refine ⟨?_, ⟨rfl, hop, rfl⟩, ⟨rfl, hnp, rfl⟩⟩
      simp only [if_pos hinner, List.flatMap_cons, List.flatMap_nil,
        btcRenderSeg, List.append_nil, Bool.false_eq_true, reduceIte,
        sliceWords_to_end]
    · rw [if_neg hcond, if_neg hcond]
      refine ⟨rfl, ?_, ?_⟩
      · show oldPos = oldWords.length
        omega
      · show newPos = newWords.length
        omega
  | cons c rest ih =>
    intro oldPos newPos hop hnp hbounds hpw
    obtain ⟨hc1, hc2, hc3, hc4, hc5, hc6⟩ :=
      hbounds c (List.mem_cons_self _ _)
    obtain ⟨hhead, hpwrest⟩ := List.pairwise_cons.mp hpw
    obtain ⟨ihEq, ihOld, ihNew⟩ := ih (c.oldEnd + 1) (c.newEnd + 1)
      (by omega) (by omega)
      (fun c' hc' => by
        have h1 := hhead c' hc'
        have h2 := hbounds c' (List.mem_cons_of_mem c hc')
        exact ⟨by omega, by omega, h2.2.2.1, h2.2.2.2.1, h2.2.2.2.2.1,
          h2.2.2.2.2.2⟩)
      hpwrest
    rw [HtmlDiff.diffWithBlockTypeChangesGo, btcSegments]
    by_cases hcond : oldPos < c.oldStart ∨ newPos < c.newStart
    · rw [if_pos hcond, if_pos hcond]
      have hinner :
          (HtmlDiff.sliceWords oldWords oldPos c.oldStart).length > 0 ∨
          (HtmlDiff.sliceWords newWords newPos c.newStart).length > 0 := by
        rw [HtmlDiff.sliceWords, HtmlDiff.sliceWords, List.length_take,
          List.length_take, List.length_drop, List.length_drop]
        omega
      refine ⟨?_, ?_, ?_⟩
      · simp only [if_pos hinner, ihEq, List.flatMap_append,
          List.flatMap_cons, List.flatMap_nil, btcRenderSeg,
          List.append_nil, List.append_assoc, Bool.false_eq_true,
          reduceIte]
      · simp only [List.map_append, List.map_cons, List.map_nil,
          List.singleton_append, List.cons_append, List.nil_append]
        exact ⟨rfl, hc1, rfl, by omega, ihOld⟩
      · simp only [List.map_append, List.map_cons, List.map_nil,
          List.singleton_append, List.cons_append, List.nil_append]
        exact ⟨rfl, hc2, rfl, by omega, ihNew⟩
    · rw [if_neg hcond, if_neg hcond]
      refine ⟨?_, ?_, ?_⟩
      · simp only [ihEq, List.flatMap_append, List.flatMap_cons,
          List.flatMap_nil, btcRenderSeg, List.append_nil,
          List.append_assoc, List.nil_append, Bool.false_eq_true,
          reduceIte]
      · simp only [List.map_append, List.map_cons, List.map_nil,
          List.singleton_append, List.cons_append, List.nil_append]
        exact ⟨by omega, by omega, ihOld⟩
      · simp only [List.map_append, List.map_cons, List.map_nil,
          List.singleton_append, List.cons_append, List.nil_append]
        exact ⟨by omega, by omega, ihNew⟩

/-- C9: for every pair of inputs, the anchor list returned by
`matchBlocksByTypeSimilarity` over the found blocks is strictly
increasing in both the old and the new block index; the change ranges
returned by `detectBlockTypeChanges` are pairwise disjoint and ascending
on both token index axes; and `diffWithBlockTypeChanges` renders exactly
the ordered segment list `btcSegments` — one word-level sub-diff per gap
and one del/ins pair per change — whose old-side ranges tile
`[0, oldWords.length)` and new-side ranges tile `[0, newWords.length)`,
so every old and new token index falls in exactly one segment. -/
theorem block_alignment_invariants (a : BlockAnalyzer)
    (oldWords newWords : List String) :
    (HtmlDiff.matchBlocksByTypeSimilarity a (a.findBlocks oldWords)
      (a.findBlocks newWords) oldWords newWords).Pairwise
      (fun p q => p.1 < q.1 ∧ p.2 < q.2) ∧
    (HtmlDiff.detectBlockTypeChanges a (a.findBlocks oldWords)
      (a.findBlocks newWords) oldWords newWords).Pairwise
      (fun r1 r2 => r1.oldEnd < r2.oldStart ∧ r1.newEnd < r2.newStart) ∧
    HtmlDiff.diffWithBlockTypeChanges oldWords newWords
        (HtmlDiff.detectBlockTypeChanges a (a.findBlocks oldWords)
          (a.findBlocks newWords) oldWords newWords) =
      String.join ((btcSegments oldWords.length newWords.length 0 0
        (HtmlDiff.detectBlockTypeChanges a (a.findBlocks oldWords)
          (a.findBlocks newWords) oldWords newWords)).flatMap
        (btcRenderSeg oldWords newWords)) ∧
    Tiles 0 ((btcSegments oldWords.length newWords.length 0 0
      (HtmlDiff.detectBlockTypeChanges a (a.findBlocks oldWords)
        (a.findBlocks newWords) oldWords newWords)).map
      (fun s => s.2.1)) oldWords.length ∧
    Tiles 0 ((btcSegments oldWords.length newWords.length 0 0
      (HtmlDiff.detectBlockTypeChanges a (a.findBlocks oldWords)
        (a.findBlocks newWords) oldWords newWords)).map
      (fun s => s.2.2)) newWords.length ∧
    (∀ k, k < oldWords.length → ∃! idx : ℕ, ∃ r,
      ((btcSegments oldWords.length newWords.length 0 0
        (HtmlDiff.detectBlockTypeChanges a (a.findBlocks oldWords)
          (a.findBlocks newWords) oldWords newWords)).map
        (fun s => s.2.1))[idx]? = some r ∧ r.1 ≤ k ∧ k < r.2) ∧
    (∀ k, k < newWords.length → ∃! idx : ℕ, ∃ r,
      ((btcSegments oldWords.length newWords.length 0 0
        (HtmlDiff.detectBlockTypeChanges a (a.findBlocks oldWords)
          (a.findBlocks newWords) oldWords newWords)).map
        (fun s => s.2.2))[idx]? = some r ∧ r.1 ≤ k ∧ k < r.2) := by
  obtain ⟨hOldPw, hOldWf, hOldUb⟩ := findBlocks_props a oldWords
  obtain ⟨hNewPw, hNewWf, hNewUb⟩ := findBlocks_props a newWords
  have hanchor : (HtmlDiff.matchBlocksByTypeSimilarity a
      (a.findBlocks oldWords) (a.findBlocks newWords) oldWords
      newWords).Pairwise (fun p q => p.1 < q.1 ∧ p.2 < q.2) :=
    backtrackGo_pairwise
      (HtmlDiff.scoreForMatch a (a.findBlocks oldWords)
        (a.findBlocks newWords)
        ((a.findBlocks oldWords).map (fun b =>
          (String.join
            (BlockAnalyzer.getBlockInnerWords oldWords b)).length))
        ((a.findBlocks newWords).map (fun b =>
          (String.join
            (BlockAnalyzer.getBlockInnerWords newWords b)).length)))
      (HtmlDiff.dpGet (HtmlDiff.dpTable
        (HtmlDiff.scoreForMatch a (a.findBlocks oldWords)
          (a.findBlocks newWords)
          ((a.findBlocks oldWords).map (fun b =>
            (String.join
              (BlockAnalyzer.getBlockInnerWords oldWords b)).length))
          ((a.findBlocks newWords).map (fun b =>
            (String.join
              (BlockAnalyzer.getBlockInnerWords newWords b)).length)))
        (a.findBlocks oldWords).length (a.findBlocks newWords).length))
      (a.findBlocks oldWords).length (a.findBlocks newWords).length
      ((a.findBlocks oldWords).length + (a.findBlocks newWords).length + 1)
      0 0
  have hdetect : (HtmlDiff.detectBlockTypeChanges a
      (a.findBlocks oldWords) (a.findBlocks newWords) oldWords
      newWords).Pairwise
      (fun r1 r2 => r1.oldEnd < r2.oldStart ∧ r1.newEnd < r2.newStart) :=
    detectGaps_ordered a (a.findBlocks oldWords) (a.findBlocks newWords)
      hOldPw hNewPw _
      (chain'_zip_pairwise _
        (anchoredMatches_chain a (a.findBlocks oldWords)
          (a.findBlocks newWords) oldWords newWords))
  have hbounds := detectGaps_bounds a (a.findBlocks oldWords)
    (a.findBlocks newWords) oldWords.length newWords.length hOldPw hNewPw
    hOldWf hNewWf hOldUb hNewUb
    ((HtmlDiff.anchoredMatches a (a.findBlocks oldWords)
      (a.findBlocks newWords) oldWords newWords).zip
      (HtmlDiff.anchoredMatches a (a.findBlocks oldWords)
        (a.findBlocks newWords) oldWords newWords).tail)
  obtain ⟨hEq, hTOld, hTNew⟩ := go_segments oldWords newWords
    (HtmlDiff.detectBlockTypeChanges a (a.findBlocks oldWords)
      (a.findBlocks newWords) oldWords newWords) 0 0
    (Nat.zero_le _) (Nat.zero_le _)
    (fun c hc => by
      have h := hbounds c hc
      exact ⟨Nat.zero_le _, Nat.zero_le _, h.1, h.2.2.1, h.2.1,
        h.2.2.2⟩)
    hdetect
  refine ⟨hanchor, hdetect, ?_, hTOld, hTNew, ?_, ?_⟩
  · show String.join (HtmlDiff.diffWithBlockTypeChangesGo oldWords
      newWords 0 0 _) = _
    rw [hEq]
  · exact fun k hk => tiles_cover_unique _ 0 _ k hTOld (Nat.zero_le k) hk
  · exact fun k hk => tiles_cover_unique _ 0 _ k hTNew (Nat.zero_le k) hk

end DiffHtmls
